import Mathlib

/-!
The task store of taskctl, its persistence and its sorted views: a shallow
embedding of `main.go` (package `main` of milkjo3/taskctl).

Conventions of the embedding.

* A Go `string` is its sequence of bytes, `GoString := List Nat` with every
  element below 256.  Go strings are not required to be valid UTF-8.
* A Go slice is modelled by value.  `none` is the nil slice, `some xs` a
  non-nil slice holding `xs`.
* The process environment is a `World`: the files on disk, a counter of the
  completed `os.WriteFile` calls, and the lines still to be delivered on
  standard input (an interactive terminal hands one line to every
  `ReadString` call; at end of input `ReadString` yields the empty string).
* Text printed with `fmt.Print*` is not modelled, except that every view
  returns the rows of the table it prints, in printed order.
* Functions of the Go standard library (`strings`, `strconv`,
  `unicode/utf8`, `encoding/json`, `sort`, `time`) are modelled from their
  documented behaviour and keep their Go names; `int` has 64 bits.
-/

namespace Taskctl

/-! ## Go strings -/

/-- A Go string, as its bytes. -/
abbrev GoString := List Nat

/-- The bytes of an ASCII literal of the source. -/
def lit (s : String) : GoString := s.data.map Char.toNat

/-! ## `unicode/utf8` -/

/-- The rune `utf8.RuneError`, U+FFFD. -/
def RuneError : Nat := 0xFFFD

/-- Continuation byte test (`locb <= b <= hicb`). -/
def isCont (b : Nat) : Bool := 0x80 ≤ b && b ≤ 0xBF

/-- Go `utf8.DecodeRuneInString`: the first rune of `s` and its width in
bytes.  An empty string gives `(RuneError, 0)`, an encoding that is invalid
(bad lead byte, truncated, overlong, surrogate, beyond U+10FFFF) gives
`(RuneError, 1)`. -/
def DecodeRuneInString (s : GoString) : Nat × Nat :=
  match s with
  | [] => (RuneError, 0)
  | s0 :: t =>
    if s0 < 0x80 then (s0, 1)
    else if s0 < 0xC2 then (RuneError, 1)
    else if s0 < 0xE0 then
      match t with
      | s1 :: _ => if isCont s1 then ((s0 % 32) * 64 + s1 % 64, 2) else (RuneError, 1)
      | _ => (RuneError, 1)
    else if s0 < 0xF0 then
      match t with
      | s1 :: s2 :: _ =>
        let lo := if s0 = 0xE0 then 0xA0 else 0x80
        let hi := if s0 = 0xED then 0x9F else 0xBF
        if lo ≤ s1 && s1 ≤ hi && isCont s2 then
          ((s0 % 16) * 4096 + (s1 % 64) * 64 + s2 % 64, 3)
        else (RuneError, 1)
      | _ => (RuneError, 1)
    else if s0 < 0xF5 then
      match t with
      | s1 :: s2 :: s3 :: _ =>
        let lo := if s0 = 0xF0 then 0x90 else 0x80
        let hi := if s0 = 0xF4 then 0x8F else 0xBF
        if lo ≤ s1 && s1 ≤ hi && isCont s2 && isCont s3 then
          ((s0 % 8) * 262144 + (s1 % 64) * 4096 + (s2 % 64) * 64 + s3 % 64, 4)
        else (RuneError, 1)
      | _ => (RuneError, 1)
    else (RuneError, 1)

/-- Go `utf8.AppendRune` / `utf8.EncodeRune`: the UTF-8 encoding of a rune;
surrogates and values beyond U+10FFFF are encoded as U+FFFD. -/
def EncodeRune (r : Nat) : GoString :=
  if r < 0x80 then [r]
  else if r < 0x800 then [0xC0 + r / 64, 0x80 + r % 64]
  else if (0xD800 ≤ r && r ≤ 0xDFFF) || 0x10FFFF < r then [0xEF, 0xBF, 0xBD]
  else if r < 0x10000 then [0xE0 + r / 4096, 0x80 + (r / 64) % 64, 0x80 + r % 64]
  else [0xF0 + r / 262144, 0x80 + (r / 4096) % 64, 0x80 + (r / 64) % 64, 0x80 + r % 64]

/-- The runes of a string with their widths, as `for i, r := range s`
delivers them (an invalid byte is delivered as `RuneError` of width 1). -/
def runesAux : Nat → GoString → List (Nat × Nat)
  | 0, _ => []
  | _, [] => []
  | fuel + 1, s =>
    let rs := DecodeRuneInString s
    rs :: runesAux fuel (s.drop rs.2)

/-- The runes of a string, in order, each with its width. -/
def runes (s : GoString) : List (Nat × Nat) := runesAux s.length s

/-- Well-formed UTF-8: no position of the string decodes to an encoding
error.  (`utf8.ValidString`.) -/
def ValidString (s : GoString) : Bool :=
  (runes s).all (fun rs => !(rs.1 = RuneError && rs.2 = 1))

/-- Go `utf8.RuneStart`: the byte is not a continuation byte. -/
def RuneStart (b : Nat) : Bool := !isCont b

/-- The backwards scan of `utf8.DecodeLastRuneInString` for the start of the
last rune.  The argument and the result are the candidate index plus one, so
that the index -1 the Go loop can reach is representable. -/
def lastRuneStart (s : GoString) (lim : Nat) : Nat → Nat
  | 0 => 0
  | k + 1 =>
    if k < lim then k + 1
    else if RuneStart (s.getD k 0) then k + 1
    else lastRuneStart s lim k

/-- Go `utf8.DecodeLastRuneInString`: the last rune of `s` and its width. -/
def DecodeLastRuneInString (s : GoString) : Nat × Nat :=
  let e := s.length
  if e = 0 then (RuneError, 0)
  else
    let r := s.getD (e - 1) 0
    if r < 0x80 then (r, 1)
    else
      let start := lastRuneStart s (e - 4) (e - 1) - 1
      let rs := DecodeRuneInString (s.drop start)
      if start + rs.2 ≠ e then (RuneError, 1) else rs

/-! ## `unicode` and `strings` -/

/-- Go `unicode.IsSpace`. -/
def IsSpace (r : Nat) : Bool :=
  if r ≤ 0xFF then
    r = 9 || r = 10 || r = 11 || r = 12 || r = 13 || r = 32 || r = 0x85 || r = 0xA0
  else
    r = 0x1680 || (0x2000 ≤ r && r ≤ 0x200A) || r = 0x2028 || r = 0x2029 ||
      r = 0x202F || r = 0x205F || r = 0x3000

/-- The table `asciiSpace` of package `strings`. -/
def asciiSpace (c : Nat) : Bool :=
  c = 9 || c = 10 || c = 11 || c = 12 || c = 13 || c = 32

/-- Go `strings.TrimLeftFunc s unicode.IsSpace` (the first argument is the
loop bound). -/
def trimLeftSpace : Nat → GoString → GoString
  | 0, s => s
  | _, [] => []
  | fuel + 1, s =>
    let rs := DecodeRuneInString s
    if IsSpace rs.1 then trimLeftSpace fuel (s.drop rs.2) else s

/-- Go `strings.TrimRightFunc s unicode.IsSpace` (the first argument is the
loop bound): runes are removed from the end while they are spaces. -/
def trimRightSpace : Nat → GoString → GoString
  | 0, s => s
  | _, [] => []
  | fuel + 1, s =>
    let rs := DecodeLastRuneInString s
    if IsSpace rs.1 then trimRightSpace fuel (s.take (s.length - rs.2)) else s

/-- The second loop of Go `strings.TrimSpace`, on the reversed remainder:
ASCII spaces are removed from the end; at a non-ASCII byte the function
falls back to `TrimRightFunc`. -/
def trimSpaceRight : Nat → GoString → GoString
  | 0, s => s
  | fuel + 1, s =>
    match s.getLast? with
    | none => []
    | some c =>
      if 0x80 ≤ c then trimRightSpace s.length s
      else if asciiSpace c then trimSpaceRight fuel s.dropLast
      else s

/-- Go `strings.TrimSpace`: `s` without leading and trailing white space
(as defined by Unicode).  The first loop removes leading ASCII spaces and, at
a non-ASCII byte, falls back to `TrimFunc` on the remainder. -/
def TrimSpace : GoString → GoString
  | [] => []
  | c :: rest =>
    if 0x80 ≤ c then
      let l := trimLeftSpace (c :: rest).length (c :: rest)
      trimRightSpace l.length l
    else if asciiSpace c then TrimSpace rest
    else trimSpaceRight (c :: rest).length (c :: rest)

/-- Go `unicode.ToLower`.  The case tables of package `unicode` are not
reproduced: `tbl` stands for them on the runes above U+007F. -/
def unicodeToLower (tbl : Nat → Nat) (r : Nat) : Nat :=
  if r < 0x80 then (if 65 ≤ r && r ≤ 90 then r + 32 else r) else tbl r

/-- Go `strings.ToLower`: ASCII-only strings are mapped byte by byte, any
other string rune by rune with `strings.Map unicode.ToLower`. -/
def ToLower (tbl : Nat → Nat) (s : GoString) : GoString :=
  if s.all (fun c => c < 0x80) then
    s.map (fun c => if 65 ≤ c && c ≤ 90 then c + 32 else c)
  else
    ((runes s).map (fun rs => EncodeRune (unicodeToLower tbl rs.1))).flatten

/-! ## `time` -/

/-- The calendar date of a `time.Time` produced by parsing with the layout
`2006-01-02` (midnight UTC of that day). -/
structure Time where
  year : Nat
  month : Nat
  day : Nat
deriving DecidableEq, Repr

/-- Go `Time.Before` on two such instants. -/
def Time.Before (t u : Time) : Bool :=
  t.year < u.year || (t.year = u.year && (t.month < u.month ||
    (t.month = u.month && t.day < u.day)))

/-- ASCII digit test (`isDigit` of package `time`). -/
def isDigit (c : Nat) : Bool := 48 ≤ c && c ≤ 57

/-- The function `isLeap` of package `time`. -/
def isLeap (year : Nat) : Bool := year % 4 = 0 && (year % 100 ≠ 0 || year % 400 = 0)

/-- The function `daysIn` of package `time`. -/
def daysIn (month year : Nat) : Nat :=
  if month = 2 then (if isLeap year then 29 else 28)
  else if month = 4 || month = 6 || month = 9 || month = 11 then 30
  else 31

/-- Go `time.Parse("2006-01-02", value)`: four digits of year, `-`, two
digits of month in 1..12, `-`, two digits of day in 1..daysIn, and nothing
else.  `none` is a parse error. -/
def timeParse (value : GoString) : Option Time :=
  match value with
  | [y1, y2, y3, y4, d1, m1, m2, d2, a1, a2] =>
    if isDigit y1 && isDigit y2 && isDigit y3 && isDigit y4 && d1 = 45 &&
        isDigit m1 && isDigit m2 && d2 = 45 && isDigit a1 && isDigit a2 then
      let year := (y1 - 48) * 1000 + (y2 - 48) * 100 + (y3 - 48) * 10 + (y4 - 48)
      let month := (m1 - 48) * 10 + (m2 - 48)
      let day := (a1 - 48) * 10 + (a2 - 48)
      if month = 0 || 12 < month then none
      else if day < 1 || daysIn month year < day then none
      else some ⟨year, month, day⟩
    else none
  | _ => none

/-! ## The data model of `main.go` -/

/-- The struct `Task`. -/
structure Task where
  Name : GoString
  Done : Bool
  Priority : GoString
  DueDate : GoString
deriving DecidableEq, Repr

/-- The struct `taskCtlr`.  `Tasks` is a slice: `none` is nil. -/
structure taskCtlr where
  Tasks : Option (List Task)
  Filename : GoString
deriving DecidableEq, Repr

/-- The elements of the slice `tm.Tasks`. -/
def taskCtlr.elems (tm : taskCtlr) : List Task := tm.Tasks.getD []

/-- The environment of the process. -/
structure World where
  /-- the contents of the file at a path, if the file exists -/
  files : GoString → Option GoString
  /-- how many calls of `os.WriteFile` have completed -/
  writes : Nat
  /-- the lines still to be read from standard input, each as `ReadString`
  returns it (terminated by a newline, except possibly the last) -/
  stdin : List GoString

/-- Go `os.WriteFile` when the operating system accepts the write: the file
at `name` now holds `data`. -/
def World.WriteFile (w : World) (name data : GoString) : World :=
  { w with files := fun n => if n = name then some data else w.files n,
           writes := w.writes + 1 }

/-- One `reader.ReadString` call on standard input: the next line and the
world after it.  At end of input the call yields the empty string. -/
def World.ReadString (w : World) : GoString × World :=
  match w.stdin with
  | [] => ([], w)
  | l :: rest => (l, { w with stdin := rest })

/-! ## `encoding/json`, encoding -/

/-- The table `hex` of package `encoding/json`. -/
def hex (n : Nat) : Nat := (lit "0123456789abcdef").getD n 0

/-- The table `htmlSafeSet`: the ASCII bytes that a JSON string holds
unescaped when HTML escaping is on. -/
def htmlSafeSet (b : Nat) : Bool :=
  0x20 ≤ b && b < 0x80 && b ≠ 0x22 && b ≠ 0x5C && b ≠ 0x3C && b ≠ 0x3E && b ≠ 0x26

/-- The body of `appendString` of package `encoding/json` with HTML escaping
on (what `json.Marshal` uses): the text between the quotes.  The first
argument bounds the loop. -/
def appendStringAux : Nat → GoString → GoString
  | 0, _ => []
  | _, [] => []
  | fuel + 1, b :: rest =>
    if b < 0x80 then
      (if htmlSafeSet b then [b]
       else if b = 0x5C || b = 0x22 then [0x5C, b]
       else if b = 8 then [0x5C, 0x62]
       else if b = 12 then [0x5C, 0x66]
       else if b = 10 then [0x5C, 0x6E]
       else if b = 13 then [0x5C, 0x72]
       else if b = 9 then [0x5C, 0x74]
       else [0x5C, 0x75, 0x30, 0x30, hex (b / 16), hex (b % 16)])
        ++ appendStringAux fuel rest
    else
      let cs := DecodeRuneInString (b :: rest)
      if cs.1 = RuneError && cs.2 = 1 then
        lit "\\ufffd" ++ appendStringAux fuel rest
      else if cs.1 = 0x2028 || cs.1 = 0x2029 then
        lit "\\u202" ++ [hex (cs.1 % 16)] ++ appendStringAux fuel ((b :: rest).drop cs.2)
      else
        (b :: rest).take cs.2 ++ appendStringAux fuel ((b :: rest).drop cs.2)

/-- The function `appendString` of package `encoding/json`: a Go string as a
JSON string literal. -/
def appendString (s : GoString) : GoString :=
  [0x22] ++ appendStringAux s.length s ++ [0x22]

/-- One `Task` as `json.MarshalIndent(_, "", "  ")` writes it inside the
array: the four fields in declaration order under their `json` tags, indented
by four spaces, the closing brace by two. -/
def marshalTask (t : Task) : GoString :=
  [0x7B, 10] ++
  lit "    \"name\": " ++ appendString t.Name ++ [0x2C, 10] ++
  lit "    \"done\": " ++ (if t.Done then lit "true" else lit "false") ++ [0x2C, 10] ++
  lit "    \"priority\": " ++ appendString t.Priority ++ [0x2C, 10] ++
  lit "    \"dueDate\": " ++ appendString t.DueDate ++ [10] ++
  lit "  " ++ [0x7D]

/-- The elements of a non-empty array as `MarshalIndent` writes them: each
on a new line indented by two spaces, separated by commas. -/
def marshalElems : List Task → GoString
  | [] => []
  | [t] => [10] ++ lit "  " ++ marshalTask t
  | t :: ts => [10] ++ lit "  " ++ marshalTask t ++ [0x2C] ++ marshalElems ts

/-- Go `json.MarshalIndent(tm.Tasks, "", "  ")` for a `[]Task`.  It cannot
fail on this type.  A nil slice is `null`, an empty one `[]`. -/
def MarshalIndent (ts : Option (List Task)) : GoString :=
  match ts with
  | none => lit "null"
  | some [] => lit "[]"
  | some (t :: r) => [0x5B] ++ marshalElems (t :: r) ++ [10, 0x5D]

/-! ## The operations of `main.go` -/

/-- The decimal digits of `n`, in front of `acc`; the first argument bounds
the number of digits. -/
def formatDigits : Nat → Nat → GoString → GoString
  | 0, _, acc => acc
  | fuel + 1, n, acc =>
    if n < 10 then (48 + n) :: acc else formatDigits fuel (n / 10) ((48 + n % 10) :: acc)

/-- The decimal text of an `int`, as the run time prints it. -/
def formatInt (i : Int) : GoString :=
  if i < 0 then 45 :: formatDigits (i.natAbs + 1) i.natAbs []
  else formatDigits (i.toNat + 1) i.toNat []

/-- The text of the run-time panic of an index expression `s[x]` with
`len(s) = y` (`runtime.boundsError.Error`): the length is reported only
when the index is not negative. -/
def indexOutOfRange (x : Int) (y : Nat) : GoString :=
  if x < 0 then lit "runtime error: index out of range [" ++ formatInt x ++ lit "]"
  else lit "runtime error: index out of range [" ++ formatInt x ++ lit "] with length "
    ++ formatInt y

/-- How a call of a Go function ends. -/
inductive Outcome (α : Type) where
  /-- the function returned -/
  | ret : α → Outcome α
  /-- a run-time panic stopped the process: its text, and the world as it
  was then -/
  | panicked : GoString → World → Outcome α

/-- The value a call returned, if it returned. -/
def Outcome.returned {α : Type} : Outcome α → Option α
  | Outcome.ret r => some r
  | Outcome.panicked _ _ => none

/-- The value of a run of decimal digits after `n`, or `none` when a byte
is not a digit. -/
def digitsValue : GoString → Nat → Option Nat
  | [], n => some n
  | c :: rest, n => if 48 ≤ c ∧ c ≤ 57 then digitsValue rest (n * 10 + (c - 48)) else none

/-- Go `strconv.Atoi`: the `int` a text denotes, an optional sign followed
by decimal digits.  `none`: the call returns an error (a syntax error, or a
value outside the range of `int`). -/
def Atoi (s : GoString) : Option Int :=
  match s with
  | [] => none
  | c :: rest =>
    let body := if c = 45 ∨ c = 43 then rest else s
    if body = [] then none
    else match digitsValue body 0 with
      | none => none
      | some n =>
        if c = 45 then (if n ≤ 2 ^ 63 then some (-(n : Int)) else none)
        else (if n < 2 ^ 63 then some (n : Int) else none)

/-- The loop of `getValidIndex` over the lines of standard input, for a
slice of length `n`: a line is passed over when `strconv.Atoi` rejects it,
trimmed, or when the index is outside `[0, n)`. -/
def getValidIndexLoop (n : Nat) : List GoString → Option (Int × List GoString)
  | [] => none
  | input :: rest =>
    match Atoi (TrimSpace input) with
    | none => getValidIndexLoop n rest
    | some index =>
      if index < 0 ∨ index ≥ n then getValidIndexLoop n rest else some (index, rest)

/-- The function `getValidIndex`: `-1` without reading when there is no task,
else lines are read until one is an index of `tm.Tasks`.  `none`: the input
ends before such a line, and the loop never returns (every further read
yields the empty string). -/
def getValidIndex (tm : taskCtlr) (w : World) : Option (Int × World) :=
  if tm.elems.length = 0 then some (-1, w)
  else match getValidIndexLoop tm.elems.length w.stdin with
    | none => none
    | some (index, rest) => some (index, { w with stdin := rest })

/-- The function `pause`: one line of standard input is read and dropped. -/
def pause (w : World) : World := w.ReadString.2

/-- The function `saveTasks`: the whole slice is encoded and written to
`tm.Filename`.  The encoding cannot fail on a `[]Task`, and the write is
taken to succeed, so the returned `error` is nil and only the world after
the call is given. -/
def saveTasks (tm : taskCtlr) (w : World) : World :=
  w.WriteFile tm.Filename (MarshalIndent tm.Tasks)

/-- The function `getValidPriority`: lines are read until one is, trimmed
and lower-cased, `low`, `medium` or `high`.  `none`: the input ends before
such a line, and the loop never returns (every further read yields the empty
string). -/
def getValidPriority (tbl : Nat → Nat) : List GoString → Option (GoString × List GoString)
  | [] => none
  | input :: rest =>
    let priority := ToLower tbl (TrimSpace input)
    if priority = lit "low" || priority = lit "medium" || priority = lit "high" then
      some (priority, rest)
    else getValidPriority tbl rest

/-- The function `getValidDueDate`: lines are read until one is, trimmed,
empty or a date `time.Parse` accepts.  At end of input the read yields the
empty string, which is returned. -/
def getValidDueDate : List GoString → GoString × List GoString
  | [] => ([], [])
  | input :: rest =>
    let dueDate := TrimSpace input
    if dueDate = [] then ([], rest)
    else match timeParse dueDate with
      | none => getValidDueDate rest
      | some _ => (dueDate, rest)

/-- The function `createTask`.  `none`: the call never returns. -/
def createTask (tbl : Nat → Nat) (tm : taskCtlr) (w : World) : Option (taskCtlr × World) :=
  let r := w.ReadString
  let taskName := TrimSpace r.1
  match getValidPriority tbl r.2.stdin with
  | none => none
  | some (taskPriority, rest) =>
    let d := getValidDueDate rest
    let task : Task := ⟨taskName, false, taskPriority, d.1⟩
    let tm1 : taskCtlr := { tm with Tasks := some (tm.elems ++ [task]) }
    some (tm1, saveTasks tm1 { r.2 with stdin := d.2 })

/-- The function `readTask`: the row it prints, or nothing when it reports
an invalid index. -/
def readTask (tm : taskCtlr) (index : Int) : Option (Int × Task) :=
  if index < 0 ∨ index ≥ tm.elems.length then none
  else (tm.elems.get? index.toNat).map (fun t => (index, t))

/-- The function `toggleTaskDone`.  The element is indexed without a bounds
check, so an index outside the slice is a run-time panic. -/
def toggleTaskDone (tm : taskCtlr) (w : World) (index : Int) : Outcome (taskCtlr × World) :=
  if index < 0 ∨ index ≥ tm.elems.length then
    Outcome.panicked (indexOutOfRange index tm.elems.length) w
  else
    let tm1 : taskCtlr :=
      { tm with Tasks := some (tm.elems.modify (fun t => { t with Done := !t.Done }) index.toNat) }
    Outcome.ret (tm1, saveTasks tm1 w)

/-- The store after the assignment
`tm.Tasks[index].Done = !tm.Tasks[index].Done`, for an index of the slice. -/
def toggled (tm : taskCtlr) (index : Int) : taskCtlr :=
  { tm with Tasks := some (tm.elems.modify (fun t => { t with Done := !t.Done }) index.toNat) }

/-- The function `deleteTask`.  The third component is the returned `error`
(`none` is nil). -/
def deleteTask (tm : taskCtlr) (w : World) (index : Int) : taskCtlr × World × Option GoString :=
  if index < 0 ∨ index ≥ tm.elems.length then
    (tm, w, some (lit "invalid task index"))
  else
    let tm1 : taskCtlr :=
      { tm with Tasks := some (tm.elems.take index.toNat ++ tm.elems.drop (index.toNat + 1)) }
    (tm1, saveTasks tm1 w, none)

/-- The function `clearTasks`. -/
def clearTasks (tm : taskCtlr) (w : World) : taskCtlr × World :=
  let tm1 : taskCtlr := { tm with Tasks := some [] }
  (tm1, saveTasks tm1 w)

/-! ## `sort.Slice`

Package `sort` of Go 1.19 and later: `sort.Slice` runs the pattern-defeating
quicksort `pdqsort_func` on the slice through the two callbacks `Less` (the
closure given by the caller, which reads the slice being sorted) and `Swap`.
The slice is a `List α`; `less d i j` is the caller's closure evaluated while
the slice holds `d`.  Loops of the source that are not counted loops take a
bound on their number of iterations as first argument. -/

section SortSlice

variable {α : Type} [Inhabited α]

/-- The callback `data.Swap(i, j)`: the slice with elements `i` and `j`
exchanged. -/
def Swap (d : List α) (i j : Nat) : List α :=
  (d.set i (d.getD j default)).set j (d.getD i default)

variable (less : List α → Nat → Nat → Bool)

/-- The inner loop of `insertionSort_func`:
`for j := i; j > a && data.Less(j, j-1); j-- { data.Swap(j, j-1) }`. -/
def insertionInner (a : Nat) : Nat → List α → List α
  | 0, d => d
  | j + 1, d =>
    if a < j + 1 && less d (j + 1) j then insertionInner a j (Swap d (j + 1) j) else d

/-- The outer loop of `insertionSort_func`, from index `i`, with `n`
iterations left. -/
def insertionOuter (a : Nat) : Nat → Nat → List α → List α
  | 0, _, d => d
  | n + 1, i, d => insertionOuter a n (i + 1) (insertionInner less a i d)

/-- The function `insertionSort_func`: sorts `data[a:b]` by insertion. -/
def insertionSort_func (d : List α) (a b : Nat) : List α :=
  insertionOuter less a (b - (a + 1)) (a + 1) d

/-- The function `siftDown_func`: restores the heap property on
`data[lo:hi]`, indices relative to `first`. -/
def siftDown_func (hi first : Nat) : Nat → List α → Nat → List α
  | 0, d, _ => d
  | fuel + 1, d, root =>
    let child := 2 * root + 1
    if hi ≤ child then d
    else
      let child := if child + 1 < hi && less d (first + child) (first + child + 1)
        then child + 1 else child
      if !less d (first + root) (first + child) then d
      else siftDown_func hi first fuel (Swap d (first + root) (first + child)) child

/-- The first loop of `heapSort_func`:
`for i := (hi - 1) / 2; i >= 0; i-- { siftDown_func(data, i, hi, first) }`;
the argument is `i + 1`. -/
def heapBuild (hi first : Nat) : Nat → List α → List α
  | 0, d => d
  | i + 1, d => heapBuild hi first i (siftDown_func less hi first hi d i)

/-- The second loop of `heapSort_func`:
`for i := hi - 1; i >= 0; i-- { data.Swap(first, first+i); siftDown_func(data, lo, i, first) }`;
the argument is `i + 1`. -/
def heapPop (first : Nat) : Nat → List α → List α
  | 0, d => d
  | i + 1, d => heapPop first i (siftDown_func less i first i (Swap d first (first + i)) 0)

/-- The function `heapSort_func`: sorts `data[a:b]` with a heap. -/
def heapSort_func (d : List α) (a b : Nat) : List α :=
  let first := a
  let hi := b - a
  heapPop less first hi (heapBuild less hi first ((hi - 1) / 2 + 1) d)

/-- The loop `for i <= j && data.Less(i, a) { i++ }` of `partition_func`. -/
def partitionUp (d : List α) (a j : Nat) : Nat → Nat → Nat
  | 0, i => i
  | fuel + 1, i => if i ≤ j && less d i a then partitionUp d a j fuel (i + 1) else i

/-- The loop `for i <= j && !data.Less(j, a) { j-- }` of `partition_func`. -/
def partitionDown (d : List α) (a i : Nat) : Nat → Nat → Nat
  | 0, j => j
  | fuel + 1, j => if i ≤ j && !less d j a then partitionDown d a i fuel (j - 1) else j

/-- The final `for` loop of `partition_func`; the result is the slice and
the index `j` at the `break`. -/
def partitionLoop (a : Nat) : Nat → List α → Nat → Nat → List α × Nat
  | 0, d, _, j => (d, j)
  | fuel + 1, d, i, j =>
    let i := partitionUp less d a j d.length i
    let j := partitionDown less d a i d.length j
    if j < i then (d, j)
    else partitionLoop a fuel (Swap d i j) (i + 1) (j - 1)

/-- The function `partition_func`: one quicksort partition of `data[a:b]`
around `data[pivot]`.  The result is the slice, the new index of the pivot
and whether the slice was already partitioned. -/
def partition_func (d : List α) (a b pivot : Nat) : List α × Nat × Bool :=
  let d := Swap d a pivot
  let i := a + 1
  let j := b - 1
  let i := partitionUp less d a j d.length i
  let j := partitionDown less d a i d.length j
  if j < i then (Swap d j a, j, true)
  else
    let d := Swap d i j
    let r := partitionLoop less a d.length d (i + 1) (j - 1)
    (Swap r.1 r.2 a, r.2, false)

/-- The loop `for i <= j && !data.Less(a, i) { i++ }` of
`partitionEqual_func`. -/
def partitionEqualUp (d : List α) (a j : Nat) : Nat → Nat → Nat
  | 0, i => i
  | fuel + 1, i => if i ≤ j && !less d a i then partitionEqualUp d a j fuel (i + 1) else i

/-- The loop `for i <= j && data.Less(a, j) { j-- }` of
`partitionEqual_func`. -/
def partitionEqualDown (d : List α) (a i : Nat) : Nat → Nat → Nat
  | 0, j => j
  | fuel + 1, j => if i ≤ j && less d a j then partitionEqualDown d a i fuel (j - 1) else j

/-- The `for` loop of `partitionEqual_func`; the result is the slice and the
index `i` at the `break`. -/
def partitionEqualLoop (a : Nat) : Nat → List α → Nat → Nat → List α × Nat
  | 0, d, i, _ => (d, i)
  | fuel + 1, d, i, j =>
    let i := partitionEqualUp less d a j d.length i
    let j := partitionEqualDown less d a i d.length j
    if j < i then (d, i)
    else partitionEqualLoop a fuel (Swap d i j) (i + 1) (j - 1)

/-- The function `partitionEqual_func`: partitions `data[a:b]` into the
elements equal to `data[pivot]` followed by the elements greater than it. -/
def partitionEqual_func (d : List α) (a b pivot : Nat) : List α × Nat :=
  let d := Swap d a pivot
  partitionEqualLoop less a d.length d (a + 1) (b - 1)

/-- The loop `for i < b && !data.Less(i, i-1) { i++ }` of
`partialInsertionSort_func`. -/
def sortedRun (d : List α) (b : Nat) : Nat → Nat → Nat
  | 0, i => i
  | fuel + 1, i => if i < b && !less d i (i - 1) then sortedRun d b fuel (i + 1) else i

/-- The loop of `partialInsertionSort_func` that shifts the smaller element
to the left:
`for j := i - 1; j >= 1; j-- { if !data.Less(j, j-1) { break }; data.Swap(j, j-1) }`. -/
def shiftLeft : Nat → List α → List α
  | 0, d => d
  | j + 1, d => if !less d (j + 1) j then d else shiftLeft j (Swap d (j + 1) j)

/-- The loop of `partialInsertionSort_func` that shifts the greater element
to the right:
`for j := i + 1; j < b; j++ { if !data.Less(j, j-1) { break }; data.Swap(j, j-1) }`;
`n` is the number of iterations left. -/
def shiftRight : Nat → Nat → List α → List α
  | 0, _, d => d
  | n + 1, j, d => if !less d j (j - 1) then d else shiftRight n (j + 1) (Swap d j (j - 1))

/-- The outer loop of `partialInsertionSort_func`, with `steps` iterations
left (`maxSteps - j`). -/
def partialInsertionLoop (a b : Nat) : Nat → List α → Nat → List α × Bool
  | 0, d, _ => (d, false)
  | steps + 1, d, i =>
    let i := sortedRun less d b d.length i
    if i = b then (d, true)
    else if b - a < 50 then (d, false)
    else
      let d := Swap d i (i - 1)
      let d := if 2 ≤ i - a then shiftLeft less (i - 1) d else d
      let d := if 2 ≤ b - i then shiftRight less (b - (i + 1)) (i + 1) d else d
      partialInsertionLoop a b steps d i

/-- The function `partialInsertionSort_func`: partially sorts `data[a:b]`;
the flag tells that the slice is sorted at the end. -/
def partialInsertionSort_func (d : List α) (a b : Nat) : List α × Bool :=
  partialInsertionLoop less a b 5 d (a + 1)

/-- The method `Next` of the generator `xorshift` (64-bit state, shifts
13, 7 and 17). -/
def xorshiftNext (r : Nat) : Nat :=
  let r := r ^^^ ((r <<< 13) % 2 ^ 64)
  let r := r ^^^ (r >>> 7)
  r ^^^ ((r <<< 17) % 2 ^ 64)

/-- Go `bits.Len`: the number of bits needed to represent `n`. -/
def bitsLenAux : Nat → Nat → Nat
  | 0, _ => 0
  | fuel + 1, n => if n = 0 then 0 else 1 + bitsLenAux fuel (n / 2)

/-- Go `bits.Len(uint(n))`. -/
def bitsLen (n : Nat) : Nat := bitsLenAux n n

/-- The function `nextPowerOfTwo`. -/
def nextPowerOfTwo (length : Nat) : Nat := 1 <<< bitsLen length

/-- The loop `for i := 0; i < 3; i++` of `breakPatterns_func`, with `n`
iterations left: the elements at `idx`, `idx + 1` and `idx + 2` are exchanged
with elements at pseudo-random places of the range. -/
def breakPatternsLoop (a length modulus idx : Nat) : Nat → Nat → Nat → List α → List α
  | 0, _, _, d => d
  | n + 1, i, random, d =>
    let random := xorshiftNext random
    let other := random &&& (modulus - 1)
    let other := if length ≤ other then other - length else other
    breakPatternsLoop a length modulus idx n (i + 1) random (Swap d (idx + i) (a + other))

/-- The function `breakPatterns_func`: scatters three elements around the
middle of `data[a:b]`. -/
def breakPatterns_func (d : List α) (a b : Nat) : List α :=
  let length := b - a
  if 8 ≤ length then
    let idx := a + (length / 4) * 2 - 1
    breakPatternsLoop a length (nextPowerOfTwo length) idx 3 0 length d
  else d

/-- The hint `choosePivot_func` gives about the slice. -/
inductive sortedHint where
  | unknownHint
  | increasingHint
  | decreasingHint
deriving DecidableEq, Repr

/-- The function `order2_func`: the two indices with the smaller element
first, and the updated number of swaps. -/
def order2_func (d : List α) (a b swaps : Nat) : Nat × Nat × Nat :=
  if less d b a then (b, a, swaps + 1) else (a, b, swaps)

/-- The function `median_func`: the index of the median of three elements,
and the updated number of swaps. -/
def median_func (d : List α) (a b c swaps : Nat) : Nat × Nat :=
  let r1 := order2_func less d a b swaps
  let r2 := order2_func less d r1.2.1 c r1.2.2
  let r3 := order2_func less d r1.1 r2.1 r2.2.2
  (r3.2.1, r3.2.2)

/-- The function `medianAdjacent_func`. -/
def medianAdjacent_func (d : List α) (a swaps : Nat) : Nat × Nat :=
  median_func less d (a - 1) a (a + 1) swaps

/-- The function `choosePivot_func`: a pivot index in `data[a:b]` and a hint. -/
def choosePivot_func (d : List α) (a b : Nat) : Nat × sortedHint :=
  let l := b - a
  let i := a + l / 4 * 1
  let j := a + l / 4 * 2
  let k := a + l / 4 * 3
  let r :=
    if 8 ≤ l then
      if 50 ≤ l then
        let ri := medianAdjacent_func less d i 0
        let rj := medianAdjacent_func less d j ri.2
        let rk := medianAdjacent_func less d k rj.2
        median_func less d ri.1 rj.1 rk.1 rk.2
      else median_func less d i j k 0
    else (j, 0)
  if r.2 = 0 then (r.1, sortedHint.increasingHint)
  else if r.2 = 12 then (r.1, sortedHint.decreasingHint)
  else (r.1, sortedHint.unknownHint)

/-- The loop of `reverseRange_func`:
`for i < j { data.Swap(i, j); i++; j-- }`. -/
def reverseLoop : Nat → List α → Nat → Nat → List α
  | 0, d, _, _ => d
  | fuel + 1, d, i, j => if i < j then reverseLoop fuel (Swap d i j) (i + 1) (j - 1) else d

/-- The function `reverseRange_func`: reverses `data[a:b]`. -/
def reverseRange_func (d : List α) (a b : Nat) : List α :=
  reverseLoop d.length d a (b - 1)

/-- The function `pdqsort_func`: sorts `data[a:b]`.  The two flags are the
local variables `wasBalanced` and `wasPartitioned`, which a recursive call
starts at `true`; the first argument bounds the number of loop iterations
and recursive calls on a path (each shortens the range). -/
def pdqsort_func : Nat → List α → Nat → Nat → Nat → Bool → Bool → List α
  | 0, d, _, _, _, _, _ => d
  | fuel + 1, d, a, b, limit, wasBalanced, wasPartitioned =>
    let length := b - a
    if length ≤ 12 then insertionSort_func less d a b
    else if limit = 0 then heapSort_func less d a b
    else
      let d := if !wasBalanced then breakPatterns_func d a b else d
      let limit := if !wasBalanced then limit - 1 else limit
      let ph := choosePivot_func less d a b
      let d := if ph.2 = sortedHint.decreasingHint then reverseRange_func d a b else d
      let pivot := if ph.2 = sortedHint.decreasingHint then (b - 1) - (ph.1 - a) else ph.1
      let hint := if ph.2 = sortedHint.decreasingHint then sortedHint.increasingHint else ph.2
      let ps := if wasBalanced && wasPartitioned && hint = sortedHint.increasingHint
        then partialInsertionSort_func less d a b else (d, false)
      if ps.2 then ps.1
      else
        let d := ps.1
        if 0 < a && !less d (a - 1) pivot then
          let r := partitionEqual_func less d a b pivot
          pdqsort_func fuel r.1 r.2 b limit wasBalanced wasPartitioned
        else
          let r := partition_func less d a b pivot
          let mid := r.2.1
          let leftLen := mid - a
          let rightLen := b - mid
          let balanceThreshold := length / 8
          if leftLen < rightLen then
            pdqsort_func fuel (pdqsort_func fuel r.1 a mid limit true true) (mid + 1) b limit
              (decide (balanceThreshold ≤ leftLen)) r.2.2
          else
            pdqsort_func fuel (pdqsort_func fuel r.1 (mid + 1) b limit true true) a mid limit
              (decide (balanceThreshold ≤ rightLen)) r.2.2

/-- Go `sort.Slice(x, less)`. -/
def Slice (x : List α) : List α :=
  let length := x.length
  let limit := bitsLen length
  pdqsort_func less length x 0 length limit true true

end SortSlice

/-! ## The views of `main.go` -/

instance : Inhabited Task := ⟨⟨[], false, [], []⟩⟩

/-- The map `priorityWeight` of `viewByPriority`; a key that is not in the
map reads as 0. -/
def priorityWeight (p : GoString) : Nat :=
  if p = lit "high" then 1 else if p = lit "medium" then 2 else if p = lit "low" then 3 else 0

/-- The map `priorityWeight` of `viewByStatus`, applied to
`strconv.FormatBool(done)`. -/
def statusWeight (done : Bool) : Nat := if done then 2 else 1

/-- The closure `viewByPriority` hands to `sort.Slice`. -/
def lessPriority (tasks : List Task) (i j : Nat) : Bool :=
  priorityWeight (tasks.getD i default).Priority < priorityWeight (tasks.getD j default).Priority

/-- The closure `viewByStatus` hands to `sort.Slice`. -/
def lessStatus (tasks : List Task) (i j : Nat) : Bool :=
  statusWeight (tasks.getD i default).Done < statusWeight (tasks.getD j default).Done

/-- The closure `viewByDueDate` hands to `sort.Slice`. -/
def lessDueDate (tasks : List Task) (i j : Nat) : Bool :=
  match timeParse (tasks.getD i default).DueDate, timeParse (tasks.getD j default).DueDate with
  | none, _ => false
  | some _, none => true
  | some dateI, some dateJ => dateI.Before dateJ

/-- The function `viewAllTasks`: the store and the world after the call, and
the rows printed (row `k` is printed with ID `k`). -/
def viewAllTasks (tm : taskCtlr) (w : World) : taskCtlr × World × List Task :=
  if tm.elems.length = 0 then (tm, w, []) else (tm, w, tm.elems)

/-- The function `viewByPriority`: `tasks` is a fresh slice into which the
store's records are copied, and `sort.Slice` sorts that copy. -/
def viewByPriority (tm : taskCtlr) (w : World) : taskCtlr × World × List Task :=
  if tm.elems.length = 0 then (tm, w, [])
  else
    let tasks := tm.elems
    (tm, w, Slice lessPriority tasks)

/-- The function `viewByStatus`. -/
def viewByStatus (tm : taskCtlr) (w : World) : taskCtlr × World × List Task :=
  if tm.elems.length = 0 then (tm, w, [])
  else
    let tasks := tm.elems
    (tm, w, Slice lessStatus tasks)

/-- The function `viewByDueDate`. -/
def viewByDueDate (tm : taskCtlr) (w : World) : taskCtlr × World × List Task :=
  if tm.elems.length = 0 then (tm, w, [])
  else
    let tasks := tm.elems
    (tm, w, Slice lessDueDate tasks)

/-! ## The task menu of `main` -/

/-- Case 3 of the task menu of `main`:
`index = getValidIndex(&tm); if index == -1 { pause(); break };
toggleTaskDone(&tm, index); pause()`.  `none`: the prompt never returns. -/
def taskMenuToggle (tm : taskCtlr) (w : World) : Option (Outcome (taskCtlr × World)) :=
  match getValidIndex tm w with
  | none => none
  | some (index, w1) =>
    if index = -1 then some (Outcome.ret (tm, pause w1))
    else match toggleTaskDone tm w1 index with
      | Outcome.ret r => some (Outcome.ret (r.1, pause r.2))
      | Outcome.panicked e w2 => some (Outcome.panicked e w2)

/-! ## Sequences of store operations -/

/-- One mutating operation of the menus of `main`. -/
inductive Action where
  | create
  | toggle (index : Int)
  | delete (index : Int)
  | clear

/-- The priority is one of the three values `getValidPriority` accepts. -/
def validPriority (p : GoString) : Prop := p = lit "low" ∨ p = lit "medium" ∨ p = lit "high"

instance (p : GoString) : Decidable (validPriority p) := by
  unfold validPriority
  infer_instance

/-- One operation on the store and the world.  `none`: the call does not
return (a prompt loop that never ends, or a run-time panic). -/
def Action.run (tbl : Nat → Nat) : Action → taskCtlr × World → Option (taskCtlr × World)
  | Action.create, s => createTask tbl s.1 s.2
  | Action.toggle index, s =>
    match toggleTaskDone s.1 s.2 index with
    | Outcome.ret r => some r
    | Outcome.panicked _ _ => none
  | Action.delete index, s => some ((deleteTask s.1 s.2 index).1, (deleteTask s.1 s.2 index).2.1)
  | Action.clear, s => some (clearTasks s.1 s.2)

/-- A sequence of operations, run in order. -/
def runActions (tbl : Nat → Nat) : List Action → taskCtlr × World → Option (taskCtlr × World)
  | [], s => some s
  | act :: rest, s =>
    match act.run tbl s with
    | none => none
    | some s1 => runActions tbl rest s1

/-! ## Sample stores -/

/-- A task with a one-letter name, not done, without due date. -/
def sampleTask (c : Nat) (priority : GoString) : Task := ⟨[c], false, priority, []⟩

/-- Thirteen tasks in insertion order: `a` to `l` of priority medium, then
`m` of priority high. -/
def thirteenTasks : List Task :=
  (List.map (fun c => sampleTask c (lit "medium"))
    [97, 98, 99, 100, 101, 102, 103, 104, 105, 106, 107, 108]) ++ [sampleTask 109 (lit "high")]

/-- A world without files and without input. -/
def emptyWorld : World := ⟨fun _ => none, 0, []⟩

end Taskctl

namespace Taskctl

/-! ## `encoding/json`, decoding

`json.Unmarshal(data, &tm.Tasks)` on the documents this development needs:
`null`, or an array of objects whose keys are among `name`, `done`,
`priority` and `dueDate` (in any order, possibly repeated or missing) and
whose values are strings for the three string fields and `true` or `false`
for `done`, or `null`; white space is free.  The result `none` means that the
document is not of this form (Go rejects some of those documents and accepts
others); escapes `\u` of surrogates are not covered either. -/

/-- The function `isSpace` of the scanner of `encoding/json`. -/
def isSpaceJSON (c : Nat) : Bool := c = 0x20 || c = 0x09 || c = 0x0D || c = 0x0A

/-- The input without leading JSON white space. -/
def skipSpace : GoString → GoString
  | [] => []
  | c :: rest => if isSpaceJSON c then skipSpace rest else c :: rest

/-- The value of a hexadecimal digit. -/
def unhex (c : Nat) : Option Nat :=
  if 48 ≤ c && c ≤ 57 then some (c - 48)
  else if 97 ≤ c && c ≤ 102 then some (c - 97 + 10)
  else if 65 ≤ c && c ≤ 70 then some (c - 65 + 10)
  else none

/-- The function `getu4` of `encoding/json`, after the `\u`: four
hexadecimal digits as a rune, and the rest of the input. -/
def getu4 (s : GoString) : Option (Nat × GoString) :=
  match s with
  | a :: b :: c :: d :: rest =>
    match unhex a, unhex b, unhex c, unhex d with
    | some x, some y, some z, some w => some (x * 4096 + y * 256 + z * 16 + w, rest)
    | _, _, _, _ => none
  | _ => none

/-- The byte a one-letter escape stands for. -/
def unescape (e : Nat) : Option Nat :=
  if e = 0x22 || e = 0x5C || e = 0x2F then some e
  else if e = 0x62 then some 8
  else if e = 0x66 then some 12
  else if e = 0x6E then some 10
  else if e = 0x72 then some 13
  else if e = 0x74 then some 9
  else none

/-- The decoded text put in front of the result of the rest of a string. -/
def consText (pre : GoString) (r : Option (GoString × GoString)) : Option (GoString × GoString) :=
  match r with
  | none => none
  | some (s, rest) => some (pre ++ s, rest)

/-- A JSON string literal after its opening quote (the scanner's checks
and `unquote` of `encoding/json` in one pass): the decoded Go string and the
input after the closing quote.  Bytes that are not valid UTF-8 are replaced
by U+FFFD.  The first argument bounds the loop. -/
def parseStringBody : Nat → GoString → Option (GoString × GoString)
  | 0, _ => none
  | _, [] => none
  | fuel + 1, c :: rest =>
    if c = 0x22 then some ([], rest)
    else if c = 0x5C then
      match rest with
      | [] => none
      | e :: rest1 =>
        if e = 0x75 then
          match getu4 rest1 with
          | none => none
          | some (rr, rest2) =>
            if 0xD800 ≤ rr && rr < 0xE000 then none
            else consText (EncodeRune rr) (parseStringBody fuel rest2)
        else
          match unescape e with
          | none => none
          | some b => consText [b] (parseStringBody fuel rest1)
    else if c < 0x20 then none
    else if c < 0x80 then consText [c] (parseStringBody fuel rest)
    else
      let rs := DecodeRuneInString (c :: rest)
      consText (EncodeRune rs.1) (parseStringBody fuel ((c :: rest).drop rs.2))

/-- The values a field of a task object can take in the documents covered. -/
inductive FieldValue where
  | str (s : GoString)
  | bool (b : Bool)
  | null
deriving DecidableEq, Repr

/-- One value: a string, `true`, `false` or `null`. -/
def parseValue (input : GoString) : Option (FieldValue × GoString) :=
  match input with
  | [] => none
  | c :: rest =>
    if c = 0x22 then
      match parseStringBody rest.length rest with
      | none => none
      | some (s, rest1) => some (FieldValue.str s, rest1)
    else if (lit "true").isPrefixOf input then some (FieldValue.bool true, input.drop 4)
    else if (lit "false").isPrefixOf input then some (FieldValue.bool false, input.drop 5)
    else if (lit "null").isPrefixOf input then some (FieldValue.null, input.drop 4)
    else none

/-- The value of the key `key` stored into the struct: a string into a
string field, a boolean into `Done`, and `null` leaves the field as it is.
`none`: another key, or a value of the other type. -/
def storeField (key : GoString) (v : FieldValue) (t : Task) : Option Task :=
  if key = lit "name" then
    match v with
    | FieldValue.str s => some { t with Name := s }
    | FieldValue.null => some t
    | FieldValue.bool _ => none
  else if key = lit "done" then
    match v with
    | FieldValue.bool b => some { t with Done := b }
    | FieldValue.null => some t
    | FieldValue.str _ => none
  else if key = lit "priority" then
    match v with
    | FieldValue.str s => some { t with Priority := s }
    | FieldValue.null => some t
    | FieldValue.bool _ => none
  else if key = lit "dueDate" then
    match v with
    | FieldValue.str s => some { t with DueDate := s }
    | FieldValue.null => some t
    | FieldValue.bool _ => none
  else none

/-- The members of an object, from the start of a key to the closing brace,
stored one after the other into `t`.  The first argument bounds the loop. -/
def parseMembers : Nat → GoString → Task → Option (Task × GoString)
  | 0, _, _ => none
  | fuel + 1, input, t =>
    match skipSpace input with
    | [] => none
    | q :: rest =>
      if q ≠ 0x22 then none
      else
        match parseStringBody rest.length rest with
        | none => none
        | some (key, rest1) =>
          match skipSpace rest1 with
          | [] => none
          | colon :: rest2 =>
            if colon ≠ 0x3A then none
            else
              match parseValue (skipSpace rest2) with
              | none => none
              | some (v, rest3) =>
                match storeField key v t with
                | none => none
                | some t1 =>
                  match skipSpace rest3 with
                  | [] => none
                  | sep :: rest4 =>
                    if sep = 0x2C then parseMembers fuel rest4 t1
                    else if sep = 0x7D then some (t1, rest4)
                    else none

/-- An object, from its opening brace, decoded into the struct `t`. -/
def parseObject (input : GoString) (t : Task) : Option (Task × GoString) :=
  match input with
  | [] => none
  | c :: rest =>
    if c ≠ 0x7B then none
    else
      match skipSpace rest with
      | [] => none
      | c1 :: rest1 =>
        if c1 = 0x7D then some (t, rest1) else parseMembers rest.length rest t

/-- The elements of a non-empty array, from the start of element `i` to
the closing bracket.  Element `i` is decoded into the struct `prior i` that
the slice holds at that index.  The first argument bounds the loop. -/
def parseElements (prior : Nat → Task) : Nat → GoString → Nat → Option (List Task × GoString)
  | 0, _, _ => none
  | fuel + 1, input, i =>
    match parseObject (skipSpace input) (prior i) with
    | none => none
    | some (t, rest) =>
      match skipSpace rest with
      | [] => none
      | sep :: rest1 =>
        if sep = 0x2C then
          match parseElements prior fuel rest1 (i + 1) with
          | none => none
          | some (ts, rest2) => some (t :: ts, rest2)
        else if sep = 0x5D then some ([t], rest1)
        else none

/-- Go `json.Unmarshal(data, &tasks)` for a `[]Task` on the documents
covered: the new value of the slice.  `prior i` is the struct found at index
`i` of the slice's array before the call (an element is decoded into the
existing struct, so a field the document does not give keeps its value). -/
def Unmarshal (data : GoString) (prior : Nat → Task) : Option (Option (List Task)) :=
  match skipSpace data with
  | [] => none
  | c :: rest =>
    if c = 0x5B then
      match skipSpace rest with
      | [] => none
      | c1 :: rest1 =>
        if c1 = 0x5D then (if skipSpace rest1 = [] then some (some []) else none)
        else
          match parseElements prior rest.length rest 0 with
          | none => none
          | some (ts, rest2) => if skipSpace rest2 = [] then some (some ts) else none
    else if (lit "null").isPrefixOf (c :: rest) ∧ skipSpace ((c :: rest).drop 4) = [] then
      some none
    else none

/-- The function `loadTasks`.  `stale i` is the struct at index `i` of the
array of `tm.Tasks` beyond its length.  The result is the store and the
returned `error` (`none` is nil); no result (`none`) when the file holds a
document that `Unmarshal` above does not cover. -/
def loadTasks (tm : taskCtlr) (w : World) (stale : Nat → Task) :
    Option (taskCtlr × Option GoString) :=
  match w.files tm.Filename with
  | none => some (tm, some (lit "open " ++ tm.Filename ++ lit ": no such file or directory"))
  | some jsonData =>
    match Unmarshal jsonData (fun i => (tm.elems.get? i).getD (stale i)) with
    | none => none
    | some ts => some ({ tm with Tasks := ts }, none)

/-- A task whose name is the single byte 0xFF, which is not valid UTF-8. -/
def latin1Task : Task := ⟨[0xFF], false, lit "low", []⟩

end Taskctl

namespace Taskctl

/-! ## Predicates used to state what the sort does -/

section SortSpec

variable {α : Type} [Inhabited α]

/-- The sort key of the element at index `k`. -/
def keyAt (key : α → Nat) (d : List α) (k : Nat) : Nat := key (d.getD k default)

/-- The closure `less` compares the keys of the two elements it is given. -/
def KeyLess (less : List α → Nat → Nat → Bool) (key : α → Nat) : Prop :=
  ∀ d i j, less d i j = decide (keyAt key d i < keyAt key d j)

/-- The slice `d1` is obtained from `d` by exchanging elements at indices
of the range `[a, b)`. -/
inductive Reach (a b : Nat) : List α → List α → Prop
  | refl (d : List α) : Reach a b d d
  | step {d d1 : List α} (i j : Nat) :
      Reach a b d d1 → a ≤ i → i < b → a ≤ j → j < b → Reach a b d (Swap d1 i j)

/-- The keys do not decrease along the range `[a, b)`. -/
def SortedOn (key : α → Nat) (d : List α) (a b : Nat) : Prop :=
  ∀ i j, a ≤ i → i ≤ j → j < b → keyAt key d i ≤ keyAt key d j

/-- Every element before the range `[a, b)` has a key that is at most the
key of every element of the range. -/
def LowerBound (key : α → Nat) (d : List α) (a b : Nat) : Prop :=
  0 < a → ∀ k, a ≤ k → k < b → keyAt key d (a - 1) ≤ keyAt key d k

/-- The heap property of `heapSort_func` on the nodes `lo ≤ n` other than
`skip`, for the heap `data[first : first + hi]`: no child has a greater key
than its parent. -/
def HeapExcept (key : α → Nat) (d : List α) (first lo hi skip : Nat) : Prop :=
  ∀ n c, lo ≤ n → n ≠ skip → c < hi → (c = 2 * n + 1 ∨ c = 2 * n + 2) →
    keyAt key d (first + c) ≤ keyAt key d (first + n)

/-- The heap property on every node `lo ≤ n` of the heap
`data[first : first + hi]`. -/
def HeapOn (key : α → Nat) (d : List α) (first lo hi : Nat) : Prop :=
  ∀ n c, lo ≤ n → c < hi → (c = 2 * n + 1 ∨ c = 2 * n + 2) →
    keyAt key d (first + c) ≤ keyAt key d (first + n)

end SortSpec

/-! ## The sort keys of the views -/

/-- The key `viewByPriority` sorts by. -/
def priorityKey (t : Task) : Nat := priorityWeight t.Priority

/-- The key `viewByStatus` sorts by. -/
def statusKey (t : Task) : Nat := statusWeight t.Done

/-- A number that orders the records as the closure of `viewByDueDate` does:
the date as the number YYYYMMDD, and a number above every date for a due date
that does not parse. -/
def dueKey (t : Task) : Nat :=
  match timeParse t.DueDate with
  | none => 100000000
  | some date => date.year * 10000 + date.month * 100 + date.day

/-- Three tasks in insertion order: `a` and `b` of priority medium, then `c`
of priority high. -/
def threeTasks : List Task :=
  [sampleTask 97 (lit "medium"), sampleTask 98 (lit "medium"), sampleTask 99 (lit "high")]

/-- Three tasks `x`, `y`, `z` due 2025-01-10, never, and 2024-12-01. -/
def datedTasks : List Task :=
  [⟨[120], false, lit "low", lit "2025-01-10"⟩, ⟨[121], false, lit "low", []⟩,
   ⟨[122], false, lit "low", lit "2024-12-01"⟩]

end Taskctl

namespace Taskctl

/-! ## The store operations -/

theorem elems_mk (ts : List Task) (f : GoString) : (taskCtlr.mk (some ts) f).elems = ts := rfl

theorem deleteTask_inRange (tm : taskCtlr) (w : World) (index : Int)
    (h : ¬ (index < 0 ∨ index ≥ tm.elems.length)) :
    deleteTask tm w index =
      (⟨some (tm.elems.take index.toNat ++ tm.elems.drop (index.toNat + 1)), tm.Filename⟩,
       saveTasks ⟨some (tm.elems.take index.toNat ++ tm.elems.drop (index.toNat + 1)), tm.Filename⟩ w,
       none) := by
  unfold deleteTask
  rw [if_neg h]

theorem deleteTask_outRange (tm : taskCtlr) (w : World) (index : Int)
    (h : index < 0 ∨ index ≥ tm.elems.length) :
    deleteTask tm w index = (tm, w, some (lit "invalid task index")) := by
  unfold deleteTask
  rw [if_pos h]

/-- C2: for a store of `n` records and an index `i < n`, `deleteTask` returns
no error; the new sequence has `n - 1` records, the records before `i` keep
their positions and the records after `i` move one position to the left.
From `[A, B, C]`, deleting index 1 gives `[A, C]` and deleting index 1 again
gives `[A]`. -/
theorem deleteTask_shifts (tm : taskCtlr) (w : World) (i : Nat) (h : i < tm.elems.length) :
    (deleteTask tm w i).2.2 = none ∧
    (deleteTask tm w i).1.elems.length = tm.elems.length - 1 ∧
    (∀ j, j < i → (deleteTask tm w i).1.elems.get? j = tm.elems.get? j) ∧
    (∀ j, i ≤ j → j < tm.elems.length - 1 →
      (deleteTask tm w i).1.elems.get? j = tm.elems.get? (j + 1)) ∧
    (∀ (A B C : Task) (f : GoString),
      (deleteTask ⟨some [A, B, C], f⟩ w 1).1.elems = [A, C] ∧
      (deleteTask (deleteTask ⟨some [A, B, C], f⟩ w 1).1
        (deleteTask ⟨some [A, B, C], f⟩ w 1).2.1 1).1.elems = [A]) := by
  have hb : ¬ ((i : Int) < 0 ∨ (i : Int) ≥ (tm.elems.length : Int)) := by omega
  have he : (deleteTask tm w i).1.elems = tm.elems.take i ++ tm.elems.drop (i + 1) := by
    rw [deleteTask_inRange tm w i hb]; rfl
  refine ⟨by rw [deleteTask_inRange tm w i hb], ?_, ?_, ?_, ?_⟩
  · rw [he]; simp; omega
  · intro j hj
    rw [he]
    have hj' : j < (tm.elems.take i).length := by simp; omega
    simp only [List.get?_eq_getElem?]
    rw [List.getElem?_append_left hj', List.getElem?_take_of_lt hj]
  · intro j hij hjn
    rw [he]
    have hl : (tm.elems.take i).length = i := by simp; omega
    simp only [List.get?_eq_getElem?]
    rw [List.getElem?_append_right (by omega), hl, List.getElem?_drop]
    congr 1; omega
  · intro A B C f
    constructor <;> rfl

theorem deleteTask_shifts_witness :
    (deleteTask ⟨some [⟨lit "A", false, lit "low", []⟩, ⟨lit "B", true, lit "high", []⟩], lit "tasks.json"⟩
      ⟨fun _ => none, 0, []⟩ (0 : Nat)).1.elems.length = 2 - 1 :=
  (deleteTask_shifts ⟨some [⟨lit "A", false, lit "low", []⟩, ⟨lit "B", true, lit "high", []⟩],
    lit "tasks.json"⟩ ⟨fun _ => none, 0, []⟩ 0 (by decide)).2.1

/-- C3: `deleteTask` returns an error exactly when the index is negative or
not below the length (so always on an empty store), and when it does the
store is unchanged and the world is unchanged: no file is written. -/
theorem deleteTask_error_iff (tm : taskCtlr) (w : World) (index : Int) :
    ((deleteTask tm w index).2.2 ≠ none ↔ (index < 0 ∨ index ≥ tm.elems.length)) ∧
    (tm.elems = [] → (deleteTask tm w index).2.2 ≠ none) ∧
    ((deleteTask tm w index).2.2 ≠ none →
      (deleteTask tm w index).1 = tm ∧ (deleteTask tm w index).2.1 = w) := by
  by_cases hb : index < 0 ∨ index ≥ tm.elems.length
  · rw [deleteTask_outRange tm w index hb]
    simp [hb]
  · rw [deleteTask_inRange tm w index hb]
    simp only [ne_eq, not_true_eq_false, false_iff, false_implies, and_true]
    refine ⟨hb, ?_⟩
    intro he
    rw [he] at hb
    apply hb
    simp only [List.length_nil, Nat.cast_zero]
    omega

theorem toggleTaskDone_outRange (tm : taskCtlr) (w : World) (index : Int)
    (h : index < 0 ∨ index ≥ tm.elems.length) :
    toggleTaskDone tm w index = Outcome.panicked (indexOutOfRange index tm.elems.length) w := by
  unfold toggleTaskDone
  rw [if_pos h]

theorem toggleTaskDone_inRange (tm : taskCtlr) (w : World) (index : Int)
    (h : ¬ (index < 0 ∨ index ≥ tm.elems.length)) :
    toggleTaskDone tm w index =
      Outcome.ret (toggled tm index, saveTasks (toggled tm index) w) := by
  unfold toggleTaskDone toggled
  rw [if_neg h]

theorem getValidIndexLoop_range (n : Nat) :
    ∀ (lines : List GoString) (index : Int) (rest : List GoString),
      getValidIndexLoop n lines = some (index, rest) → 0 ≤ index ∧ index < n := by
  intro lines
  induction lines with
  | nil => intro index rest h; simp [getValidIndexLoop] at h
  | cons l ls ih =>
    intro index rest h
    unfold getValidIndexLoop at h
    split at h
    · exact ih index rest h
    · rename_i i hi
      split at h
      · exact ih index rest h
      · rename_i hr
        simp only [Option.some.injEq, Prod.mk.injEq] at h
        rw [← h.1]
        omega

theorem getValidIndexLoop_isSome (n : Nat) :
    ∀ (lines : List GoString),
      (∃ l ∈ lines, ∃ i : Int, Atoi (TrimSpace l) = some i ∧ 0 ≤ i ∧ i < n) →
      (getValidIndexLoop n lines).isSome = true := by
  intro lines
  induction lines with
  | nil => intro h; obtain ⟨l, hl, _⟩ := h; simp at hl
  | cons l ls ih =>
    intro h
    unfold getValidIndexLoop
    split
    · rename_i hn
      apply ih
      obtain ⟨l1, hl1, i, hi, h0, h1⟩ := h
      rcases List.mem_cons.1 hl1 with e | e
      · subst e
        rw [hn] at hi
        simp at hi
      · exact ⟨l1, e, i, hi, h0, h1⟩
    · rename_i j hj
      split
      · rename_i hr
        apply ih
        obtain ⟨l1, hl1, i, hi, h0, h1⟩ := h
        rcases List.mem_cons.1 hl1 with e | e
        · subst e
          rw [hj] at hi
          simp only [Option.some.injEq] at hi
          subst hi
          omega
        · exact ⟨l1, e, i, hi, h0, h1⟩
      · rfl

/-- What `getValidIndex` returns: `-1` on an empty store, with nothing read,
and an index of the slice otherwise; no file is touched. -/
theorem getValidIndex_spec (tm : taskCtlr) (w w1 : World) (index : Int)
    (h : getValidIndex tm w = some (index, w1)) :
    (tm.elems = [] ∧ index = -1 ∧ w1 = w) ∨
    (tm.elems ≠ [] ∧ 0 ≤ index ∧ index < tm.elems.length ∧
      w1.files = w.files ∧ w1.writes = w.writes) := by
  unfold getValidIndex at h
  split at h
  · rename_i h0
    simp only [Option.some.injEq, Prod.mk.injEq] at h
    exact Or.inl ⟨List.length_eq_zero.1 h0, h.1.symm, h.2.symm⟩
  · rename_i h0
    split at h
    · simp at h
    · rename_i i rest hl
      simp only [Option.some.injEq, Prod.mk.injEq] at h
      have hr := getValidIndexLoop_range _ _ _ _ hl
      refine Or.inr ⟨fun e => h0 (by rw [e]; rfl), ?_, ?_, ?_, ?_⟩
      · rw [← h.1]; exact hr.1
      · rw [← h.1]; exact hr.2
      · rw [← h.2]
      · rw [← h.2]

/-- C4 (amended): `toggleTaskDone` has no bounds check of its own and leaves
the index-bounds contract to its caller.  For every store and every index
outside `[0, len(Tasks))`, a direct call signals no error: it stops with the
run-time panic of the index expression, before any assignment and any write.
The menu path of `main` never makes such a call: `getValidIndex` yields such
an index only as `-1` on an empty store, with nothing read; on an empty store
the menu skips `toggleTaskDone` and leaves store and files as they are; and
whenever the menu case ends, it ends by returning, after a call of
`toggleTaskDone` with an index of the slice.  It does end when a line of the
input is such an index. -/
theorem toggleTaskDone_bounds_by_caller (tm : taskCtlr) (w : World) (index : Int)
    (h : index < 0 ∨ index ≥ tm.elems.length) :
    toggleTaskDone tm w index = Outcome.panicked (indexOutOfRange index tm.elems.length) w ∧
    (toggleTaskDone tm w index).returned = none ∧
    (∀ w0 w1, getValidIndex tm w0 = some (index, w1) →
      tm.elems = [] ∧ index = -1 ∧ w1 = w0) ∧
    (tm.elems = [] → ∀ w0, taskMenuToggle tm w0 = some (Outcome.ret (tm, pause w0)) ∧
      (pause w0).files = w0.files ∧ (pause w0).writes = w0.writes) ∧
    (∀ w0 r, taskMenuToggle tm w0 = some r →
      (tm.elems = [] ∧ r = Outcome.ret (tm, pause w0)) ∨
      ∃ (i : Int) (w1 : World), 0 ≤ i ∧ i < tm.elems.length ∧
        getValidIndex tm w0 = some (i, w1) ∧
        toggleTaskDone tm w1 i = Outcome.ret (toggled tm i, saveTasks (toggled tm i) w1) ∧
        r = Outcome.ret (toggled tm i, pause (saveTasks (toggled tm i) w1))) ∧
    (∀ w0, (∃ l ∈ w0.stdin, ∃ i : Int, Atoi (TrimSpace l) = some i ∧ 0 ≤ i ∧
        i < tm.elems.length) → (taskMenuToggle tm w0).isSome = true) := by
  have hpanic := toggleTaskDone_outRange tm w index h
  refine ⟨hpanic, by rw [hpanic]; rfl, ?_, ?_, ?_, ?_⟩
  · intro w0 w1 hg
    rcases getValidIndex_spec tm w0 w1 index hg with h1 | h1
    · exact h1
    · omega
  · intro he w0
    refine ⟨?_, ?_, ?_⟩
    · unfold taskMenuToggle getValidIndex
      rw [if_pos (by rw [he]; rfl)]
      simp only
      rw [if_pos trivial]
    · unfold pause World.ReadString
      split <;> rfl
    · unfold pause World.ReadString
      split <;> rfl
  · intro w0 r hr
    unfold taskMenuToggle at hr
    split at hr
    · simp at hr
    · rename_i i w1 hg
      rcases getValidIndex_spec tm w0 w1 i hg with h1 | h1
      · left
        obtain ⟨he, hi, hw⟩ := h1
        rw [if_pos hi] at hr
        simp only [Option.some.injEq] at hr
        rw [← hr, hw]
        exact ⟨he, rfl⟩
      · right
        obtain ⟨_, h0, hlt, _, _⟩ := h1
        have hin : ¬ (i < 0 ∨ i ≥ tm.elems.length) := by omega
        have ht := toggleTaskDone_inRange tm w1 i hin
        rw [if_neg (by omega)] at hr
        rw [ht] at hr
        simp only [Option.some.injEq] at hr
        exact ⟨i, w1, h0, hlt, hg, ht, hr.symm⟩
  · intro w0 hex
    obtain ⟨l, hl, i, hi, h0, h1⟩ := hex
    have hne : ¬ tm.elems.length = 0 := by
      intro e
      rw [e] at h1
      simp only [Nat.cast_zero] at h1
      omega
    have hs := getValidIndexLoop_isSome tm.elems.length w0.stdin ⟨l, hl, i, hi, h0, h1⟩
    obtain ⟨v, hv⟩ := Option.isSome_iff_exists.1 hs
    have hr := getValidIndexLoop_range _ _ _ _ (show getValidIndexLoop tm.elems.length w0.stdin
      = some (v.1, v.2) from hv)
    unfold taskMenuToggle getValidIndex
    rw [if_neg hne, hv]
    simp only
    rw [if_neg (by omega)]
    rw [toggleTaskDone_inRange tm _ v.1 (by omega)]
    rfl

theorem toggleTaskDone_bounds_by_caller_witness :
    toggleTaskDone ⟨some [sampleTask 97 (lit "low")], lit "tasks.json"⟩
        ⟨fun _ => none, 0, [lit "1\n", lit "0\n", lit "\n"]⟩ 1 =
      Outcome.panicked (lit "runtime error: index out of range [1] with length 1")
        ⟨fun _ => none, 0, [lit "1\n", lit "0\n", lit "\n"]⟩ ∧
    (taskMenuToggle ⟨some [sampleTask 97 (lit "low")], lit "tasks.json"⟩
        ⟨fun _ => none, 0, [lit "1\n", lit "0\n", lit "\n"]⟩).isSome = true :=
  ⟨(toggleTaskDone_bounds_by_caller ⟨some [sampleTask 97 (lit "low")], lit "tasks.json"⟩
      ⟨fun _ => none, 0, [lit "1\n", lit "0\n", lit "\n"]⟩ 1 (Or.inr (by decide))).1,
    (toggleTaskDone_bounds_by_caller ⟨some [sampleTask 97 (lit "low")], lit "tasks.json"⟩
      ⟨fun _ => none, 0, [lit "1\n", lit "0\n", lit "\n"]⟩ 1 (Or.inr (by decide))).2.2.2.2.2
      ⟨fun _ => none, 0, [lit "1\n", lit "0\n", lit "\n"]⟩
      ⟨lit "0\n", by decide, 0, by decide, by decide, by decide⟩⟩

/-- C4 (counterexample): on an empty store `toggleTaskDone(&tm, 0)` signals
nothing and does not return: the process stops with the run-time panic
`index out of range [0] with length 0`.  A negative index stops it the same
way. -/
theorem toggleTaskDone_aborts_on_empty_store :
    toggleTaskDone ⟨some [], lit "tasks.json"⟩ emptyWorld 0 =
      Outcome.panicked (lit "runtime error: index out of range [0] with length 0")
        emptyWorld ∧
    (toggleTaskDone ⟨some [], lit "tasks.json"⟩ emptyWorld 0).returned = none ∧
    toggleTaskDone ⟨some [sampleTask 97 (lit "low")], lit "tasks.json"⟩ emptyWorld (-1) =
      Outcome.panicked (lit "runtime error: index out of range [-1]") emptyWorld := by
  refine ⟨?_, ?_, ?_⟩
  · exact toggleTaskDone_outRange _ _ _ (Or.inr (by decide))
  · rw [toggleTaskDone_outRange _ _ _ (Or.inr (by decide))]
    rfl
  · exact toggleTaskDone_outRange _ _ _ (Or.inl (by decide))

/-- C8: each of the four views returns the store and the world exactly as it
received them: the task sequence is not changed and no file is written. -/
theorem views_pure (tm : taskCtlr) (w : World) :
    ((viewAllTasks tm w).1 = tm ∧ (viewAllTasks tm w).2.1 = w) ∧
    ((viewByPriority tm w).1 = tm ∧ (viewByPriority tm w).2.1 = w) ∧
    ((viewByStatus tm w).1 = tm ∧ (viewByStatus tm w).2.1 = w) ∧
    ((viewByDueDate tm w).1 = tm ∧ (viewByDueDate tm w).2.1 = w) := by
  refine ⟨?_, ?_, ?_, ?_⟩
  · unfold viewAllTasks; split <;> exact ⟨rfl, rfl⟩
  · unfold viewByPriority; split <;> exact ⟨rfl, rfl⟩
  · unfold viewByStatus; split <;> exact ⟨rfl, rfl⟩
  · unfold viewByDueDate; split <;> exact ⟨rfl, rfl⟩


theorem getValidPriority_accept (tbl : Nat → Nat) (line : GoString) (rest : List GoString)
    (h : validPriority (ToLower tbl (TrimSpace line))) :
    getValidPriority tbl (line :: rest) = some (ToLower tbl (TrimSpace line), rest) := by
  unfold getValidPriority
  simp only
  rw [if_pos]
  unfold validPriority at h
  simp only [Bool.or_eq_true, decide_eq_true_eq]
  tauto

theorem getValidPriority_reject (tbl : Nat → Nat) (line : GoString) (rest : List GoString)
    (h : ¬ validPriority (ToLower tbl (TrimSpace line))) :
    getValidPriority tbl (line :: rest) = getValidPriority tbl rest := by
  conv_lhs => unfold getValidPriority
  simp only
  rw [if_neg]
  unfold validPriority at h
  simp only [Bool.or_eq_true, decide_eq_true_eq]
  tauto

theorem getValidPriority_valid (tbl : Nat → Nat) :
    ∀ (lines : List GoString) (p : GoString) (rest : List GoString),
      getValidPriority tbl lines = some (p, rest) → validPriority p := by
  intro lines
  induction lines with
  | nil => intro p rest h; simp [getValidPriority] at h
  | cons line tl ih =>
    intro p rest h
    by_cases hv : validPriority (ToLower tbl (TrimSpace line))
    · rw [getValidPriority_accept tbl line tl hv] at h
      simp only [Option.some.injEq, Prod.mk.injEq] at h
      rw [← h.1]; exact hv
    · rw [getValidPriority_reject tbl line tl hv] at h
      exact ih p rest h

theorem getValidPriority_isSome (tbl : Nat → Nat) :
    ∀ (lines : List GoString),
      (getValidPriority tbl lines).isSome = true ↔
        ∃ l ∈ lines, validPriority (ToLower tbl (TrimSpace l)) := by
  intro lines
  induction lines with
  | nil => simp [getValidPriority]
  | cons line tl ih =>
    by_cases hv : validPriority (ToLower tbl (TrimSpace line))
    · rw [getValidPriority_accept tbl line tl hv]
      simp only [Option.isSome_some, List.mem_cons, true_iff]
      exact ⟨line, Or.inl rfl, hv⟩
    · rw [getValidPriority_reject tbl line tl hv, ih]
      constructor
      · rintro ⟨l, hl, h⟩; exact ⟨l, List.mem_cons_of_mem _ hl, h⟩
      · rintro ⟨l, hl, h⟩
        rcases List.mem_cons.1 hl with rfl | hl
        · exact absurd h hv
        · exact ⟨l, hl, h⟩

theorem createTask_eq (tbl : Nat → Nat) (tm : taskCtlr) (w : World) (nameLine : GoString)
    (rest : List GoString) (p : GoString) (rest1 : List GoString)
    (hin : w.stdin = nameLine :: rest) (hp : getValidPriority tbl rest = some (p, rest1)) :
    createTask tbl tm w =
      some (⟨some (tm.elems ++ [⟨TrimSpace nameLine, false, p, (getValidDueDate rest1).1⟩]), tm.Filename⟩,
        saveTasks ⟨some (tm.elems ++ [⟨TrimSpace nameLine, false, p, (getValidDueDate rest1).1⟩]),
          tm.Filename⟩ { w with stdin := (getValidDueDate rest1).2 }) := by
  unfold createTask World.ReadString
  rw [hin]
  simp only
  rw [hp]

theorem getValidDueDate_valid :
    ∀ (lines : List GoString), (getValidDueDate lines).1 = [] ∨
      (timeParse (getValidDueDate lines).1).isSome = true := by
  intro lines
  induction lines with
  | nil => left; rfl
  | cons line tl ih =>
    unfold getValidDueDate
    simp only
    split
    · left; rfl
    · split
      · exact ih
      · rename_i t ht
        right; simp [ht]

theorem valid_step (tbl : Nat → Nat) (act : Action) (s s1 : taskCtlr × World)
    (hs : ∀ t ∈ s.1.elems, validPriority t.Priority) (h : act.run tbl s = some s1) :
    ∀ t ∈ s1.1.elems, validPriority t.Priority := by
  cases act with
  | create =>
    simp only [Action.run] at h
    unfold createTask at h
    simp only at h
    split at h
    · exact absurd h (by simp)
    · rename_i p rest hp
      simp only [Option.some.injEq] at h
      rw [← h]
      intro t ht
      simp only [elems_mk, List.mem_append, List.mem_singleton] at ht
      rcases ht with ht | rfl
      · exact hs t ht
      · exact getValidPriority_valid tbl _ _ _ hp
  | toggle index =>
    simp only [Action.run] at h
    unfold toggleTaskDone at h
    split at h
    · rename_i r hr
      split at hr
      · exact absurd hr (by simp)
      · simp only [Outcome.ret.injEq] at hr
        simp only [Option.some.injEq] at h
        rw [← h, ← hr]
        intro t ht
        simp only [elems_mk] at ht
        rw [List.modify_eq_set_get?] at ht
        cases hg : s.1.elems.get? index.toNat with
        | none => rw [hg] at ht; exact hs t ht
        | some u =>
          rw [hg] at ht
          rcases List.mem_or_eq_of_mem_set ht with ht | rfl
          · exact hs t ht
          · exact hs u (List.get?_mem hg)
    · exact absurd h (by simp)
  | delete index =>
    simp only [Action.run, Option.some.injEq] at h
    rw [← h]
    by_cases hb : index < 0 ∨ index ≥ s.1.elems.length
    · rw [deleteTask_outRange _ _ _ hb]; exact hs
    · rw [deleteTask_inRange _ _ _ hb]
      intro t ht
      simp only [elems_mk, List.mem_append] at ht
      rcases ht with ht | ht
      · exact hs t (List.mem_of_mem_take ht)
      · exact hs t (List.mem_of_mem_drop ht)
  | clear =>
    simp only [Action.run, Option.some.injEq] at h
    rw [← h]
    intro t ht
    exact absurd ht (List.not_mem_nil t)

/-- C9: `getValidPriority` returns only `low`, `medium` or `high`: a line is
accepted exactly when its trimmed, lower-cased form is one of the three
(so `urgent` is passed over and the next line is read), and it returns as
soon as the input holds such a line.  Hence every sequence of `createTask`,
`toggleTaskDone`, `deleteTask` and `clearTasks` that starts from a store whose
priorities are among the three leaves such a store. -/
theorem priority_invariant (tbl : Nat → Nat) :
    (∀ lines p rest, getValidPriority tbl lines = some (p, rest) → validPriority p) ∧
    (∀ line rest, validPriority (ToLower tbl (TrimSpace line)) →
      getValidPriority tbl (line :: rest) = some (ToLower tbl (TrimSpace line), rest)) ∧
    (∀ line rest, ¬ validPriority (ToLower tbl (TrimSpace line)) →
      getValidPriority tbl (line :: rest) = getValidPriority tbl rest) ∧
    (∀ lines, (getValidPriority tbl lines).isSome = true ↔
      ∃ l ∈ lines, validPriority (ToLower tbl (TrimSpace l))) ∧
    (∀ rest, getValidPriority tbl (lit "urgent\n" :: rest) = getValidPriority tbl rest) ∧
    (∀ acts s s1, (∀ t ∈ s.1.elems, validPriority t.Priority) →
      runActions tbl acts s = some s1 → ∀ t ∈ s1.1.elems, validPriority t.Priority) := by
  refine ⟨getValidPriority_valid tbl, getValidPriority_accept tbl, getValidPriority_reject tbl,
    getValidPriority_isSome tbl, ?_, ?_⟩
  · intro rest
    apply getValidPriority_reject
    have : ToLower tbl (TrimSpace (lit "urgent\n")) = lit "urgent" := rfl
    rw [this]
    unfold validPriority
    decide
  · intro acts
    induction acts with
    | nil =>
      intro s s1 hs h
      simp only [runActions, Option.some.injEq] at h
      rw [← h]; exact hs
    | cons act tl ih =>
      intro s s1 hs h
      simp only [runActions] at h
      split at h
      · exact absurd h (by simp)
      · rename_i s2 h2
        exact ih s2 s1 (valid_step tbl act s s2 hs h2) h

/-- C10: when the input holds the line of the name and, after it, a line
that `getValidPriority` accepts, `createTask` returns; the new sequence is
the old one followed by one record (so its length is `n + 1` and the first
`n` records are the old ones in order), and that record is not done, has the
trimmed name line as name, the accepted priority and the accepted due date
(empty, or a date `time.Parse` accepts).  Nothing is compared with the names
already in the store. -/
theorem createTask_appends (tbl : Nat → Nat) (tm : taskCtlr) (w : World) (nameLine : GoString)
    (rest : List GoString) (p : GoString) (rest1 : List GoString)
    (hin : w.stdin = nameLine :: rest) (hp : getValidPriority tbl rest = some (p, rest1)) :
    ∃ s, createTask tbl tm w = some s ∧
      s.1.elems = tm.elems ++ [⟨TrimSpace nameLine, false, p, (getValidDueDate rest1).1⟩] ∧
      s.1.elems.length = tm.elems.length + 1 ∧
      (∀ j, j < tm.elems.length → s.1.elems.get? j = tm.elems.get? j) ∧
      validPriority p ∧
      ((getValidDueDate rest1).1 = [] ∨ (timeParse (getValidDueDate rest1).1).isSome = true) := by
  refine ⟨_, createTask_eq tbl tm w nameLine rest p rest1 hin hp, rfl, ?_, ?_,
    getValidPriority_valid tbl _ _ _ hp, getValidDueDate_valid rest1⟩
  · simp [elems_mk]
  · intro j hj
    simp only [elems_mk, List.get?_eq_getElem?]
    rw [List.getElem?_append_left hj]

theorem createTask_appends_witness :
    ∃ s, createTask id ⟨some [⟨lit "milk", true, lit "low", []⟩], lit "tasks.json"⟩
        ⟨fun _ => none, 0, [lit " milk \n", lit "urgent\n", lit " High\n", lit "2025-01-10\n"]⟩ = some s ∧
      s.1.elems = [⟨lit "milk", true, lit "low", []⟩, ⟨lit "milk", false, lit "high", lit "2025-01-10"⟩] := by
  obtain ⟨s, h1, h2, _⟩ := createTask_appends id
    ⟨some [⟨lit "milk", true, lit "low", []⟩], lit "tasks.json"⟩
    ⟨fun _ => none, 0, [lit " milk \n", lit "urgent\n", lit " High\n", lit "2025-01-10\n"]⟩
    (lit " milk \n") [lit "urgent\n", lit " High\n", lit "2025-01-10\n"] (lit "high")
    [lit "2025-01-10\n"] rfl (by decide)
  exact ⟨s, h1, by rw [h2]; decide⟩

/-- C5, refuted as stated: on thirteen tasks, twelve of priority medium
followed by one of priority high, `viewByPriority` prints `m` first and then
the medium tasks in the order g c d e f a h i j k l b, not in insertion
order. -/
theorem viewByPriority_unstable :
    (viewByPriority ⟨some thirteenTasks, lit "tasks.json"⟩ emptyWorld).2.2.map Task.Name =
      [[109], [103], [99], [100], [101], [102], [97], [104], [105], [106], [107], [108], [98]] ∧
    (viewByPriority ⟨some thirteenTasks, lit "tasks.json"⟩ emptyWorld).2.2.filter
        (fun t => priorityWeight t.Priority = 2) ≠
      thirteenTasks.filter (fun t => priorityWeight t.Priority = 2) := by
  decide

end Taskctl

namespace Taskctl

/-! ## Exchanges of elements -/

section SwapLemmas

variable {α : Type} [Inhabited α]

theorem Swap_length (d : List α) (i j : Nat) : (Swap d i j).length = d.length := by
  simp [Swap]

theorem getD_Swap (d : List α) (i j k : Nat) (hi : i < d.length) (hj : j < d.length) :
    (Swap d i j).getD k default =
      if k = j then d.getD i default else if k = i then d.getD j default
      else d.getD k default := by
  unfold Swap
  simp only [List.getD_eq_getElem?_getD, List.getElem?_set, List.length_set]
  by_cases h1 : j = k
  · subst h1; simp [hj]
  · have h1' : ¬ k = j := fun h => h1 h.symm
    rw [if_neg h1, if_neg h1']
    by_cases h2 : i = k
    · subst h2; simp [hi]
    · have h2' : ¬ k = i := fun h => h2 h.symm
      rw [if_neg h2, if_neg h2']

theorem keyAt_Swap (key : α → Nat) (d : List α) (i j k : Nat) (hi : i < d.length)
    (hj : j < d.length) :
    keyAt key (Swap d i j) k =
      if k = j then keyAt key d i else if k = i then keyAt key d j else keyAt key d k := by
  unfold keyAt
  rw [getD_Swap d i j k hi hj]
  split
  · rfl
  · split <;> rfl

theorem Swap_perm (d : List α) (i j : Nat) (hi : i < d.length) (hj : j < d.length) :
    (Swap d i j).Perm d := by
  classical
  rw [List.perm_iff_count]
  intro x
  unfold Swap
  rw [List.getD_eq_getElem _ _ hi, List.getD_eq_getElem _ _ hj]
  have hj' : j < (d.set i d[j]).length := by simpa using hj
  rw [List.count_set _ _ _ _ hj', List.count_set _ _ _ _ hi]
  have h1 : (if d[i] == x then 1 else 0) ≤ d.count x := by
    split
    · rename_i h
      have : d[i] = x := by simpa using h
      rw [← this]
      exact List.count_pos_iff.2 (List.getElem_mem hi)
    · omega
  have h2 : (if d[j] == x then 1 else 0) ≤ d.count x := by
    split
    · rename_i h
      have : d[j] = x := by simpa using h
      rw [← this]
      exact List.count_pos_iff.2 (List.getElem_mem hj)
    · omega
  have h3 : (d.set i d[j])[j] = d[j] := by
    rw [List.getElem_set]
    split <;> rfl
  rw [h3]
  omega

theorem Reach.length_eq {a b : Nat} {d d1 : List α} (h : Reach a b d d1) :
    d1.length = d.length := by
  induction h with
  | refl => rfl
  | step i j _ _ _ _ _ ih => rw [Swap_length, ih]

theorem Reach.trans {a b : Nat} {d d1 d2 : List α} (h1 : Reach a b d d1)
    (h2 : Reach a b d1 d2) : Reach a b d d2 := by
  induction h2 with
  | refl => exact h1
  | step i j _ hai hib haj hjb ih => exact Reach.step i j ih hai hib haj hjb

theorem Reach.mono {a b a1 b1 : Nat} {d d1 : List α} (h : Reach a b d d1) (ha : a1 ≤ a)
    (hb : b ≤ b1) : Reach a1 b1 d d1 := by
  induction h with
  | refl => exact Reach.refl _
  | step i j _ hai hib haj hjb ih =>
    exact Reach.step i j ih (by omega) (by omega) (by omega) (by omega)

theorem Reach.swap {a b : Nat} (d : List α) (i j : Nat) (hai : a ≤ i) (hib : i < b)
    (haj : a ≤ j) (hjb : j < b) : Reach a b d (Swap d i j) :=
  Reach.step i j (Reach.refl d) hai hib haj hjb

theorem Reach.perm {a b : Nat} {d d1 : List α} (h : Reach a b d d1) (hb : b ≤ d.length) :
    d1.Perm d := by
  induction h with
  | refl => exact List.Perm.refl _
  | step i j hr _ hib _ hjb ih =>
    have hl := hr.length_eq
    exact (Swap_perm _ i j (by omega) (by omega)).trans ih

theorem Reach.frame {a b : Nat} {d d1 : List α} (h : Reach a b d d1) (hb : b ≤ d.length)
    (k : Nat) (hk : k < a ∨ b ≤ k) : d1.getD k default = d.getD k default := by
  induction h with
  | refl => rfl
  | step i j hr _ hib _ hjb ih =>
    have hl := hr.length_eq
    rw [getD_Swap _ i j k (by omega) (by omega), if_neg (by omega), if_neg (by omega), ih]

theorem Reach.forall_range {a b : Nat} {d d1 : List α} (h : Reach a b d d1)
    (hb : b ≤ d.length) (P : α → Prop)
    (hP : ∀ k, a ≤ k → k < b → P (d.getD k default)) :
    ∀ k, a ≤ k → k < b → P (d1.getD k default) := by
  induction h with
  | refl => exact hP
  | step i j hr hai hib haj hjb ih =>
    have hl := hr.length_eq
    intro k hak hkb
    rw [getD_Swap _ i j k (by omega) (by omega)]
    split
    · exact ih i hai hib
    · split
      · exact ih j haj hjb
      · exact ih k hak hkb

theorem Reach.keyAt_frame {a b : Nat} {d d1 : List α} (h : Reach a b d d1)
    (hb : b ≤ d.length) (key : α → Nat) (k : Nat) (hk : k < a ∨ b ≤ k) :
    keyAt key d1 k = keyAt key d k := by
  unfold keyAt
  rw [h.frame hb k hk]

theorem Reach.lowerBound {a b : Nat} {d d1 : List α} (h : Reach a b d d1)
    (hb : b ≤ d.length) (key : α → Nat) (hl : LowerBound key d a b) :
    LowerBound key d1 a b := by
  intro ha k hak hkb
  rw [h.keyAt_frame hb key (a - 1) (by omega)]
  exact h.forall_range hb (fun x => keyAt key d (a - 1) ≤ key x) (hl ha) k hak hkb

end SwapLemmas

end Taskctl

namespace Taskctl

/-! ## `insertionSort_func` -/

section Insertion

variable {α : Type} [Inhabited α]

theorem Swap_cons_succ (x : α) (l : List α) (i j : Nat) :
    Swap (x :: l) (i + 1) (j + 1) = x :: Swap l i j := by
  simp [Swap]

theorem Swap_append_adjacent (l1 l2 : List α) (x y : α) :
    Swap (l1 ++ x :: y :: l2) (l1.length + 1) l1.length = l1 ++ y :: x :: l2 := by
  induction l1 with
  | nil => simp [Swap]
  | cons z l ih =>
    simp only [List.cons_append, List.length_cons]
    rw [Swap_cons_succ, ih]

theorem split_adjacent (d : List α) (j : Nat) (h : j + 1 < d.length) :
    d = d.take j ++ d.getD j default :: d.getD (j + 1) default :: d.drop (j + 2) := by
  have h1 : d.drop j = d.getD j default :: d.drop (j + 1) := by
    rw [List.getD_eq_getElem _ _ (by omega : j < d.length)]
    exact List.drop_eq_getElem_cons (by omega)
  have h2 : d.drop (j + 1) = d.getD (j + 1) default :: d.drop (j + 2) := by
    rw [List.getD_eq_getElem _ _ h]
    exact List.drop_eq_getElem_cons h
  rw [← h2, ← h1, List.take_append_drop]

omit [Inhabited α] in
theorem filter_adjacent (l1 l2 : List α) (x y : α) (p : α → Bool)
    (hp : ¬ (p y = true ∧ p x = true)) :
    (l1 ++ y :: x :: l2).filter p = (l1 ++ x :: y :: l2).filter p := by
  simp only [List.filter_append, List.filter_cons]
  cases hx : p x <;> cases hy : p y <;> simp_all

theorem Swap_adjacent_filter (d : List α) (j : Nat) (h : j + 1 < d.length) (p : α → Bool)
    (hp : ¬ (p (d.getD (j + 1) default) = true ∧ p (d.getD j default) = true)) :
    (Swap d (j + 1) j).filter p = d.filter p := by
  have hs := split_adjacent d j h
  have hl : (d.take j).length = j := by
    rw [List.length_take]; omega
  have h2 : Swap d (j + 1) j =
      d.take j ++ d.getD (j + 1) default :: d.getD j default :: d.drop (j + 2) := by
    conv_lhs => rw [hs]
    have := Swap_append_adjacent (d.take j) (d.drop (j + 2)) (d.getD j default)
      (d.getD (j + 1) default)
    rw [hl] at this
    exact this
  rw [h2, filter_adjacent _ _ _ _ p hp]
  conv_rhs => rw [hs]

variable (less : List α → Nat → Nat → Bool)

/-- The inner loop of the insertion sort only exchanges neighbours that
`less` tells apart, so it keeps every sublist of elements `less` does not
tell apart. -/
theorem insertionInner_filter (p : α → Bool)
    (hp : ∀ d i j, less d i j = true →
      ¬ (p (d.getD i default) = true ∧ p (d.getD j default) = true)) (a : Nat) :
    ∀ (j : Nat) (d : List α), j < d.length →
      (insertionInner less a j d).filter p = d.filter p := by
  intro j
  induction j with
  | zero => intro d _; rfl
  | succ j ih =>
    intro d hj
    unfold insertionInner
    split
    · rename_i hc
      simp only [Bool.and_eq_true, decide_eq_true_eq] at hc
      rw [ih _ (by rw [Swap_length]; omega)]
      exact Swap_adjacent_filter d j hj p (hp d (j + 1) j hc.2)
    · rfl

theorem insertionInner_length (a : Nat) :
    ∀ (j : Nat) (d : List α), (insertionInner less a j d).length = d.length := by
  intro j
  induction j with
  | zero => intro d; rfl
  | succ j ih =>
    intro d
    unfold insertionInner
    split
    · rw [ih, Swap_length]
    · rfl

theorem insertionOuter_filter (p : α → Bool)
    (hp : ∀ d i j, less d i j = true →
      ¬ (p (d.getD i default) = true ∧ p (d.getD j default) = true)) (a : Nat) :
    ∀ (n i : Nat) (d : List α), i + n ≤ d.length →
      (insertionOuter less a n i d).filter p = d.filter p := by
  intro n
  induction n with
  | zero => intro i d _; rfl
  | succ n ih =>
    intro i d h
    unfold insertionOuter
    rw [ih _ _ (by rw [insertionInner_length]; omega)]
    exact insertionInner_filter less p hp a i d (by omega)

theorem insertionSort_func_filter (p : α → Bool)
    (hp : ∀ d i j, less d i j = true →
      ¬ (p (d.getD i default) = true ∧ p (d.getD j default) = true))
    (d : List α) (a b : Nat) (hb : b ≤ d.length) :
    (insertionSort_func less d a b).filter p = d.filter p := by
  unfold insertionSort_func
  by_cases h : a + 1 ≤ b
  · exact insertionOuter_filter less p hp a _ _ d (by omega)
  · have : b - (a + 1) = 0 := by omega
    rw [this]; rfl

/-- For at most twelve elements `sort.Slice` is the insertion sort. -/
theorem Slice_eq_insertion (x : List α) (h : x.length ≤ 12) :
    Slice less x = insertionSort_func less x 0 x.length := by
  unfold Slice
  cases hx : x.length with
  | zero =>
    simp only [pdqsort_func]
    unfold insertionSort_func
    rfl
  | succ n =>
    simp only
    unfold pdqsort_func
    rw [if_pos (by omega)]

variable (key : α → Nat)

theorem insertionInner_spec (hk : KeyLess less key) (a J : Nat) :
    ∀ (j : Nat) (d : List α), a ≤ j → j ≤ J → J < d.length →
      SortedOn key d a j → SortedOn key d j (J + 1) →
      (∀ x y, a ≤ x → x < j → j < y → y ≤ J → keyAt key d x ≤ keyAt key d y) →
      Reach a (J + 1) d (insertionInner less a j d) ∧
        SortedOn key (insertionInner less a j d) a (J + 1) := by
  intro j
  induction j with
  | zero =>
    intro d ha _ _ _ h2 _
    have : a = 0 := by omega
    subst this
    exact ⟨Reach.refl _, h2⟩
  | succ j ih =>
    intro d ha hJ hl h1 h2 h3
    unfold insertionInner
    split
    · rename_i hc
      simp only [Bool.and_eq_true, decide_eq_true_eq] at hc
      have hlt : keyAt key d (j + 1) < keyAt key d j := by
        have := hc.2; rw [hk] at this; simpa using this
      have hS : ∀ k, keyAt key (Swap d (j + 1) j) k =
          if k = j then keyAt key d (j + 1) else if k = j + 1 then keyAt key d j
          else keyAt key d k := fun k => keyAt_Swap key d (j + 1) j k (by omega) (by omega)
      have := ih (Swap d (j + 1) j) (by omega) (by omega) (by rw [Swap_length]; exact hl)
        (by
          intro x y hx hxy hy
          have f1 := h1 x y hx hxy (by omega)
          rw [hS, hS]
          split_ifs <;> omega)
        (by
          intro x y hx hxy hy
          have f1 : j + 1 ≤ y → keyAt key d (j + 1) ≤ keyAt key d y :=
            fun h => h2 (j + 1) y (by omega) h hy
          have f2 : j + 1 < y → keyAt key d j ≤ keyAt key d y :=
            fun h => h3 j y (by omega) (by omega) h (by omega)
          have f3 : j + 1 ≤ x → keyAt key d x ≤ keyAt key d y :=
            fun h => h2 x y h hxy hy
          rw [hS, hS]
          split_ifs <;> omega)
        (by
          intro x y hx hxj hjy hyJ
          have f1 : keyAt key d x ≤ keyAt key d j := h1 x j hx (by omega) (by omega)
          have f2 : j + 1 < y → keyAt key d x ≤ keyAt key d y :=
            fun h => h3 x y hx (by omega) h hyJ
          rw [hS, hS]
          split_ifs <;> omega)
      exact ⟨(Reach.swap d (j + 1) j (by omega) (by omega) (by omega) (by omega)).trans this.1,
        this.2⟩
    · rename_i hc
      refine ⟨Reach.refl _, ?_⟩
      simp only [Bool.and_eq_true, decide_eq_true_eq, not_and] at hc
      by_cases haj : a < j + 1
      · have hge : keyAt key d j ≤ keyAt key d (j + 1) := by
          have := hc haj; rw [hk] at this; simpa using this
        intro x y hx hxy hy
        by_cases hxj : x < j + 1
        · by_cases hyj : y < j + 1
          · exact h1 x y hx hxy hyj
          · have e1 := h1 x j hx (by omega) (by omega)
            have e2 := h2 (j + 1) y (by omega) (by omega) hy
            omega
        · exact h2 x y (by omega) hxy hy
      · have : a = j + 1 := by omega
        subst this
        exact h2

theorem insertionOuter_spec (hk : KeyLess less key) (a b : Nat) :
    ∀ (n i : Nat) (d : List α), a < i → i + n = b → b ≤ d.length →
      SortedOn key d a i →
      Reach a b d (insertionOuter less a n i d) ∧
        SortedOn key (insertionOuter less a n i d) a b := by
  intro n
  induction n with
  | zero =>
    intro i d _ hi _ hs
    have : i = b := by omega
    subst this
    exact ⟨Reach.refl _, hs⟩
  | succ n ih =>
    intro i d hai hi hb hs
    unfold insertionOuter
    have h1 := insertionInner_spec less key hk a i i d (by omega) (le_refl _) (by omega) hs
      (by
        intro x y hx hxy hy
        have : x = y := by omega
        subst this; exact le_refl _)
      (by intro x y _ _ _ _; omega)
    have hl := h1.1.length_eq
    have h2 := ih (i + 1) (insertionInner less a i d) (by omega) (by omega) (by omega) h1.2
    exact ⟨(h1.1.mono (le_refl _) (by omega)).trans h2.1, h2.2⟩

/-- The function `insertionSort_func` sorts the range `[a, b)` and touches
nothing else. -/
theorem insertionSort_func_spec (hk : KeyLess less key) (d : List α) (a b : Nat)
    (hb : b ≤ d.length) :
    Reach a b d (insertionSort_func less d a b) ∧
      SortedOn key (insertionSort_func less d a b) a b := by
  unfold insertionSort_func
  by_cases h : a + 1 ≤ b
  · exact insertionOuter_spec less key hk a b _ _ d (by omega) (by omega) hb
      (by
        intro x y hx hxy hy
        have : x = y := by omega
        subst this; exact le_refl _)
  · have : b - (a + 1) = 0 := by omega
    rw [this]
    refine ⟨Reach.refl _, ?_⟩
    intro x y hx hxy hy
    have : x = y := by omega
    subst this; exact le_refl _

end Insertion

end Taskctl

namespace Taskctl

/-! ## `heapSort_func` -/

section HeapSort

variable {α : Type} [Inhabited α]
variable (less : List α → Nat → Nat → Bool) (key : α → Nat)

theorem KeyLess.lt_iff {less : List α → Nat → Nat → Bool} {key : α → Nat}
    (hk : KeyLess less key) (d : List α) (i j : Nat) :
    less d i j = true ↔ keyAt key d i < keyAt key d j := by
  rw [hk]; simp

theorem KeyLess.not_lt_iff {less : List α → Nat → Nat → Bool} {key : α → Nat}
    (hk : KeyLess less key) (d : List α) (i j : Nat) :
    (!less d i j) = true ↔ keyAt key d j ≤ keyAt key d i := by
  rw [hk]; simp

theorem siftDown_spec (hk : KeyLess less key) (hi first lo : Nat) :
    ∀ (fuel : Nat) (d : List α) (root : Nat), lo ≤ root → first + hi ≤ d.length →
      hi ≤ root + fuel →
      HeapExcept key d first lo hi root →
      (∀ n c, lo ≤ n → (root = 2 * n + 1 ∨ root = 2 * n + 2) → c < hi →
        (c = 2 * root + 1 ∨ c = 2 * root + 2) →
        keyAt key d (first + c) ≤ keyAt key d (first + n)) →
      Reach (first + lo) (first + hi) d (siftDown_func less hi first fuel d root) ∧
        HeapOn key (siftDown_func less hi first fuel d root) first lo hi := by
  intro fuel
  induction fuel with
  | zero =>
    intro d root _ _ hf he _
    refine ⟨Reach.refl _, ?_⟩
    intro n c hn hc hcn
    by_cases hnr : n = root
    · omega
    · exact he n c hn hnr hc hcn
  | succ fuel ih =>
    intro d root hlo hlen hf he hp
    unfold siftDown_func
    simp only
    split
    · rename_i h1
      refine ⟨Reach.refl _, ?_⟩
      intro n c hn hc hcn
      by_cases hnr : n = root
      · omega
      · exact he n c hn hnr hc hcn
    · rename_i h1
      obtain ⟨cs, hcs, hc1, hc2, hc3⟩ : ∃ cs,
          cs = (if 2 * root + 1 + 1 < hi &&
              less d (first + (2 * root + 1)) (first + (2 * root + 1) + 1)
            then 2 * root + 1 + 1 else 2 * root + 1) ∧ cs < hi ∧
          (cs = 2 * root + 1 ∨ cs = 2 * root + 2) ∧
          (∀ c, c < hi → (c = 2 * root + 1 ∨ c = 2 * root + 2) →
            keyAt key d (first + c) ≤ keyAt key d (first + cs)) := by
        refine ⟨_, rfl, ?_⟩
        split
        · rename_i h2
          simp only [Bool.and_eq_true, decide_eq_true_eq] at h2
          have h3 := (hk.lt_iff d _ _).1 h2.2
          refine ⟨by omega, by omega, ?_⟩
          intro c hc hcc
          rcases hcc with rfl | rfl
          · have : first + (2 * root + 1) + 1 = first + (2 * root + 1 + 1) := by omega
            rw [this] at h3
            omega
          · exact le_refl _
        · rename_i h2
          simp only [Bool.and_eq_true, decide_eq_true_eq, not_and] at h2
          refine ⟨by omega, by omega, ?_⟩
          intro c hc hcc
          rcases hcc with rfl | rfl
          · exact le_refl _
          · have h3 := h2 (by omega)
            have h4 : ¬ keyAt key d (first + (2 * root + 1)) <
                keyAt key d (first + (2 * root + 1) + 1) := by
              intro h; exact h3 ((hk.lt_iff d _ _).2 h)
            have : first + (2 * root + 1) + 1 = first + (2 * root + 2) := by omega
            rw [this] at h4
            omega
      rw [← hcs]
      split
      · rename_i h2
        have h3 := (hk.not_lt_iff d _ _).1 h2
        refine ⟨Reach.refl _, ?_⟩
        intro n c hn hc hcn
        by_cases hnr : n = root
        · subst hnr
          have := hc3 c hc hcn
          omega
        · exact he n c hn hnr hc hcn
      · rename_i h2
        have h3 : keyAt key d (first + root) < keyAt key d (first + cs) := by
          have : less d (first + root) (first + cs) = true := by
            cases h : less d (first + root) (first + cs)
            · simp [h] at h2
            · rfl
          exact (hk.lt_iff d _ _).1 this
        have hS : ∀ k, keyAt key (Swap d (first + root) (first + cs)) k =
            if k = first + cs then keyAt key d (first + root)
            else if k = first + root then keyAt key d (first + cs)
            else keyAt key d k :=
          fun k => keyAt_Swap key d _ _ k (by omega) (by omega)
        have := ih (Swap d (first + root) (first + cs)) cs (by omega)
          (by rw [Swap_length]; exact hlen) (by omega)
          (by
            intro n c hn hncs hc hcn
            have f1 : n ≠ root → keyAt key d (first + c) ≤ keyAt key d (first + n) :=
              fun h => he n c hn h hc hcn
            have f2 : n = root → keyAt key d (first + c) ≤ keyAt key d (first + cs) :=
              fun h => hc3 c hc (by omega)
            have f3 : c = root → keyAt key d (first + cs) ≤ keyAt key d (first + n) :=
              fun h => hp n cs hn (by omega) hc1 hc2
            rw [hS, hS]
            split_ifs <;> omega)
          (by
            intro n c hn hcsn hc hcc
            have f1 : keyAt key d (first + c) ≤ keyAt key d (first + cs) :=
              he cs c (by omega) (by omega) hc hcc
            rw [hS, hS]
            split_ifs <;> omega)
        exact ⟨(Reach.swap d _ _ (by omega) (by omega) (by omega) (by omega)).trans this.1,
          this.2⟩

theorem heapBuild_spec (hk : KeyLess less key) (hi first : Nat) :
    ∀ (m : Nat) (d : List α), first + hi ≤ d.length → HeapOn key d first m hi →
      Reach first (first + hi) d (heapBuild less hi first m d) ∧
        HeapOn key (heapBuild less hi first m d) first 0 hi := by
  intro m
  induction m with
  | zero => intro d _ h; exact ⟨Reach.refl _, h⟩
  | succ i ih =>
    intro d hlen h
    unfold heapBuild
    have h1 := siftDown_spec less key hk hi first i hi d i (le_refl _) hlen (by omega)
      (by
        intro n c hn hni hc hcn
        exact h n c (by omega) hc hcn)
      (by intro n c hn hr _ _; omega)
    have h2 := ih _ (by rw [h1.1.length_eq]; exact hlen) h1.2
    exact ⟨(h1.1.mono (by omega) (le_refl _)).trans h2.1, h2.2⟩

theorem heap_root_max (d : List α) (first m : Nat) (h : HeapOn key d first 0 m) :
    ∀ x, x < m → keyAt key d (first + x) ≤ keyAt key d (first + 0) := by
  intro x
  induction x using Nat.strong_induction_on with
  | _ x ih =>
    intro hx
    by_cases h0 : x = 0
    · subst h0; exact le_refl _
    · have h1 := ih ((x - 1) / 2) (by omega) (by omega)
      have h2 := h ((x - 1) / 2) x (Nat.zero_le _) hx (by omega)
      omega

theorem heapPop_spec (hk : KeyLess less key) (first hi : Nat) :
    ∀ (m : Nat) (d : List α), m ≤ hi → first + hi ≤ d.length →
      HeapOn key d first 0 m → SortedOn key d (first + m) (first + hi) →
      (∀ x y, x < m → m ≤ y → y < hi → keyAt key d (first + x) ≤ keyAt key d (first + y)) →
      Reach first (first + hi) d (heapPop less first m d) ∧
        SortedOn key (heapPop less first m d) first (first + hi) := by
  intro m
  induction m with
  | zero =>
    intro d _ _ _ hs _
    exact ⟨Reach.refl _, by simpa using hs⟩
  | succ i ih =>
    intro d hm hlen hh hs hb
    unfold heapPop
    have hmax := heap_root_max key d first (i + 1) hh
    have hS : ∀ k, keyAt key (Swap d first (first + i)) k =
        if k = first + i then keyAt key d first
        else if k = first then keyAt key d (first + i)
        else keyAt key d k :=
      fun k => keyAt_Swap key d _ _ k (by omega) (by omega)
    have hr1 : Reach first (first + hi) d (Swap d first (first + i)) :=
      Reach.swap d _ _ (by omega) (by omega) (by omega) (by omega)
    have hl1 : (Swap d first (first + i)).length = d.length := Swap_length _ _ _
    have h1 := siftDown_spec less key hk i first 0 i (Swap d first (first + i)) 0 (le_refl _)
      (by rw [hl1]; omega) (by omega)
      (by
        intro n c _ hn hc hcn
        have f1 := hh n c (Nat.zero_le _) (by omega) hcn
        rw [hS, hS]
        split_ifs <;> omega)
      (by intro n c _ hr _ _; omega)
    have hl2 := h1.1.length_eq
    have hfr : ∀ k, first + i ≤ k →
        keyAt key (siftDown_func less i first i (Swap d first (first + i)) 0) k =
        keyAt key (Swap d first (first + i)) k := by
      intro k hk'
      have := h1.1.keyAt_frame (by rw [hl1]; omega) key k (Or.inr (by omega))
      simpa using this
    have hrange : ∀ (B : Nat), (∀ x, x < i + 1 → keyAt key d (first + x) ≤ B) →
        ∀ x, x < i →
          keyAt key (siftDown_func less i first i (Swap d first (first + i)) 0) (first + x) ≤ B := by
      intro B hB x hx
      have := h1.1.forall_range (by rw [hl1]; omega) (fun t => key t ≤ B)
        (by
          intro k hk1 hk2
          show keyAt key (Swap d first (first + i)) k ≤ B
          have f1 := hB (k - first) (by omega)
          have f2 := hB i (by omega)
          have f3 := hB 0 (by omega)
          have e1 : first + (k - first) = k := by omega
          rw [e1] at f1
          rw [hS]
          split_ifs <;> simp_all)
        (first + x) (by omega) (by omega)
      exact this
    have h2 := ih _ (by omega) (by rw [hl2, hl1]; exact hlen) h1.2
      (by
        intro x y hx hxy hy
        rw [hfr x (by omega), hfr y (by omega), hS, hS]
        have f1 : first + i + 1 ≤ x → keyAt key d x ≤ keyAt key d y :=
          fun h => hs x y (by omega) hxy hy
        have f2 : first + i + 1 ≤ y → keyAt key d (first + 0) ≤ keyAt key d y := by
          intro h
          have := hb 0 (y - first) (by omega) (by omega) (by omega)
          have e1 : first + (y - first) = y := by omega
          rw [e1] at this
          exact this
        simp only [Nat.add_zero] at f2
        split_ifs <;> omega)
      (by
        intro x y hx hxy hy
        rw [hfr (first + y) (by omega), hS]
        by_cases hyi : y = i
        · subst hyi
          rw [if_pos rfl]
          apply hrange
          · intro z hz
            have := hmax z hz
            simpa using this
          · exact hx
        · rw [if_neg (by omega), if_neg (by omega)]
          apply hrange
          · intro z hz
            exact hb z y hz (by omega) hy
          · exact hx)
    exact ⟨hr1.trans ((h1.1.mono (by omega) (by omega)).trans h2.1), h2.2⟩

/-- The function `heapSort_func` sorts the range `[a, b)` and touches nothing
else. -/
theorem heapSort_func_spec (hk : KeyLess less key) (d : List α) (a b : Nat) (hab : a ≤ b)
    (hb : b ≤ d.length) :
    Reach a b d (heapSort_func less d a b) ∧ SortedOn key (heapSort_func less d a b) a b := by
  unfold heapSort_func
  simp only
  have e : a + (b - a) = b := by omega
  have h1 := heapBuild_spec less key hk (b - a) a ((b - a - 1) / 2 + 1) d (by omega)
    (by intro n c hn hc hcn; omega)
  have h2 := heapPop_spec less key hk a (b - a) (b - a) _ (le_refl _)
    (by rw [h1.1.length_eq]; omega) h1.2
    (by intro x y hx hxy hy; omega)
    (by intro x y hx hxy hy; omega)
  rw [e] at h1 h2
  exact ⟨h1.1.trans h2.1, h2.2⟩

end HeapSort

end Taskctl

namespace Taskctl

/-! ## The parts of `pdqsort_func` -/

section Partition

set_option linter.unusedSectionVars false

variable {α : Type} [Inhabited α]
variable (less : List α → Nat → Nat → Bool) (key : α → Nat)

theorem order2_func_fst (d : List α) (a b s : Nat) :
    ((order2_func less d a b s).1 = a ∧ (order2_func less d a b s).2.1 = b) ∨
    ((order2_func less d a b s).1 = b ∧ (order2_func less d a b s).2.1 = a) := by
  unfold order2_func
  split
  · right; exact ⟨rfl, rfl⟩
  · left; exact ⟨rfl, rfl⟩

theorem median_func_mem (d : List α) (a b c s : Nat) :
    (median_func less d a b c s).1 = a ∨ (median_func less d a b c s).1 = b ∨
      (median_func less d a b c s).1 = c := by
  unfold median_func
  simp only
  have h1 := order2_func_fst less d a b s
  have h2 := order2_func_fst less d (order2_func less d a b s).2.1 c (order2_func less d a b s).2.2
  have h3 := order2_func_fst less d (order2_func less d a b s).1
    (order2_func less d (order2_func less d a b s).2.1 c (order2_func less d a b s).2.2).1
    (order2_func less d (order2_func less d a b s).2.1 c (order2_func less d a b s).2.2).2.2
  rcases h1 with ⟨e1, e2⟩ | ⟨e1, e2⟩ <;> rcases h2 with ⟨e3, e4⟩ | ⟨e3, e4⟩ <;>
    rcases h3 with ⟨e5, e6⟩ | ⟨e5, e6⟩ <;> simp_all

theorem choosePivot_func_bounds (d : List α) (a b : Nat) (hab : a < b) :
    a ≤ (choosePivot_func less d a b).1 ∧ (choosePivot_func less d a b).1 < b := by
  have key1 : ∀ (r : Nat × Nat), (a ≤ r.1 ∧ r.1 < b) →
      a ≤ (if r.2 = 0 then (r.1, sortedHint.increasingHint)
        else if r.2 = 12 then (r.1, sortedHint.decreasingHint)
        else (r.1, sortedHint.unknownHint)).1 ∧
      (if r.2 = 0 then (r.1, sortedHint.increasingHint)
        else if r.2 = 12 then (r.1, sortedHint.decreasingHint)
        else (r.1, sortedHint.unknownHint)).1 < b := by
    intro r hr
    split
    · exact hr
    · split <;> exact hr
  unfold choosePivot_func
  simp only
  apply key1
  split
  · rename_i h8
    split
    · rename_i h50
      have m1 := median_func_mem less d (a + (b - a) / 4 * 1 - 1) (a + (b - a) / 4 * 1)
        (a + (b - a) / 4 * 1 + 1) 0
      have m2 := median_func_mem less d (a + (b - a) / 4 * 2 - 1) (a + (b - a) / 4 * 2)
        (a + (b - a) / 4 * 2 + 1)
        (medianAdjacent_func less d (a + (b - a) / 4 * 1) 0).2
      have m3 := median_func_mem less d (a + (b - a) / 4 * 3 - 1) (a + (b - a) / 4 * 3)
        (a + (b - a) / 4 * 3 + 1)
        (medianAdjacent_func less d (a + (b - a) / 4 * 2)
          (medianAdjacent_func less d (a + (b - a) / 4 * 1) 0).2).2
      have m4 := median_func_mem less d
        (medianAdjacent_func less d (a + (b - a) / 4 * 1) 0).1
        (medianAdjacent_func less d (a + (b - a) / 4 * 2)
          (medianAdjacent_func less d (a + (b - a) / 4 * 1) 0).2).1
        (medianAdjacent_func less d (a + (b - a) / 4 * 3)
          (medianAdjacent_func less d (a + (b - a) / 4 * 2)
            (medianAdjacent_func less d (a + (b - a) / 4 * 1) 0).2).2).1
        (medianAdjacent_func less d (a + (b - a) / 4 * 3)
          (medianAdjacent_func less d (a + (b - a) / 4 * 2)
            (medianAdjacent_func less d (a + (b - a) / 4 * 1) 0).2).2).2
      unfold medianAdjacent_func at *
      omega
    · have m := median_func_mem less d (a + (b - a) / 4 * 1) (a + (b - a) / 4 * 2)
        (a + (b - a) / 4 * 3) 0
      omega
  · simp only
    omega

theorem reverseLoop_reach (a b : Nat) :
    ∀ (fuel : Nat) (d : List α) (i j : Nat), a ≤ i → j < b →
      Reach a b d (reverseLoop fuel d i j) := by
  intro fuel
  induction fuel with
  | zero => intro d i j _ _; exact Reach.refl _
  | succ fuel ih =>
    intro d i j hi hj
    unfold reverseLoop
    split
    · exact (Reach.swap d i j hi (by omega) (by omega) hj).trans
        (ih _ _ _ (by omega) (by omega))
    · exact Reach.refl _

theorem reverseRange_func_reach (d : List α) (a b : Nat) (hab : a < b) :
    Reach a b d (reverseRange_func d a b) := by
  unfold reverseRange_func
  exact reverseLoop_reach a b _ d a (b - 1) (le_refl _) (by omega)

theorem bitsLenAux_pow (fuel : Nat) : ∀ n, 1 ≤ n → 2 ^ bitsLenAux fuel n ≤ 2 * n := by
  induction fuel with
  | zero => intro n hn; simp only [bitsLenAux, pow_zero]; omega
  | succ fuel ih =>
    intro n hn
    unfold bitsLenAux
    rw [if_neg (by omega)]
    by_cases h : n / 2 = 0
    · rw [h]
      have : bitsLenAux fuel 0 = 0 := by
        cases fuel <;> simp [bitsLenAux]
      rw [this]
      simp only [Nat.add_zero, pow_one]
      omega
    · have := ih (n / 2) (by omega)
      rw [Nat.pow_add, pow_one]
      omega

theorem nextPowerOfTwo_le (length : Nat) (h : 1 ≤ length) :
    1 ≤ nextPowerOfTwo length ∧ nextPowerOfTwo length ≤ 2 * length := by
  unfold nextPowerOfTwo bitsLen
  rw [Nat.one_shiftLeft]
  exact ⟨Nat.one_le_two_pow, bitsLenAux_pow _ _ h⟩

theorem breakPatternsLoop_reach (a b length modulus idx : Nat) (hl : a + length = b)
    (hm1 : 1 ≤ modulus) (hm2 : modulus ≤ 2 * length) :
    ∀ (n i random : Nat) (d : List α), a ≤ idx → idx + i + n ≤ b →
      Reach a b d (breakPatternsLoop a length modulus idx n i random d) := by
  intro n
  induction n with
  | zero => intro i random d _ _; exact Reach.refl _
  | succ n ih =>
    intro i random d h1 h2
    unfold breakPatternsLoop
    simp only
    have hand : xorshiftNext random &&& (modulus - 1) ≤ modulus - 1 := Nat.and_le_right
    refine (Reach.swap d _ _ (by omega) (by omega) (by omega) ?_).trans
      (ih _ _ _ h1 (by omega))
    split <;> omega

theorem breakPatterns_func_reach (d : List α) (a b : Nat) (hab : a ≤ b) :
    Reach a b d (breakPatterns_func d a b) := by
  unfold breakPatterns_func
  simp only
  split
  · rename_i h8
    have hp := nextPowerOfTwo_le (b - a) (by omega)
    exact breakPatternsLoop_reach a b (b - a) _ _ (by omega) hp.1 hp.2 3 0 _ d
      (by omega) (by omega)
  · exact Reach.refl _

end Partition

end Taskctl

namespace Taskctl

/-! ## `partition_func` and `partitionEqual_func` -/

section Partition2

set_option linter.unusedSectionVars false

variable {α : Type} [Inhabited α]
variable (less : List α → Nat → Nat → Bool) (key : α → Nat)

theorem partitionUp_spec (hk : KeyLess less key) (d : List α) (a j : Nat) :
    ∀ (fuel i : Nat), i ≤ j + 1 → j + 1 ≤ i + fuel →
      i ≤ partitionUp less d a j fuel i ∧ partitionUp less d a j fuel i ≤ j + 1 ∧
      (∀ k, i ≤ k → k < partitionUp less d a j fuel i → keyAt key d k < keyAt key d a) ∧
      (partitionUp less d a j fuel i ≤ j →
        keyAt key d a ≤ keyAt key d (partitionUp less d a j fuel i)) := by
  intro fuel
  induction fuel with
  | zero =>
    intro i h1 h2
    simp only [partitionUp]
    exact ⟨le_refl _, h1, by intro k _ _; omega, by intro h; omega⟩
  | succ fuel ih =>
    intro i h1 h2
    unfold partitionUp
    split
    · rename_i hc
      simp only [Bool.and_eq_true, decide_eq_true_eq] at hc
      have hlt := (hk.lt_iff d _ _).1 hc.2
      have := ih (i + 1) (by omega) (by omega)
      refine ⟨by omega, this.2.1, ?_, this.2.2.2⟩
      intro k hk1 hk2
      by_cases hki : k = i
      · subst hki; exact hlt
      · exact this.2.2.1 k (by omega) hk2
    · rename_i hc
      simp only [Bool.and_eq_true, decide_eq_true_eq, not_and] at hc
      refine ⟨le_refl _, h1, by intro k _ _; omega, ?_⟩
      intro hij
      have h3 := hc hij
      have : ¬ keyAt key d i < keyAt key d a := fun h => h3 ((hk.lt_iff d _ _).2 h)
      omega

theorem partitionDown_spec (hk : KeyLess less key) (d : List α) (a i : Nat) (hi : 1 ≤ i) :
    ∀ (fuel j : Nat), i ≤ j + 1 → j + 1 ≤ i + fuel →
      partitionDown less d a i fuel j ≤ j ∧ i ≤ partitionDown less d a i fuel j + 1 ∧
      (∀ k, partitionDown less d a i fuel j < k → k ≤ j → keyAt key d a ≤ keyAt key d k) ∧
      (i ≤ partitionDown less d a i fuel j →
        keyAt key d (partitionDown less d a i fuel j) < keyAt key d a) := by
  intro fuel
  induction fuel with
  | zero =>
    intro j h1 h2
    simp only [partitionDown]
    exact ⟨le_refl _, h1, by intro k _ _; omega, by intro h; omega⟩
  | succ fuel ih =>
    intro j h1 h2
    unfold partitionDown
    split
    · rename_i hc
      simp only [Bool.and_eq_true, decide_eq_true_eq] at hc
      have hge := (hk.not_lt_iff d _ _).1 hc.2
      have := ih (j - 1) (by omega) (by omega)
      refine ⟨by omega, this.2.1, ?_, this.2.2.2⟩
      intro k hk1 hk2
      by_cases hkj : k = j
      · subst hkj; exact hge
      · exact this.2.2.1 k hk1 (by omega)
    · rename_i hc
      simp only [Bool.and_eq_true, decide_eq_true_eq, not_and] at hc
      refine ⟨le_refl _, h1, by intro k _ _; omega, ?_⟩
      intro hij
      have h3 := hc hij
      have : ¬ keyAt key d a ≤ keyAt key d j := fun h => h3 ((hk.not_lt_iff d _ _).2 h)
      omega

theorem partitionLoop_spec (hk : KeyLess less key) (a b : Nat) :
    ∀ (fuel : Nat) (d : List α) (i j : Nat), a + 1 ≤ i → i ≤ j + 1 → j < b → b ≤ d.length →
      j + 1 ≤ i + fuel →
      (∀ k, a + 1 ≤ k → k < i → keyAt key d k < keyAt key d a) →
      (∀ k, j < k → k < b → keyAt key d a ≤ keyAt key d k) →
      Reach (a + 1) b d (partitionLoop less a fuel d i j).1 ∧
      a ≤ (partitionLoop less a fuel d i j).2 ∧ (partitionLoop less a fuel d i j).2 < b ∧
      (∀ k, a + 1 ≤ k → k ≤ (partitionLoop less a fuel d i j).2 →
        keyAt key (partitionLoop less a fuel d i j).1 k < keyAt key d a) ∧
      (∀ k, (partitionLoop less a fuel d i j).2 < k → k < b →
        keyAt key d a ≤ keyAt key (partitionLoop less a fuel d i j).1 k) := by
  intro fuel
  induction fuel with
  | zero =>
    intro d i j h1 h2 h3 h4 h5 h6 h7
    simp only [partitionLoop]
    exact ⟨Reach.refl _, by omega, h3, fun k hk1 hk2 => h6 k hk1 (by omega), h7⟩
  | succ fuel ih =>
    intro d i j h1 h2 h3 h4 h5 h6 h7
    unfold partitionLoop
    simp only
    have hu := partitionUp_spec less key hk d a j d.length i h2 (by omega)
    generalize partitionUp less d a j d.length i = i1 at hu ⊢
    have hd := partitionDown_spec less key hk d a i1 (by omega) d.length j (by omega) (by omega)
    generalize partitionDown less d a i1 d.length j = j1 at hd ⊢
    split
    · rename_i hji
      refine ⟨Reach.refl _, by omega, by omega, ?_, ?_⟩
      · intro k hk1 hk2
        by_cases hki : k < i
        · exact h6 k hk1 hki
        · exact hu.2.2.1 k (by omega) (by omega)
      · intro k hk1 hk2
        by_cases hkj : j < k
        · exact h7 k hkj hk2
        · exact hd.2.2.1 k hk1 (by omega)
    · rename_i hji
      have e1 := hu.2.2.2 (by omega)
      have e2 := hd.2.2.2 (by omega)
      have hne : i1 ≠ j1 := by
        intro h; rw [h] at e1; omega
      have hS : ∀ k, keyAt key (Swap d i1 j1) k =
          if k = j1 then keyAt key d i1 else if k = i1 then keyAt key d j1
          else keyAt key d k :=
        fun k => keyAt_Swap key d _ _ k (by omega) (by omega)
      have hSa : keyAt key (Swap d i1 j1) a = keyAt key d a := by
        rw [hS, if_neg (by omega), if_neg (by omega)]
      have := ih (Swap d i1 j1) (i1 + 1) (j1 - 1) (by omega) (by omega) (by omega)
        (by rw [Swap_length]; exact h4) (by omega)
        (by
          intro k hk1 hk2
          rw [hSa, hS]
          have f1 : k < i → keyAt key d k < keyAt key d a := fun h => h6 k hk1 h
          have f2 : i ≤ k → k < i1 → keyAt key d k < keyAt key d a :=
            fun h h' => hu.2.2.1 k h h'
          split_ifs <;> omega)
        (by
          intro k hk1 hk2
          rw [hSa, hS]
          have f1 : j < k → keyAt key d a ≤ keyAt key d k := fun h => h7 k h hk2
          have f2 : j1 < k → k ≤ j → keyAt key d a ≤ keyAt key d k :=
            fun h h' => hd.2.2.1 k h h'
          split_ifs <;> omega)
      rw [hSa] at this
      exact ⟨(Reach.swap d i1 j1 (by omega) (by omega) (by omega) (by omega)).trans this.1,
        this.2⟩

/-- The function `partition_func` puts the pivot at the returned index, the
smaller keys before it and no smaller key after it. -/
theorem partition_func_spec (hk : KeyLess less key) (d : List α) (a b pivot : Nat)
    (hab : a < b) (hb : b ≤ d.length) (hp1 : a ≤ pivot) (hp2 : pivot < b) :
    Reach a b d (partition_func less d a b pivot).1 ∧
    a ≤ (partition_func less d a b pivot).2.1 ∧ (partition_func less d a b pivot).2.1 < b ∧
    (∀ k, a ≤ k → k < (partition_func less d a b pivot).2.1 →
      keyAt key (partition_func less d a b pivot).1 k <
        keyAt key (partition_func less d a b pivot).1 (partition_func less d a b pivot).2.1) ∧
    (∀ k, (partition_func less d a b pivot).2.1 < k → k < b →
      keyAt key (partition_func less d a b pivot).1 (partition_func less d a b pivot).2.1 ≤
        keyAt key (partition_func less d a b pivot).1 k) := by
  unfold partition_func
  simp only
  have hr0 : Reach a b d (Swap d a pivot) := Reach.swap d a pivot (le_refl _) hab hp1 hp2
  have hl0 : (Swap d a pivot).length = d.length := Swap_length _ _ _
  generalize Swap d a pivot = d0 at hr0 hl0 ⊢
  have hu := partitionUp_spec less key hk d0 a (b - 1) d0.length (a + 1) (by omega) (by omega)
  generalize partitionUp less d0 a (b - 1) d0.length (a + 1) = i1 at hu ⊢
  have hd := partitionDown_spec less key hk d0 a i1 (by omega) d0.length (b - 1) (by omega)
    (by omega)
  generalize partitionDown less d0 a i1 d0.length (b - 1) = j1 at hd ⊢
  split
  · rename_i hji
    simp only
    have hS : ∀ k, keyAt key (Swap d0 j1 a) k =
        if k = a then keyAt key d0 j1 else if k = j1 then keyAt key d0 a
        else keyAt key d0 k :=
      fun k => keyAt_Swap key d0 _ _ k (by omega) (by omega)
    have f0 : j1 = a → keyAt key d0 j1 = keyAt key d0 a := fun h => by rw [h]
    refine ⟨hr0.trans (Reach.swap d0 j1 a (by omega) (by omega) (le_refl _) hab),
      by omega, by omega, ?_, ?_⟩
    · intro k hk1 hk2
      rw [hS, hS]
      have f1 : a + 1 ≤ k → keyAt key d0 k < keyAt key d0 a :=
        fun h => hu.2.2.1 k h (by omega)
      have f2 : a + 1 ≤ j1 → keyAt key d0 j1 < keyAt key d0 a :=
        fun h => hu.2.2.1 j1 h (by omega)
      split_ifs <;> omega
    · intro k hk1 hk2
      rw [hS, hS]
      have f1 : keyAt key d0 a ≤ keyAt key d0 k := hd.2.2.1 k hk1 (by omega)
      split_ifs <;> omega
  · rename_i hji
    simp only
    have e1 := hu.2.2.2 (by omega)
    have e2 := hd.2.2.2 (by omega)
    have hne : i1 ≠ j1 := by
      intro h; rw [h] at e1; omega
    have hS : ∀ k, keyAt key (Swap d0 i1 j1) k =
        if k = j1 then keyAt key d0 i1 else if k = i1 then keyAt key d0 j1
        else keyAt key d0 k :=
      fun k => keyAt_Swap key d0 _ _ k (by omega) (by omega)
    have hSa : keyAt key d0 a = keyAt key (Swap d0 i1 j1) a := by
      rw [hS, if_neg (by omega), if_neg (by omega)]
    have hl1 : (Swap d0 i1 j1).length = d0.length := Swap_length _ _ _
    have hr1 : Reach a b d0 (Swap d0 i1 j1) :=
      Reach.swap d0 i1 j1 (by omega) (by omega) (by omega) (by omega)
    have hlp := partitionLoop_spec less key hk a b (Swap d0 i1 j1).length (Swap d0 i1 j1)
      (i1 + 1) (j1 - 1) (by omega) (by omega) (by omega) (by omega) (by omega)
      (by
        intro k hk1 hk2
        rw [← hSa, hS]
        have f2 : k < i1 → keyAt key d0 k < keyAt key d0 a :=
          fun h' => hu.2.2.1 k hk1 h'
        split_ifs <;> omega)
      (by
        intro k hk1 hk2
        rw [← hSa, hS]
        have f2 : j1 < k → keyAt key d0 a ≤ keyAt key d0 k :=
          fun h => hd.2.2.1 k h (by omega)
        split_ifs <;> omega)
    generalize Swap d0 i1 j1 = d1 at hl1 hr1 hlp ⊢
    have hl2 := hlp.1.length_eq
    have hfa : keyAt key (partitionLoop less a d1.length d1 (i1 + 1) (j1 - 1)).1 a =
        keyAt key d1 a := hlp.1.keyAt_frame (by omega) key a (Or.inl (by omega))
    generalize partitionLoop less a d1.length d1 (i1 + 1) (j1 - 1) = r at hlp hl2 hfa ⊢
    have hS2 : ∀ k, keyAt key (Swap r.1 r.2 a) k =
        if k = a then keyAt key r.1 r.2 else if k = r.2 then keyAt key r.1 a
        else keyAt key r.1 k :=
      fun k => keyAt_Swap key r.1 _ _ k (by omega) (by omega)
    have f0 : r.2 = a → keyAt key r.1 r.2 = keyAt key r.1 a := fun h => by rw [h]
    refine ⟨hr0.trans (hr1.trans ((hlp.1.mono (by omega) (le_refl _)).trans
      (Reach.swap r.1 r.2 a (by omega) (by omega) (le_refl _) hab))),
      hlp.2.1, hlp.2.2.1, ?_, ?_⟩
    · intro k hk1 hk2
      rw [hS2, hS2]
      have f1 : a + 1 ≤ k → keyAt key r.1 k < keyAt key d1 a :=
        fun h => hlp.2.2.2.1 k h (by omega)
      have f2 : a + 1 ≤ r.2 → keyAt key r.1 r.2 < keyAt key d1 a :=
        fun h => hlp.2.2.2.1 r.2 h (le_refl _)
      split_ifs <;> omega
    · intro k hk1 hk2
      rw [hS2, hS2]
      have f1 : keyAt key d1 a ≤ keyAt key r.1 k := hlp.2.2.2.2 k hk1 hk2
      split_ifs <;> omega

theorem partitionEqualUp_spec (hk : KeyLess less key) (d : List α) (a j : Nat) :
    ∀ (fuel i : Nat), i ≤ j + 1 → j + 1 ≤ i + fuel →
      i ≤ partitionEqualUp less d a j fuel i ∧ partitionEqualUp less d a j fuel i ≤ j + 1 ∧
      (∀ k, i ≤ k → k < partitionEqualUp less d a j fuel i →
        keyAt key d k ≤ keyAt key d a) ∧
      (partitionEqualUp less d a j fuel i ≤ j →
        keyAt key d a < keyAt key d (partitionEqualUp less d a j fuel i)) := by
  intro fuel
  induction fuel with
  | zero =>
    intro i h1 h2
    simp only [partitionEqualUp]
    exact ⟨le_refl _, h1, by intro k _ _; omega, by intro h; omega⟩
  | succ fuel ih =>
    intro i h1 h2
    unfold partitionEqualUp
    split
    · rename_i hc
      simp only [Bool.and_eq_true, decide_eq_true_eq] at hc
      have hle := (hk.not_lt_iff d _ _).1 hc.2
      have := ih (i + 1) (by omega) (by omega)
      refine ⟨by omega, this.2.1, ?_, this.2.2.2⟩
      intro k hk1 hk2
      by_cases hki : k = i
      · subst hki; exact hle
      · exact this.2.2.1 k (by omega) hk2
    · rename_i hc
      simp only [Bool.and_eq_true, decide_eq_true_eq, not_and] at hc
      refine ⟨le_refl _, h1, by intro k _ _; omega, ?_⟩
      intro hij
      have h3 := hc hij
      have : ¬ keyAt key d i ≤ keyAt key d a := fun h => h3 ((hk.not_lt_iff d _ _).2 h)
      omega

theorem partitionEqualDown_spec (hk : KeyLess less key) (d : List α) (a i : Nat)
    (hi : 1 ≤ i) :
    ∀ (fuel j : Nat), i ≤ j + 1 → j + 1 ≤ i + fuel →
      partitionEqualDown less d a i fuel j ≤ j ∧
      i ≤ partitionEqualDown less d a i fuel j + 1 ∧
      (∀ k, partitionEqualDown less d a i fuel j < k → k ≤ j →
        keyAt key d a < keyAt key d k) ∧
      (i ≤ partitionEqualDown less d a i fuel j →
        keyAt key d (partitionEqualDown less d a i fuel j) ≤ keyAt key d a) := by
  intro fuel
  induction fuel with
  | zero =>
    intro j h1 h2
    simp only [partitionEqualDown]
    exact ⟨le_refl _, h1, by intro k _ _; omega, by intro h; omega⟩
  | succ fuel ih =>
    intro j h1 h2
    unfold partitionEqualDown
    split
    · rename_i hc
      simp only [Bool.and_eq_true, decide_eq_true_eq] at hc
      have hlt := (hk.lt_iff d _ _).1 hc.2
      have := ih (j - 1) (by omega) (by omega)
      refine ⟨by omega, this.2.1, ?_, this.2.2.2⟩
      intro k hk1 hk2
      by_cases hkj : k = j
      · subst hkj; exact hlt
      · exact this.2.2.1 k hk1 (by omega)
    · rename_i hc
      simp only [Bool.and_eq_true, decide_eq_true_eq, not_and] at hc
      refine ⟨le_refl _, h1, by intro k _ _; omega, ?_⟩
      intro hij
      have h3 := hc hij
      have : ¬ keyAt key d a < keyAt key d j := fun h => h3 ((hk.lt_iff d _ _).2 h)
      omega

theorem partitionEqualLoop_spec (hk : KeyLess less key) (a b : Nat) :
    ∀ (fuel : Nat) (d : List α) (i j : Nat), a + 1 ≤ i → i ≤ j + 1 → j < b → b ≤ d.length →
      j + 1 ≤ i + fuel →
      (∀ k, a + 1 ≤ k → k < i → keyAt key d k ≤ keyAt key d a) →
      (∀ k, j < k → k < b → keyAt key d a < keyAt key d k) →
      Reach (a + 1) b d (partitionEqualLoop less a fuel d i j).1 ∧
      a + 1 ≤ (partitionEqualLoop less a fuel d i j).2 ∧
      (partitionEqualLoop less a fuel d i j).2 ≤ b ∧
      (∀ k, a + 1 ≤ k → k < (partitionEqualLoop less a fuel d i j).2 →
        keyAt key (partitionEqualLoop less a fuel d i j).1 k ≤ keyAt key d a) ∧
      (∀ k, (partitionEqualLoop less a fuel d i j).2 ≤ k → k < b →
        keyAt key d a < keyAt key (partitionEqualLoop less a fuel d i j).1 k) := by
  intro fuel
  induction fuel with
  | zero =>
    intro d i j h1 h2 h3 h4 h5 h6 h7
    simp only [partitionEqualLoop]
    exact ⟨Reach.refl _, h1, by omega, h6, fun k hk1 hk2 => h7 k (by omega) hk2⟩
  | succ fuel ih =>
    intro d i j h1 h2 h3 h4 h5 h6 h7
    unfold partitionEqualLoop
    simp only
    have hu := partitionEqualUp_spec less key hk d a j d.length i h2 (by omega)
    generalize partitionEqualUp less d a j d.length i = i1 at hu ⊢
    have hd := partitionEqualDown_spec less key hk d a i1 (by omega) d.length j (by omega)
      (by omega)
    generalize partitionEqualDown less d a i1 d.length j = j1 at hd ⊢
    split
    · rename_i hji
      refine ⟨Reach.refl _, by omega, by omega, ?_, ?_⟩
      · intro k hk1 hk2
        by_cases hki : k < i
        · exact h6 k hk1 hki
        · exact hu.2.2.1 k (by omega) (by omega)
      · intro k hk1 hk2
        by_cases hkj : j < k
        · exact h7 k hkj hk2
        · exact hd.2.2.1 k (by omega) (by omega)
    · rename_i hji
      have e1 := hu.2.2.2 (by omega)
      have e2 := hd.2.2.2 (by omega)
      have hne : i1 ≠ j1 := by
        intro h; rw [h] at e1; omega
      have hS : ∀ k, keyAt key (Swap d i1 j1) k =
          if k = j1 then keyAt key d i1 else if k = i1 then keyAt key d j1
          else keyAt key d k :=
        fun k => keyAt_Swap key d _ _ k (by omega) (by omega)
      have hSa : keyAt key (Swap d i1 j1) a = keyAt key d a := by
        rw [hS, if_neg (by omega), if_neg (by omega)]
      have := ih (Swap d i1 j1) (i1 + 1) (j1 - 1) (by omega) (by omega) (by omega)
        (by rw [Swap_length]; exact h4) (by omega)
        (by
          intro k hk1 hk2
          rw [hSa, hS]
          have f1 : k < i → keyAt key d k ≤ keyAt key d a := fun h => h6 k hk1 h
          have f2 : i ≤ k → k < i1 → keyAt key d k ≤ keyAt key d a :=
            fun h h' => hu.2.2.1 k h h'
          split_ifs <;> omega)
        (by
          intro k hk1 hk2
          rw [hSa, hS]
          have f1 : j < k → keyAt key d a < keyAt key d k := fun h => h7 k h hk2
          have f2 : j1 < k → k ≤ j → keyAt key d a < keyAt key d k :=
            fun h h' => hd.2.2.1 k h h'
          split_ifs <;> omega)
      rw [hSa] at this
      exact ⟨(Reach.swap d i1 j1 (by omega) (by omega) (by omega) (by omega)).trans this.1,
        this.2⟩

/-- The function `partitionEqual_func` puts the keys that are not greater
than the pivot before the returned index and the greater keys from it on. -/
theorem partitionEqual_func_spec (hk : KeyLess less key) (d : List α) (a b pivot : Nat)
    (hab : a < b) (hb : b ≤ d.length) (hp1 : a ≤ pivot) (hp2 : pivot < b) :
    Reach a b d (partitionEqual_func less d a b pivot).1 ∧
    a + 1 ≤ (partitionEqual_func less d a b pivot).2 ∧
    (partitionEqual_func less d a b pivot).2 ≤ b ∧
    (∀ k, a ≤ k → k < (partitionEqual_func less d a b pivot).2 →
      keyAt key (partitionEqual_func less d a b pivot).1 k ≤ keyAt key d pivot) ∧
    (∀ k, (partitionEqual_func less d a b pivot).2 ≤ k → k < b →
      keyAt key d pivot < keyAt key (partitionEqual_func less d a b pivot).1 k) := by
  unfold partitionEqual_func
  simp only
  have hr0 : Reach a b d (Swap d a pivot) := Reach.swap d a pivot (le_refl _) hab hp1 hp2
  have hl0 : (Swap d a pivot).length = d.length := Swap_length _ _ _
  have hSa : keyAt key (Swap d a pivot) a = keyAt key d pivot := by
    rw [keyAt_Swap key d a pivot a (by omega) (by omega)]
    split
    · rename_i h; rw [← h]
    · rw [if_pos rfl]
  generalize Swap d a pivot = d0 at hr0 hl0 hSa ⊢
  have hlp := partitionEqualLoop_spec less key hk a b d0.length d0 (a + 1) (b - 1)
    (le_refl _) (by omega) (by omega) (by omega) (by omega)
    (by intro k h1 h2; omega) (by intro k h1 h2; omega)
  have hfa : keyAt key (partitionEqualLoop less a d0.length d0 (a + 1) (b - 1)).1 a =
      keyAt key d0 a := hlp.1.keyAt_frame (by omega) key a (Or.inl (by omega))
  generalize partitionEqualLoop less a d0.length d0 (a + 1) (b - 1) = r at hlp hfa ⊢
  rw [hSa] at hlp hfa
  refine ⟨hr0.trans (hlp.1.mono (by omega) (le_refl _)), hlp.2.1, hlp.2.2.1, ?_, hlp.2.2.2.2⟩
  intro k hk1 hk2
  by_cases hka : k = a
  · rw [hka, hfa]
  · exact hlp.2.2.2.1 k (by omega) hk2

end Partition2

end Taskctl

namespace Taskctl

/-! ## `partialInsertionSort_func` -/

section PartialInsertion

set_option linter.unusedSectionVars false

variable {α : Type} [Inhabited α]
variable (less : List α → Nat → Nat → Bool) (key : α → Nat)

theorem sortedRun_spec (hk : KeyLess less key) (d : List α) (a b : Nat) :
    ∀ (fuel i : Nat), a + 1 ≤ i → i ≤ b → b ≤ i + fuel → SortedOn key d a i →
      i ≤ sortedRun less d b fuel i ∧ sortedRun less d b fuel i ≤ b ∧
      SortedOn key d a (sortedRun less d b fuel i) ∧
      (sortedRun less d b fuel i < b →
        keyAt key d (sortedRun less d b fuel i) <
          keyAt key d (sortedRun less d b fuel i - 1)) := by
  intro fuel
  induction fuel with
  | zero =>
    intro i h1 h2 h3 hs
    simp only [sortedRun]
    exact ⟨le_refl _, h2, hs, by intro h; omega⟩
  | succ fuel ih =>
    intro i h1 h2 h3 hs
    unfold sortedRun
    split
    · rename_i hc
      simp only [Bool.and_eq_true, decide_eq_true_eq] at hc
      have hle := (hk.not_lt_iff d _ _).1 hc.2
      have := ih (i + 1) (by omega) (by omega) (by omega)
        (by
          intro x y hx hxy hy
          by_cases hyi : y < i
          · exact hs x y hx hxy hyi
          · have e : y = i := by omega
            subst e
            by_cases hxi : x = y
            · rw [hxi]
            · have := hs x (y - 1) hx (by omega) (by omega)
              omega)
      exact ⟨by omega, this.2.1, this.2.2.1, this.2.2.2⟩
    · rename_i hc
      simp only [Bool.and_eq_true, decide_eq_true_eq, not_and] at hc
      refine ⟨le_refl _, h2, hs, ?_⟩
      intro hib
      have h4 := hc hib
      have : ¬ keyAt key d (i - 1) ≤ keyAt key d i :=
        fun h => h4 ((hk.not_lt_iff d _ _).2 h)
      omega

theorem shiftLeft_spec (hk : KeyLess less key) (a J : Nat) :
    ∀ (j : Nat) (d : List α), a ≤ j → j ≤ J → J < d.length →
      (0 < a → ∀ k, a ≤ k → k ≤ J → keyAt key d (a - 1) ≤ keyAt key d k) →
      SortedOn key d a j → SortedOn key d j (J + 1) →
      (∀ x y, a ≤ x → x < j → j < y → y ≤ J → keyAt key d x ≤ keyAt key d y) →
      Reach a (J + 1) d (shiftLeft less j d) ∧
        SortedOn key (shiftLeft less j d) a (J + 1) := by
  intro j
  induction j with
  | zero =>
    intro d ha _ _ _ _ h2 _
    have : a = 0 := by omega
    subst this
    exact ⟨Reach.refl _, h2⟩
  | succ j ih =>
    intro d ha hJ hl hlb h1 h2 h3
    unfold shiftLeft
    split
    · rename_i hc
      refine ⟨Reach.refl _, ?_⟩
      have hge := (hk.not_lt_iff d _ _).1 hc
      intro x y hx hxy hy
      by_cases hxj : x < j + 1
      · by_cases hyj : y < j + 1
        · exact h1 x y hx hxy hyj
        · have e1 := h1 x j hx (by omega) (by omega)
          have e2 := h2 (j + 1) y (by omega) (by omega) hy
          omega
      · exact h2 x y (by omega) hxy hy
    · rename_i hc
      have hlt : keyAt key d (j + 1) < keyAt key d j := by
        have : less d (j + 1) j = true := by
          cases h : less d (j + 1) j
          · simp [h] at hc
          · rfl
        exact (hk.lt_iff d _ _).1 this
      have haj : a ≤ j := by
        by_cases h : a ≤ j
        · exact h
        · have e : a = j + 1 := by omega
          have := hlb (by omega) (j + 1) (by omega) (by omega)
          rw [e] at this
          simp only [Nat.add_sub_cancel] at this
          omega
      have hS : ∀ k, keyAt key (Swap d (j + 1) j) k =
          if k = j then keyAt key d (j + 1) else if k = j + 1 then keyAt key d j
          else keyAt key d k := fun k => keyAt_Swap key d (j + 1) j k (by omega) (by omega)
      have := ih (Swap d (j + 1) j) haj (by omega) (by rw [Swap_length]; exact hl)
        (by
          intro ha0 k hk1 hk2
          have f1 := hlb ha0 k hk1 hk2
          have f2 := hlb ha0 j haj (by omega)
          have f3 := hlb ha0 (j + 1) (by omega) (by omega)
          rw [hS, hS]
          split_ifs <;> omega)
        (by
          intro x y hx hxy hy
          have f1 := h1 x y hx hxy (by omega)
          rw [hS, hS]
          split_ifs <;> omega)
        (by
          intro x y hx hxy hy
          have f1 : j + 1 ≤ y → keyAt key d (j + 1) ≤ keyAt key d y :=
            fun h => h2 (j + 1) y (by omega) h hy
          have f2 : j + 1 < y → keyAt key d j ≤ keyAt key d y :=
            fun h => h3 j y (by omega) (by omega) h (by omega)
          have f3 : j + 1 ≤ x → keyAt key d x ≤ keyAt key d y :=
            fun h => h2 x y h hxy hy
          rw [hS, hS]
          split_ifs <;> omega)
        (by
          intro x y hx hxj hjy hyJ
          have f1 : keyAt key d x ≤ keyAt key d j := h1 x j hx (by omega) (by omega)
          have f2 : j + 1 < y → keyAt key d x ≤ keyAt key d y :=
            fun h => h3 x y hx (by omega) h hyJ
          rw [hS, hS]
          split_ifs <;> omega)
      exact ⟨(Reach.swap d (j + 1) j (by omega) (by omega) (by omega) (by omega)).trans this.1,
        this.2⟩

theorem shiftRight_reach (i b : Nat) :
    ∀ (n j : Nat) (d : List α), i + 1 ≤ j → j + n ≤ b →
      Reach i b d (shiftRight less n j d) := by
  intro n
  induction n with
  | zero => intro j d _ _; exact Reach.refl _
  | succ n ih =>
    intro j d h1 h2
    unfold shiftRight
    split
    · exact Reach.refl _
    · exact (Reach.swap d j (j - 1) (by omega) (by omega) (by omega) (by omega)).trans
        (ih _ _ (by omega) (by omega))

theorem partialInsertionLoop_spec (hk : KeyLess less key) (a b : Nat) :
    ∀ (steps : Nat) (d : List α) (i : Nat), a + 1 ≤ i → i ≤ b → b ≤ d.length →
      LowerBound key d a b → SortedOn key d a i →
      Reach a b d (partialInsertionLoop less a b steps d i).1 ∧
      ((partialInsertionLoop less a b steps d i).2 = true →
        SortedOn key (partialInsertionLoop less a b steps d i).1 a b) := by
  intro steps
  induction steps with
  | zero =>
    intro d i _ _ _ _ _
    simp only [partialInsertionLoop]
    exact ⟨Reach.refl _, by intro h; exact absurd h (by simp)⟩
  | succ steps ih =>
    intro d i h1 h2 hb hlb hs
    unfold partialInsertionLoop
    simp only
    have hr := sortedRun_spec less key hk d a b d.length i h1 h2 (by omega) hs
    generalize sortedRun less d b d.length i = i1 at hr ⊢
    split
    · rename_i hib
      subst hib
      exact ⟨Reach.refl _, fun _ => hr.2.2.1⟩
    · rename_i hib
      split
      · exact ⟨Reach.refl _, by intro h; exact absurd h (by simp)⟩
      · have hlt := hr.2.2.2 (by omega)
        have hS : ∀ k, keyAt key (Swap d i1 (i1 - 1)) k =
            if k = i1 - 1 then keyAt key d i1 else if k = i1 then keyAt key d (i1 - 1)
            else keyAt key d k := fun k => keyAt_Swap key d i1 (i1 - 1) k (by omega) (by omega)
        have hr1 : Reach a b d (Swap d i1 (i1 - 1)) :=
          Reach.swap d i1 (i1 - 1) (by omega) (by omega) (by omega) (by omega)
        have hl1 : (Swap d i1 (i1 - 1)).length = d.length := Swap_length _ _ _
        have hlb1 := hr1.lowerBound hb key hlb
        have hs1 : SortedOn key (Swap d i1 (i1 - 1)) a (i1 - 1) := by
          intro x y hx hxy hy
          have f1 := hr.2.2.1 x y hx hxy (by omega)
          rw [hS, hS]
          split_ifs <;> omega
        generalize Swap d i1 (i1 - 1) = d1 at hr1 hl1 hlb1 hs1 ⊢
        have h2 : Reach a i1 d1 (if 2 ≤ i1 - a then shiftLeft less (i1 - 1) d1 else d1) ∧
            SortedOn key (if 2 ≤ i1 - a then shiftLeft less (i1 - 1) d1 else d1) a i1 := by
          split
          · have := shiftLeft_spec less key hk a (i1 - 1) (i1 - 1) d1 (by omega) (le_refl _)
              (by omega)
              (by intro ha0 k hk1 hk2; exact hlb1 ha0 k hk1 (by omega))
              hs1
              (by
                intro x y hx hxy hy
                have : x = y := by omega
                subst this; exact le_refl _)
              (by intro x y _ _ _ _; omega)
            have e : i1 - 1 + 1 = i1 := by omega
            rw [e] at this
            exact this
          · refine ⟨Reach.refl _, ?_⟩
            intro x y hx hxy hy
            have : x = y := by omega
            subst this; exact le_refl _
        have hl2 := h2.1.length_eq
        generalize (if 2 ≤ i1 - a then shiftLeft less (i1 - 1) d1 else d1) = d2 at h2 hl2 ⊢
        have h3 : Reach i1 b d2
            (if 2 ≤ b - i1 then shiftRight less (b - (i1 + 1)) (i1 + 1) d2 else d2) := by
          split
          · exact shiftRight_reach less i1 b _ _ d2 (le_refl _) (by omega)
          · exact Reach.refl _
        have hl3 := h3.length_eq
        have hs3 : SortedOn key
            (if 2 ≤ b - i1 then shiftRight less (b - (i1 + 1)) (i1 + 1) d2 else d2) a i1 := by
          intro x y hx hxy hy
          rw [h3.keyAt_frame (by omega) key x (Or.inl (by omega)),
            h3.keyAt_frame (by omega) key y (Or.inl (by omega))]
          exact h2.2 x y hx hxy hy
        generalize (if 2 ≤ b - i1 then shiftRight less (b - (i1 + 1)) (i1 + 1) d2 else d2) = d3
          at h3 hl3 hs3 ⊢
        have hr3 : Reach a b d d3 :=
          hr1.trans ((h2.1.mono (le_refl _) (by omega)).trans (h3.mono (by omega) (le_refl _)))
        have := ih d3 i1 (by omega) (by omega) (by omega) (hr3.lowerBound hb key hlb) hs3
        exact ⟨hr3.trans this.1, this.2⟩

/-- The function `partialInsertionSort_func` only exchanges elements of the
range, and when it answers `true` the range is sorted. -/
theorem partialInsertionSort_func_spec (hk : KeyLess less key) (d : List α) (a b : Nat)
    (hab : a < b) (hb : b ≤ d.length) (hlb : LowerBound key d a b) :
    Reach a b d (partialInsertionSort_func less d a b).1 ∧
    ((partialInsertionSort_func less d a b).2 = true →
      SortedOn key (partialInsertionSort_func less d a b).1 a b) := by
  unfold partialInsertionSort_func
  exact partialInsertionLoop_spec less key hk a b 5 d (a + 1) (le_refl _) (by omega) hb hlb
    (by
      intro x y hx hxy hy
      have : x = y := by omega
      subst this; exact le_refl _)

end PartialInsertion

end Taskctl

namespace Taskctl

/-! ## `pdqsort_func` and `sort.Slice` -/

section Pdqsort

set_option linter.unusedSectionVars false

variable {α : Type} [Inhabited α]
variable (less : List α → Nat → Nat → Bool) (key : α → Nat)

theorem sortedOn_of_parts (d : List α) (a mid b : Nat)
    (h1 : ∀ k, a ≤ k → k < mid → keyAt key d k ≤ keyAt key d mid)
    (h2 : ∀ k, mid < k → k < b → keyAt key d mid ≤ keyAt key d k)
    (h3 : SortedOn key d a mid) (h4 : SortedOn key d (mid + 1) b) : SortedOn key d a b := by
  intro x y hx hxy hy
  by_cases hym : y < mid
  · exact h3 x y hx hxy hym
  · by_cases hxm : mid < x
    · exact h4 x y (by omega) hxy hy
    · have f1 : x < mid → keyAt key d x ≤ keyAt key d mid := fun h => h1 x hx h
      have f2 : mid < y → keyAt key d mid ≤ keyAt key d y := fun h => h2 y h hy
      have f3 : x = mid → keyAt key d x = keyAt key d mid := fun h => by rw [h]
      have f4 : y = mid → keyAt key d y = keyAt key d mid := fun h => by rw [h]
      omega

theorem LowerBound.sub {d : List α} {a b : Nat} (h : LowerBound key d a b) (b1 : Nat)
    (hb : b1 ≤ b) : LowerBound key d a b1 :=
  fun ha k hk1 hk2 => h ha k hk1 (by omega)

/-- The two recursive calls after `partition_func`, left range first. -/
theorem sorted_left_right (d dL dR : List α) (a mid b : Nat) (hb : b ≤ d.length)
    (ham : a ≤ mid) (hmb : mid < b)
    (h1 : ∀ k, a ≤ k → k < mid → keyAt key d k < keyAt key d mid)
    (h2 : ∀ k, mid < k → k < b → keyAt key d mid ≤ keyAt key d k)
    (hL : Reach a mid d dL) (hsL : SortedOn key dL a mid)
    (hR : Reach (mid + 1) b dL dR) (hsR : SortedOn key dR (mid + 1) b) :
    Reach a b d dR ∧ SortedOn key dR a b := by
  have hlL := hL.length_eq
  have fL : ∀ k, mid ≤ k → keyAt key dL k = keyAt key d k :=
    fun k hk' => hL.keyAt_frame (by omega) key k (Or.inr hk')
  have fR : ∀ k, k ≤ mid → keyAt key dR k = keyAt key dL k :=
    fun k hk' => hR.keyAt_frame (by omega) key k (Or.inl (by omega))
  refine ⟨(hL.mono (le_refl _) (by omega)).trans (hR.mono (by omega) (le_refl _)), ?_⟩
  apply sortedOn_of_parts key dR a mid b
  · intro k hk1 hk2
    rw [fR k (by omega), fR mid (le_refl _), fL mid (le_refl _)]
    exact Nat.le_of_lt (hL.forall_range (by omega) (fun t => key t < keyAt key d mid) h1 k hk1 hk2)
  · intro k hk1 hk2
    rw [fR mid (le_refl _), fL mid (le_refl _)]
    exact hR.forall_range (by omega) (fun t => keyAt key d mid ≤ key t)
      (by
        intro k hk1 hk2
        show keyAt key d mid ≤ keyAt key dL k
        rw [fL k (by omega)]
        exact h2 k (by omega) hk2) k (by omega) hk2
  · intro x y hx hxy hy
    rw [fR x (by omega), fR y (by omega)]
    exact hsL x y hx hxy hy
  · exact hsR

/-- The two recursive calls after `partition_func`, right range first. -/
theorem sorted_right_left (d dR dL : List α) (a mid b : Nat) (hb : b ≤ d.length)
    (ham : a ≤ mid) (hmb : mid < b)
    (h1 : ∀ k, a ≤ k → k < mid → keyAt key d k < keyAt key d mid)
    (h2 : ∀ k, mid < k → k < b → keyAt key d mid ≤ keyAt key d k)
    (hR : Reach (mid + 1) b d dR) (hsR : SortedOn key dR (mid + 1) b)
    (hL : Reach a mid dR dL) (hsL : SortedOn key dL a mid) :
    Reach a b d dL ∧ SortedOn key dL a b := by
  have hlR := hR.length_eq
  have fR : ∀ k, k ≤ mid → keyAt key dR k = keyAt key d k :=
    fun k hk' => hR.keyAt_frame (by omega) key k (Or.inl (by omega))
  have fL : ∀ k, mid ≤ k → keyAt key dL k = keyAt key dR k :=
    fun k hk' => hL.keyAt_frame (by omega) key k (Or.inr hk')
  refine ⟨(hR.mono (by omega) (le_refl _)).trans (hL.mono (le_refl _) (by omega)), ?_⟩
  apply sortedOn_of_parts key dL a mid b
  · intro k hk1 hk2
    rw [fL mid (le_refl _), fR mid (le_refl _)]
    exact Nat.le_of_lt (hL.forall_range (by omega) (fun t => key t < keyAt key d mid)
      (by
        intro k hk1 hk2
        show keyAt key dR k < keyAt key d mid
        rw [fR k (by omega)]
        exact h1 k hk1 hk2) k hk1 hk2)
  · intro k hk1 hk2
    rw [fL mid (le_refl _), fR mid (le_refl _), fL k (by omega)]
    exact hR.forall_range (by omega) (fun t => keyAt key d mid ≤ key t)
      (by intro k hk1 hk2; exact h2 k (by omega) hk2) k (by omega) hk2
  · exact hsL
  · intro x y hx hxy hy
    rw [fL x (by omega), fL y (by omega)]
    exact hsR x y hx hxy hy

theorem pdqsort_func_spec (hk : KeyLess less key) :
    ∀ (fuel : Nat) (d : List α) (a b limit : Nat) (wb wp : Bool), a ≤ b → b ≤ d.length →
      b - a ≤ fuel → LowerBound key d a b →
      Reach a b d (pdqsort_func less fuel d a b limit wb wp) ∧
        SortedOn key (pdqsort_func less fuel d a b limit wb wp) a b := by
  intro fuel
  induction fuel with
  | zero =>
    intro d a b limit wb wp hab hb hf hlb
    simp only [pdqsort_func]
    refine ⟨Reach.refl _, ?_⟩
    intro x y hx hxy hy
    omega
  | succ fuel ih =>
    intro d a b limit wb wp hab hb hf hlb
    generalize hres : pdqsort_func less (fuel + 1) d a b limit wb wp = res
    unfold pdqsort_func at hres
    lift_lets at hres
    extract_lets length d1 limit1 ph d2 pivot hint ps d3 re rp mid leftLen rightLen bt at hres
    split at hres
    · rw [← hres]; exact insertionSort_func_spec less key hk d a b hb
    rename_i h12
    split at hres
    · rw [← hres]; exact heapSort_func_spec less key hk d a b hab hb
    have hab' : a < b := by omega
    have hr1 : Reach a b d d1 := by
      show Reach a b d (if (!wb) = true then breakPatterns_func d a b else d)
      split
      · exact breakPatterns_func_reach d a b hab
      · exact Reach.refl _
    clear_value d1 limit1
    have hl1 := hr1.length_eq
    have hph : a ≤ ph.1 ∧ ph.1 < b := choosePivot_func_bounds less d1 a b hab'
    clear_value ph
    have hr2 : Reach a b d1 d2 := by
      show Reach a b d1
        (if ph.2 = sortedHint.decreasingHint then reverseRange_func d1 a b else d1)
      split
      · exact reverseRange_func_reach d1 a b hab'
      · exact Reach.refl _
    have hpiv : a ≤ pivot ∧ pivot < b := by
      show a ≤ (if ph.2 = sortedHint.decreasingHint then b - 1 - (ph.1 - a) else ph.1) ∧
        (if ph.2 = sortedHint.decreasingHint then b - 1 - (ph.1 - a) else ph.1) < b
      split <;> omega
    clear_value d2 pivot hint
    have hl2 := hr2.length_eq
    have hlb2 : LowerBound key d2 a b := (hr1.trans hr2).lowerBound hb key hlb
    have hps : Reach a b d2 ps.1 ∧ (ps.2 = true → SortedOn key ps.1 a b) := by
      show Reach a b d2
          (if (wb && wp && decide (hint = sortedHint.increasingHint)) = true then
            partialInsertionSort_func less d2 a b else (d2, false)).1 ∧
        ((if (wb && wp && decide (hint = sortedHint.increasingHint)) = true then
            partialInsertionSort_func less d2 a b else (d2, false)).2 = true →
          SortedOn key (if (wb && wp && decide (hint = sortedHint.increasingHint)) = true then
            partialInsertionSort_func less d2 a b else (d2, false)).1 a b)
      split
      · exact partialInsertionSort_func_spec less key hk d2 a b hab' (by omega) hlb2
      · exact ⟨Reach.refl _, by intro h; exact absurd h (by simp)⟩
    clear_value ps
    have hr3 : Reach a b d d3 := (hr1.trans hr2).trans hps.1
    have hl3 : d3.length = d.length := hr3.length_eq
    have hlb3 : LowerBound key d3 a b := hr3.lowerBound hb key hlb
    split at hres
    · rename_i hps2
      rw [← hres]
      exact ⟨hr3, hps.2 hps2⟩
    have hd3 : d3 = ps.1 := rfl
    clear_value d3
    split at hres
    · rename_i hc
      simp only [Bool.and_eq_true, decide_eq_true_eq] at hc
      have ha0 := hc.1
      have hle := (hk.not_lt_iff d3 _ _).1 hc.2
      have hpe := partitionEqual_func_spec less key hk d3 a b pivot hab' (by omega) hpiv.1 hpiv.2
      have hre : re = partitionEqual_func less d3 a b pivot := rfl
      rw [← hre] at hpe
      clear_value re
      have hle1 := hpe.1.length_eq
      have hlbe : LowerBound key re.1 a b := hpe.1.lowerBound (by omega) key hlb3
      have hfa : keyAt key re.1 (a - 1) = keyAt key d3 (a - 1) :=
        hpe.1.keyAt_frame (by omega) key (a - 1) (Or.inl (by omega))
      have hpl := hlb3 ha0 pivot hpiv.1 hpiv.2
      have hrec := ih re.1 re.2 b limit1 wb wp hpe.2.2.1 (by omega) (by omega)
        (by
          intro _ k hk1 hk2
          have f1 := hpe.2.2.2.1 (re.2 - 1) (by omega) (by omega)
          have f2 := hpe.2.2.2.2 k hk1 hk2
          omega)
      rw [hres] at hrec
      have hfr : ∀ k, k < re.2 → keyAt key res k = keyAt key re.1 k :=
        fun k hk' => hrec.1.keyAt_frame (by omega) key k (Or.inl hk')
      refine ⟨hr3.trans (hpe.1.trans (hrec.1.mono (by omega) (le_refl _))), ?_⟩
      intro x y hx hxy hy
      by_cases hxm : re.2 ≤ x
      · exact hrec.2 x y hxm hxy hy
      · have f1 := hpe.2.2.2.1 x hx (by omega)
        have f2 := hlbe ha0 x hx (by omega)
        rw [hfr x (by omega)]
        by_cases hym : re.2 ≤ y
        · have f3 := hrec.1.forall_range (by omega) (fun t => keyAt key d3 pivot < key t)
            hpe.2.2.2.2 y hym hy
          have f3' : keyAt key d3 pivot < keyAt key res y := f3
          omega
        · have f3 := hpe.2.2.2.1 y (by omega) (by omega)
          have f4 := hlbe ha0 y (by omega) (by omega)
          rw [hfr y (by omega)]
          omega
    · have hpp := partition_func_spec less key hk d3 a b pivot hab' (by omega) hpiv.1 hpiv.2
      have hrp : rp = partition_func less d3 a b pivot := rfl
      rw [← hrp] at hpp
      clear_value rp
      have hmid : mid = rp.2.1 := rfl
      rw [← hmid] at hpp
      clear_value mid
      have hlp := hpp.1.length_eq
      have hlbp : LowerBound key rp.1 a b := hpp.1.lowerBound (by omega) key hlb3
      clear_value leftLen rightLen bt
      split at hres
      · have hL := ih rp.1 a mid limit1 true true hpp.2.1 (by omega) (by omega)
          (hlbp.sub key mid (by omega))
        have hR := ih (pdqsort_func less fuel rp.1 a mid limit1 true true) (mid + 1) b limit1
          (decide (bt ≤ leftLen)) rp.2.2 (by omega) (by rw [hL.1.length_eq]; omega) (by omega)
          (by
            intro _ k hk1 hk2
            rw [hL.1.keyAt_frame (by omega) key k (Or.inr (by omega)),
              hL.1.keyAt_frame (by omega) key (mid + 1 - 1) (Or.inr (by omega))]
            simp only [Nat.add_sub_cancel]
            exact hpp.2.2.2.2 k (by omega) hk2)
        rw [hres] at hR
        have := sorted_left_right key rp.1 _ res a mid b (by omega) hpp.2.1 hpp.2.2.1
          hpp.2.2.2.1 hpp.2.2.2.2 hL.1 hL.2 hR.1 hR.2
        exact ⟨hr3.trans (hpp.1.trans this.1), this.2⟩
      · have hR := ih rp.1 (mid + 1) b limit1 true true (by omega) (by omega) (by omega)
          (by
            intro _ k hk1 hk2
            simp only [Nat.add_sub_cancel]
            exact hpp.2.2.2.2 k (by omega) hk2)
        have hL := ih (pdqsort_func less fuel rp.1 (mid + 1) b limit1 true true) a mid limit1
          (decide (bt ≤ rightLen)) rp.2.2 hpp.2.1 (by rw [hR.1.length_eq]; omega) (by omega)
          (by
            intro ha0 k hk1 hk2
            rw [hR.1.keyAt_frame (by omega) key k (Or.inl (by omega)),
              hR.1.keyAt_frame (by omega) key (a - 1) (Or.inl (by omega))]
            exact hlbp ha0 k hk1 (by omega))
        rw [hres] at hL
        have := sorted_right_left key rp.1 _ res a mid b (by omega) hpp.2.1 hpp.2.2.1
          hpp.2.2.2.1 hpp.2.2.2.2 hR.1 hR.2 hL.1 hL.2
        exact ⟨hr3.trans (hpp.1.trans this.1), this.2⟩

end Pdqsort

end Taskctl

namespace Taskctl

/-! ## `sort.Slice` and the sorted views -/

section SliceSpec

set_option linter.unusedSectionVars false

variable {α : Type} [Inhabited α]
variable (less : List α → Nat → Nat → Bool) (key : α → Nat)

/-- `sort.Slice` returns a permutation of the slice in which the keys do not
decrease, whenever the closure compares keys. -/
theorem Slice_spec (hk : KeyLess less key) (x : List α) :
    (Slice less x).Perm x ∧ (Slice less x).Pairwise (fun s t => key s ≤ key t) := by
  unfold Slice
  simp only
  have h := pdqsort_func_spec less key hk x.length x 0 x.length (bitsLen x.length) true true
    (Nat.zero_le _) (le_refl _) (by omega) (by intro h; omega)
  generalize pdqsort_func less x.length x 0 x.length (bitsLen x.length) true true = out at h
  have hl := h.1.length_eq
  refine ⟨h.1.perm (le_refl _), ?_⟩
  rw [List.pairwise_iff_getElem]
  intro i j hi hj hij
  have := h.2 i j (Nat.zero_le _) (by omega) (by omega)
  unfold keyAt at this
  rw [List.getD_eq_getElem _ _ hi, List.getD_eq_getElem _ _ hj] at this
  exact this

/-- For at most twelve elements `sort.Slice` keeps, for every class of
elements the closure does not tell apart, the order of the class. -/
theorem Slice_stable (p : α → Bool)
    (hp : ∀ d i j, less d i j = true →
      ¬ (p (d.getD i default) = true ∧ p (d.getD j default) = true))
    (x : List α) (h : x.length ≤ 12) :
    (Slice less x).filter p = x.filter p := by
  rw [Slice_eq_insertion less x h]
  exact insertionSort_func_filter less p hp x 0 x.length (le_refl _)

end SliceSpec

theorem keyLess_priority : KeyLess lessPriority priorityKey := by
  intro d i j
  rfl

theorem keyLess_status : KeyLess lessStatus statusKey := by
  intro d i j
  rfl

theorem timeParse_bounds (s : GoString) (t : Time) (h : timeParse s = some t) :
    t.year ≤ 9999 ∧ t.month ≤ 12 ∧ t.day ≤ 31 := by
  unfold timeParse at h
  split at h
  · rename_i y1 y2 y3 y4 d1 m1 m2 d2 a1 a2
    split at h
    · rename_i hd
      simp only [isDigit, Bool.and_eq_true, decide_eq_true_eq] at hd
      simp only at h
      split at h
      · exact absurd h (by simp)
      · rename_i hm
        split at h
        · exact absurd h (by simp)
        · rename_i hday
          simp only [Option.some.injEq] at h
          subst h
          simp only [Bool.or_eq_true, decide_eq_true_eq, not_or, not_lt] at hm hday
          have hdi : daysIn ((m1 - 48) * 10 + (m2 - 48))
              ((y1 - 48) * 1000 + (y2 - 48) * 100 + (y3 - 48) * 10 + (y4 - 48)) ≤ 31 := by
            unfold daysIn
            split
            · split <;> omega
            · split <;> omega
          simp only
          omega
    · exact absurd h (by simp)
  · exact absurd h (by simp)

theorem Time.before_iff (t u : Time) (ht : t.month ≤ 12 ∧ t.day ≤ 31)
    (hu : u.month ≤ 12 ∧ u.day ≤ 31) :
    t.Before u = true ↔
      t.year * 10000 + t.month * 100 + t.day < u.year * 10000 + u.month * 100 + u.day := by
  unfold Time.Before
  simp only [Bool.or_eq_true, Bool.and_eq_true, decide_eq_true_eq]
  omega

theorem keyLess_dueDate : KeyLess lessDueDate dueKey := by
  intro d i j
  unfold lessDueDate keyAt dueKey
  cases hi : timeParse (d.getD i default).DueDate with
  | none =>
    cases hj : timeParse (d.getD j default).DueDate with
    | none => simp
    | some u =>
      have := timeParse_bounds _ u hj
      simp only
      symm
      rw [decide_eq_false_iff_not]
      omega
  | some t =>
    have ht := timeParse_bounds _ t hi
    cases hj : timeParse (d.getD j default).DueDate with
    | none =>
      simp only
      symm
      rw [decide_eq_true_iff]
      omega
    | some u =>
      have hu := timeParse_bounds _ u hj
      simp only
      rw [Bool.eq_iff_iff, Time.before_iff t u ⟨ht.2.1, ht.2.2⟩ ⟨hu.2.1, hu.2.2⟩]
      simp

theorem view_perm (less : List Task → Nat → Nat → Bool) (key : Task → Nat)
    (hk : KeyLess less key) (tm : taskCtlr) :
    (if tm.elems.length = 0 then ([] : List Task) else Slice less tm.elems).Perm tm.elems ∧
    (if tm.elems.length = 0 then ([] : List Task) else Slice less tm.elems).Pairwise
      (fun s t => key s ≤ key t) := by
  split
  · rename_i h
    rw [List.length_eq_zero.1 h]
    exact ⟨List.Perm.refl _, List.Pairwise.nil⟩
  · exact Slice_spec less key hk tm.elems

theorem viewByPriority_rows (tm : taskCtlr) (w : World) :
    (viewByPriority tm w).2.2 =
      if tm.elems.length = 0 then ([] : List Task) else Slice lessPriority tm.elems := by
  unfold viewByPriority
  split <;> rfl

theorem viewByStatus_rows (tm : taskCtlr) (w : World) :
    (viewByStatus tm w).2.2 =
      if tm.elems.length = 0 then ([] : List Task) else Slice lessStatus tm.elems := by
  unfold viewByStatus
  split <;> rfl

theorem viewByDueDate_rows (tm : taskCtlr) (w : World) :
    (viewByDueDate tm w).2.2 =
      if tm.elems.length = 0 then ([] : List Task) else Slice lessDueDate tm.elems := by
  unfold viewByDueDate
  split <;> rfl

theorem view_stable (less : List Task → Nat → Nat → Bool) (p : Task → Bool)
    (hp : ∀ d i j, less d i j = true →
      ¬ (p (d.getD i default) = true ∧ p (d.getD j default) = true))
    (tm : taskCtlr) (h : tm.elems.length ≤ 12) :
    (if tm.elems.length = 0 then ([] : List Task) else Slice less tm.elems).filter p =
      tm.elems.filter p := by
  split
  · rename_i h0
    rw [List.length_eq_zero.1 h0]
  · exact Slice_stable less p hp tm.elems h

/-- C5 (amended): on a store of at most twelve records each sorted view keeps
the records of one sort key (one priority weight, one status, one parsed due
date) in their insertion order. -/
theorem views_stable_upto_twelve (tm : taskCtlr) (w : World) (h : tm.elems.length ≤ 12) :
    (∀ k : Nat, (viewByPriority tm w).2.2.filter (fun t => priorityWeight t.Priority = k) =
      tm.elems.filter (fun t => priorityWeight t.Priority = k)) ∧
    (∀ k : Bool, (viewByStatus tm w).2.2.filter (fun t => t.Done = k) =
      tm.elems.filter (fun t => t.Done = k)) ∧
    (∀ k : Option Time, (viewByDueDate tm w).2.2.filter (fun t => timeParse t.DueDate = k) =
      tm.elems.filter (fun t => timeParse t.DueDate = k)) := by
  refine ⟨?_, ?_, ?_⟩
  · intro k
    rw [viewByPriority_rows]
    apply view_stable _ _ _ tm h
    intro d i j hl hp
    simp only [decide_eq_true_eq] at hp
    unfold lessPriority at hl
    rw [hp.1, hp.2] at hl
    simp at hl
  · intro k
    rw [viewByStatus_rows]
    apply view_stable _ _ _ tm h
    intro d i j hl hp
    simp only [decide_eq_true_eq] at hp
    unfold lessStatus at hl
    rw [hp.1, hp.2] at hl
    simp at hl
  · intro k
    rw [viewByDueDate_rows]
    apply view_stable _ _ _ tm h
    intro d i j hl hp
    simp only [decide_eq_true_eq] at hp
    unfold lessDueDate at hl
    rw [hp.1, hp.2] at hl
    cases k with
    | none => simp at hl
    | some t =>
      simp only [Time.Before, Bool.or_eq_true, Bool.and_eq_true, decide_eq_true_eq] at hl
      omega

theorem views_stable_upto_twelve_witness :
    (viewByPriority ⟨some threeTasks, lit "tasks.json"⟩ emptyWorld).2.2 =
      [sampleTask 99 (lit "high"), sampleTask 97 (lit "medium"), sampleTask 98 (lit "medium")] ∧
    (viewByPriority ⟨some threeTasks, lit "tasks.json"⟩ emptyWorld).2.2.filter
        (fun t => priorityWeight t.Priority = 2) =
      threeTasks.filter (fun t => priorityWeight t.Priority = 2) :=
  ⟨by decide,
   (views_stable_upto_twelve ⟨some threeTasks, lit "tasks.json"⟩ emptyWorld (by decide)).1 2⟩

/-- C6: the rows of `viewByDueDate` are a permutation of the store's records;
no record whose due date does not parse comes before one whose due date
parses; and among the records with a date no later date comes before an
earlier one.  The records x (2025-01-10), y (none), z (2024-12-01) are
printed in the order z, x, y. -/
theorem viewByDueDate_order (tm : taskCtlr) (w : World) :
    (viewByDueDate tm w).2.2.Perm tm.elems ∧
    (viewByDueDate tm w).2.2.Pairwise
      (fun s t => timeParse s.DueDate = none → timeParse t.DueDate = none) ∧
    (viewByDueDate tm w).2.2.Pairwise
      (fun s t => ∀ ds dt, timeParse s.DueDate = some ds → timeParse t.DueDate = some dt →
        dt.Before ds = false) ∧
    (viewByDueDate ⟨some datedTasks, lit "tasks.json"⟩ emptyWorld).2.2.map Task.Name =
      [[122], [120], [121]] := by
  have h := view_perm lessDueDate dueKey keyLess_dueDate tm
  rw [← viewByDueDate_rows tm w] at h
  refine ⟨h.1, ?_, ?_, by decide⟩
  · apply h.2.imp
    intro s t hst hs
    unfold dueKey at hst
    rw [hs] at hst
    cases ht : timeParse t.DueDate with
    | none => rfl
    | some u =>
      rw [ht] at hst
      have := timeParse_bounds _ u ht
      simp only at hst
      omega
  · apply h.2.imp
    intro s t hst ds dt hs ht
    unfold dueKey at hst
    rw [hs, ht] at hst
    simp only at hst
    have b1 := timeParse_bounds _ ds hs
    have b2 := timeParse_bounds _ dt ht
    cases hb : dt.Before ds with
    | false => rfl
    | true =>
      rw [Time.before_iff dt ds ⟨b2.2.1, b2.2.2⟩ ⟨b1.2.1, b1.2.2⟩] at hb
      omega

/-- C7: the rows of `viewByPriority` are a permutation of the store's
records in which the weights (high 1, medium 2, low 3) do not decrease, so
that no medium or low record comes before a high one and no low record before
a medium one; and the rows of `viewByStatus` are a permutation in which no
done record comes before a record that is not done. -/
theorem weighted_views_order (tm : taskCtlr) (w : World) :
    (priorityWeight (lit "high") = 1 ∧ priorityWeight (lit "medium") = 2 ∧
      priorityWeight (lit "low") = 3) ∧
    (viewByPriority tm w).2.2.Perm tm.elems ∧
    (viewByPriority tm w).2.2.Pairwise
      (fun s t => priorityWeight s.Priority ≤ priorityWeight t.Priority) ∧
    (viewByPriority tm w).2.2.Pairwise
      (fun s t => (t.Priority = lit "high" →
          s.Priority ≠ lit "medium" ∧ s.Priority ≠ lit "low") ∧
        (t.Priority = lit "medium" → s.Priority ≠ lit "low")) ∧
    (viewByStatus tm w).2.2.Perm tm.elems ∧
    (viewByStatus tm w).2.2.Pairwise (fun s t => s.Done = true → t.Done = true) := by
  have h1 := view_perm lessPriority priorityKey keyLess_priority tm
  rw [← viewByPriority_rows tm w] at h1
  have h2 := view_perm lessStatus statusKey keyLess_status tm
  rw [← viewByStatus_rows tm w] at h2
  refine ⟨by decide, h1.1, h1.2, ?_, h2.1, ?_⟩
  · apply h1.2.imp
    intro s t hst
    unfold priorityKey at hst
    refine ⟨?_, ?_⟩
    · intro ht
      rw [ht] at hst
      refine ⟨?_, ?_⟩
      · intro hs; rw [hs] at hst; revert hst; decide
      · intro hs; rw [hs] at hst; revert hst; decide
    · intro ht hs
      rw [ht, hs] at hst
      revert hst; decide
  · apply h2.2.imp
    intro s t hst hs
    unfold statusKey statusWeight at hst
    rw [hs] at hst
    cases ht : t.Done with
    | true => rfl
    | false => rw [ht] at hst; simp at hst

end Taskctl

namespace Taskctl

/-! ## UTF-8: encoding what was decoded -/

/-- A valid encoding at the head of `s` is given back by `EncodeRune`, and
decoding depends only on its bytes. -/
theorem decode_encode (s : GoString) (hs : s ≠ [])
    (hv : ¬ ((DecodeRuneInString s).1 = RuneError ∧ (DecodeRuneInString s).2 = 1)) :
    1 ≤ (DecodeRuneInString s).2 ∧ (DecodeRuneInString s).2 ≤ s.length ∧
    EncodeRune (DecodeRuneInString s).1 = s.take (DecodeRuneInString s).2 ∧
    ∀ t, DecodeRuneInString (s.take (DecodeRuneInString s).2 ++ t) = DecodeRuneInString s := by
  cases s with
  | nil => exact absurd rfl hs
  | cons s0 t =>
    unfold DecodeRuneInString at hv ⊢
    simp only at hv ⊢
    split at hv
    · rename_i h0
      rw [if_pos h0]
      refine ⟨le_refl _, by simp, ?_, ?_⟩
      · simp [EncodeRune, h0]
      · intro u; simp [DecodeRuneInString, h0]
    rename_i h0
    rw [if_neg h0]
    split at hv
    · exact absurd ⟨rfl, rfl⟩ hv
    rename_i h1
    rw [if_neg h1]
    split at hv
    · rename_i h2
      rw [if_pos h2]
      cases t with
      | nil => exact absurd ⟨rfl, rfl⟩ hv
      | cons s1 t1 =>
        simp only at hv ⊢
        split at hv
        · rename_i hc
          rw [if_pos hc]
          simp only [isCont, Bool.and_eq_true, decide_eq_true_eq] at hc
          refine ⟨by simp, by simp, ?_, ?_⟩
          · simp only [EncodeRune, List.take_succ_cons, List.take_zero]
            rw [if_neg (by omega), if_pos (by omega)]
            congr 1
            · omega
            · congr 1; omega
          · intro u
            simp only [List.take_succ_cons, List.take_zero, List.cons_append, List.nil_append,
              DecodeRuneInString]
            rw [if_neg h0, if_neg h1, if_pos h2]
            simp only [isCont, Bool.and_eq_true, decide_eq_true_eq]
            rw [if_pos hc]
        · exact absurd ⟨rfl, rfl⟩ hv
    rename_i h2
    rw [if_neg h2]
    split at hv
    · rename_i h3
      rw [if_pos h3]
      match t, hv with
      | [], hv => exact absurd ⟨rfl, rfl⟩ hv
      | [_], hv => exact absurd ⟨rfl, rfl⟩ hv
      | s1 :: s2 :: t2, hv =>
        simp only at hv ⊢
        by_cases hc : (decide ((if s0 = 0xE0 then 0xA0 else 0x80) ≤ s1) &&
            decide (s1 ≤ if s0 = 0xED then 0x9F else 0xBF) && isCont s2) = true
        · rw [if_pos hc]
          simp only [isCont, Bool.and_eq_true, decide_eq_true_eq] at hc
          refine ⟨by simp, by simp, ?_, ?_⟩
          · simp only [EncodeRune, List.take_succ_cons, List.take_zero]
            have hlo : (if s0 = 0xE0 then 0xA0 else 0x80) ≤ s1 := hc.1.1
            have hhi : s1 ≤ (if s0 = 0xED then 0x9F else 0xBF) := hc.1.2
            have e1 : 0x80 ≤ s1 := by split at hlo <;> omega
            have e2 : s1 ≤ 0xBF := by split at hhi <;> omega
            have e3 : s0 = 0xE0 → 0xA0 ≤ s1 := by intro h; rw [if_pos h] at hlo; exact hlo
            have e4 : s0 = 0xED → s1 ≤ 0x9F := by intro h; rw [if_pos h] at hhi; exact hhi
            rw [if_neg (by omega), if_neg (by omega), if_neg, if_pos (by omega)]
            · congr 1
              · omega
              · congr 1
                · omega
                · congr 1; omega
            · simp only [Bool.or_eq_true, Bool.and_eq_true, decide_eq_true_eq]
              omega
          · intro u
            simp only [List.take_succ_cons, List.take_zero, List.cons_append, List.nil_append,
              DecodeRuneInString]
            rw [if_neg h0, if_neg h1, if_neg h2, if_pos h3]
            simp only [isCont, Bool.and_eq_true, decide_eq_true_eq]
            rw [if_pos hc]
        · rw [if_neg hc] at hv
          exact absurd ⟨rfl, rfl⟩ hv
    rename_i h3
    rw [if_neg h3]
    split at hv
    · rename_i h4
      rw [if_pos h4]
      match t, hv with
      | [], hv => exact absurd ⟨rfl, rfl⟩ hv
      | [_], hv => exact absurd ⟨rfl, rfl⟩ hv
      | [_, _], hv => exact absurd ⟨rfl, rfl⟩ hv
      | s1 :: s2 :: s3 :: t3, hv =>
        simp only at hv ⊢
        by_cases hc : (decide ((if s0 = 0xF0 then 0x90 else 0x80) ≤ s1) &&
            decide (s1 ≤ if s0 = 0xF4 then 0x8F else 0xBF) && isCont s2 && isCont s3) = true
        · rw [if_pos hc]
          simp only [isCont, Bool.and_eq_true, decide_eq_true_eq] at hc
          refine ⟨by simp, by simp, ?_, ?_⟩
          · simp only [EncodeRune, List.take_succ_cons, List.take_zero]
            have hlo : (if s0 = 0xF0 then 0x90 else 0x80) ≤ s1 := hc.1.1.1
            have hhi : s1 ≤ (if s0 = 0xF4 then 0x8F else 0xBF) := hc.1.1.2
            have e1 : 0x80 ≤ s1 := by split at hlo <;> omega
            have e2 : s1 ≤ 0xBF := by split at hhi <;> omega
            have e3 : s0 = 0xF0 → 0x90 ≤ s1 := by intro h; rw [if_pos h] at hlo; exact hlo
            have e4 : s0 = 0xF4 → s1 ≤ 0x8F := by intro h; rw [if_pos h] at hhi; exact hhi
            rw [if_neg (by omega), if_neg (by omega), if_neg, if_neg (by omega)]
            · congr 1
              · omega
              · congr 1
                · omega
                · congr 1
                  · omega
                  · congr 1; omega
            · simp only [Bool.or_eq_true, Bool.and_eq_true, decide_eq_true_eq]
              omega
          · intro u
            simp only [List.take_succ_cons, List.take_zero, List.cons_append, List.nil_append,
              DecodeRuneInString]
            rw [if_neg h0, if_neg h1, if_neg h2, if_neg h3, if_pos h4]
            simp only [isCont, Bool.and_eq_true, decide_eq_true_eq]
            rw [if_pos hc]
        · rw [if_neg hc] at hv
          exact absurd ⟨rfl, rfl⟩ hv
    · exact absurd ⟨rfl, rfl⟩ hv

end Taskctl

namespace Taskctl

/-! ## A string literal written by `appendString` is read back -/

theorem psb_quote (f : Nat) (X : GoString) :
    parseStringBody (f + 1) (0x22 :: X) = some ([], X) := by
  simp [parseStringBody]

theorem psb_plain (f c : Nat) (X : GoString) (h1 : c ≠ 0x22) (h2 : c ≠ 0x5C) (h3 : 0x20 ≤ c)
    (h4 : c < 0x80) :
    parseStringBody (f + 1) (c :: X) = consText [c] (parseStringBody f X) := by
  simp only [parseStringBody]
  rw [if_neg h1, if_neg h2, if_neg (by omega), if_pos h4]

theorem psb_esc (f e b : Nat) (X : GoString) (h : e ≠ 0x75) (hu : unescape e = some b) :
    parseStringBody (f + 1) (0x5C :: e :: X) = consText [b] (parseStringBody f X) := by
  simp only [parseStringBody, if_true, if_neg h, hu, reduceCtorEq, Nat.reduceEqDiff, if_false]

theorem psb_u (f rr : Nat) (X Y : GoString) (hg : getu4 X = some (rr, Y))
    (hns : ¬ (0xD800 ≤ rr ∧ rr < 0xE000)) :
    parseStringBody (f + 1) (0x5C :: 0x75 :: X) =
      consText (EncodeRune rr) (parseStringBody f Y) := by
  simp only [parseStringBody, if_true, hg, Nat.reduceEqDiff, if_false]
  rw [if_neg]
  simpa using hns

theorem psb_raw (f c : Nat) (X : GoString) (h : 0x80 ≤ c) :
    parseStringBody (f + 1) (c :: X) =
      consText (EncodeRune (DecodeRuneInString (c :: X)).1)
        (parseStringBody f ((c :: X).drop (DecodeRuneInString (c :: X)).2)) := by
  simp only [parseStringBody]
  rw [if_neg (by omega), if_neg (by omega), if_neg (by omega),
    if_neg (by omega)]

theorem unhex_hex : ∀ k, k < 16 → unhex (hex k) = some k := by decide

theorem getu4_ascii (b : Nat) (hb : b < 0x80) (X : GoString) :
    getu4 (0x30 :: 0x30 :: hex (b / 16) :: hex (b % 16) :: X) = some (b, X) := by
  unfold getu4
  have h0 : unhex 0x30 = some 0 := by decide
  simp only
  rw [h0, unhex_hex _ (by omega), unhex_hex _ (by omega)]
  simp only [Option.some.injEq, Prod.mk.injEq, and_true]
  omega

theorem runesAux_cons (n : Nat) (b : Nat) (t : GoString) :
    runesAux (n + 1) (b :: t) =
      DecodeRuneInString (b :: t) :: runesAux n ((b :: t).drop (DecodeRuneInString (b :: t)).2) := by
  simp only [runesAux]

theorem decode_ascii (b : Nat) (t : GoString) (h : b < 0x80) :
    DecodeRuneInString (b :: t) = (b, 1) := by
  simp [DecodeRuneInString, h]

/-- The loop of `appendString` followed by a quote is read back by the
string parser as the original bytes, when these are valid UTF-8. -/
theorem parse_appendStringAux :
    ∀ (n : Nat) (s : GoString), s.length ≤ n →
      (runesAux n s).all (fun rs => !(rs.1 = RuneError && rs.2 = 1)) = true →
      ∀ (f : Nat) (rest : GoString), (appendStringAux n s).length < f →
        parseStringBody f (appendStringAux n s ++ 0x22 :: rest) = some (s, rest) := by
  intro n
  induction n with
  | zero =>
    intro s hl _ f rest hf
    have hs : s = [] := List.length_eq_zero.1 (by omega)
    subst hs
    obtain ⟨f1, rfl⟩ : ∃ f1, f = f1 + 1 := ⟨f - 1, by omega⟩
    simp only [appendStringAux, List.nil_append]
    exact psb_quote f1 rest
  | succ n ih =>
    intro s hl hv f rest hf
    cases s with
    | nil =>
      obtain ⟨f1, rfl⟩ : ∃ f1, f = f1 + 1 := ⟨f - 1, by omega⟩
      simp only [appendStringAux, List.nil_append]
      exact psb_quote f1 rest
    | cons b t =>
      rw [runesAux_cons, List.all_cons, Bool.and_eq_true] at hv
      obtain ⟨hv1, hv2⟩ := hv
      simp only [List.length_cons] at hl
      rw [appendStringAux] at hf ⊢
      by_cases hb : b < 0x80
      · rw [if_pos hb] at hf ⊢
        rw [decode_ascii b t hb] at hv2
        simp only [List.drop_succ_cons, List.drop_zero] at hv2
        simp only [List.length_append] at hf
        have hrec : ∀ f1, (appendStringAux n t).length < f1 →
            parseStringBody f1 (appendStringAux n t ++ 0x22 :: rest) = some (t, rest) :=
          fun f1 h => ih t (by omega) hv2 f1 rest h
        obtain ⟨f1, rfl⟩ : ∃ f1, f = f1 + 1 := ⟨f - 1, by omega⟩
        by_cases hsafe : htmlSafeSet b = true
        · rw [if_pos hsafe] at hf ⊢
          simp only [htmlSafeSet, Bool.and_eq_true, decide_eq_true_eq, ne_eq,
            decide_not, Bool.not_eq_true', decide_eq_false_iff_not] at hsafe
          simp only [List.length_cons, List.length_nil] at hf
          simp only [List.cons_append, List.nil_append]
          rw [psb_plain f1 b _ (by omega) (by omega) (by omega) hb, hrec f1 (by omega)]
          rfl
        rw [if_neg hsafe] at hf ⊢
        by_cases hq : (decide (b = 0x5C) || decide (b = 0x22)) = true
        · rw [if_pos hq] at hf ⊢
          simp only [Bool.or_eq_true, decide_eq_true_eq] at hq
          simp only [List.length_cons, List.length_nil] at hf
          simp only [List.cons_append, List.nil_append]
          rw [psb_esc f1 b b _ (by omega) (by rcases hq with h | h <;> rw [h] <;> rfl),
            hrec f1 (by omega)]
          rfl
        rw [if_neg hq] at hf ⊢
        by_cases h8 : b = 8
        · rw [if_pos h8] at hf ⊢
          simp only [List.length_cons, List.length_nil] at hf
          simp only [List.cons_append, List.nil_append]
          rw [psb_esc f1 0x62 8 _ (by decide) (by decide), hrec f1 (by omega), h8]
          rfl
        rw [if_neg h8] at hf ⊢
        by_cases h12 : b = 12
        · rw [if_pos h12] at hf ⊢
          simp only [List.length_cons, List.length_nil] at hf
          simp only [List.cons_append, List.nil_append]
          rw [psb_esc f1 0x66 12 _ (by decide) (by decide), hrec f1 (by omega), h12]
          rfl
        rw [if_neg h12] at hf ⊢
        by_cases h10 : b = 10
        · rw [if_pos h10] at hf ⊢
          simp only [List.length_cons, List.length_nil] at hf
          simp only [List.cons_append, List.nil_append]
          rw [psb_esc f1 0x6E 10 _ (by decide) (by decide), hrec f1 (by omega), h10]
          rfl
        rw [if_neg h10] at hf ⊢
        by_cases h13 : b = 13
        · rw [if_pos h13] at hf ⊢
          simp only [List.length_cons, List.length_nil] at hf
          simp only [List.cons_append, List.nil_append]
          rw [psb_esc f1 0x72 13 _ (by decide) (by decide), hrec f1 (by omega), h13]
          rfl
        rw [if_neg h13] at hf ⊢
        by_cases h9 : b = 9
        · rw [if_pos h9] at hf ⊢
          simp only [List.length_cons, List.length_nil] at hf
          simp only [List.cons_append, List.nil_append]
          rw [psb_esc f1 0x74 9 _ (by decide) (by decide), hrec f1 (by omega), h9]
          rfl
        rw [if_neg h9] at hf ⊢
        simp only [List.length_cons, List.length_nil] at hf
        simp only [List.cons_append, List.nil_append]
        rw [psb_u f1 b _ _ (getu4_ascii b hb _) (by omega), hrec f1 (by omega)]
        simp [EncodeRune, hb, consText]
      · rw [if_neg hb] at hf ⊢
        simp only at hf ⊢
        have hvalid : ¬ ((DecodeRuneInString (b :: t)).1 = RuneError ∧
            (DecodeRuneInString (b :: t)).2 = 1) := by
          intro h
          rw [h.1, h.2] at hv1
          simp at hv1
        obtain ⟨hk1, hk2, henc, hdec⟩ := decode_encode (b :: t) (by simp) hvalid
        rw [if_neg (by simpa using hvalid)] at hf ⊢
        simp only [List.length_cons] at hk2
        have hrec : ∀ f1, (appendStringAux n ((b :: t).drop (DecodeRuneInString (b :: t)).2)).length
              < f1 →
            parseStringBody f1 (appendStringAux n ((b :: t).drop (DecodeRuneInString (b :: t)).2)
              ++ 0x22 :: rest) =
            some ((b :: t).drop (DecodeRuneInString (b :: t)).2, rest) :=
          fun f1 h => ih _ (by rw [List.length_drop]; simp only [List.length_cons]; omega) hv2
            f1 rest h
        obtain ⟨f1, rfl⟩ : ∃ f1, f = f1 + 1 := ⟨f - 1, by omega⟩
        by_cases hls : (decide ((DecodeRuneInString (b :: t)).1 = 0x2028) ||
            decide ((DecodeRuneInString (b :: t)).1 = 0x2029)) = true
        · rw [if_pos hls] at hf ⊢
          simp only [Bool.or_eq_true, decide_eq_true_eq] at hls
          simp only [List.length_append] at hf
          have hg : getu4 ([0x32, 0x30, 0x32] ++ ([hex ((DecodeRuneInString (b :: t)).1 % 16)] ++
              (appendStringAux n ((b :: t).drop (DecodeRuneInString (b :: t)).2) ++ 0x22 :: rest)))
              = some ((DecodeRuneInString (b :: t)).1,
                appendStringAux n ((b :: t).drop (DecodeRuneInString (b :: t)).2) ++
                  0x22 :: rest) := by
            rcases hls with h | h <;> rw [h] <;> rfl
          have hl5 : lit "\\u202" = 0x5C :: 0x75 :: [0x32, 0x30, 0x32] := by decide
          have hl5' : (lit "\\u202").length = 5 := by decide
          rw [hl5'] at hf
          simp only [List.length_cons, List.length_nil] at hf
          rw [hl5, List.append_assoc, List.append_assoc, List.cons_append, List.cons_append]
          rw [psb_u f1 _ _ _ hg (by rcases hls with h | h <;> rw [h] <;> omega),
            hrec f1 (by omega), henc]
          simp only [consText, List.take_append_drop]
        · rw [if_neg hls] at hf ⊢
          simp only [List.length_append, List.length_take, List.length_cons] at hf
          have htk : (b :: t).take (DecodeRuneInString (b :: t)).2 =
              b :: t.take ((DecodeRuneInString (b :: t)).2 - 1) := by
            obtain ⟨k, hk⟩ : ∃ k, (DecodeRuneInString (b :: t)).2 = k + 1 :=
              ⟨(DecodeRuneInString (b :: t)).2 - 1, by omega⟩
            rw [hk]; simp
          rw [List.append_assoc]
          have hd := hdec (appendStringAux n ((b :: t).drop (DecodeRuneInString (b :: t)).2) ++
            0x22 :: rest)
          rw [htk] at hd ⊢
          rw [List.cons_append] at hd
          rw [List.cons_append, psb_raw f1 b _ (by omega), hd]
          rw [← List.cons_append, ← htk, List.drop_left' (by
            rw [List.length_take]; simp only [List.length_cons]; omega)]
          rw [hrec f1 (by omega), henc]
          simp only [consText, List.take_append_drop]

end Taskctl

namespace Taskctl

/-! ## What `saveTasks` writes, `loadTasks` reads back -/

theorem parseKey (s rest : GoString) (hv : ValidString s = true) :
    parseStringBody (appendStringAux s.length s ++ 0x22 :: rest).length
      (appendStringAux s.length s ++ 0x22 :: rest) = some (s, rest) := by
  apply parse_appendStringAux s.length s (le_refl _) hv
  simp only [List.length_append, List.length_cons]
  omega

theorem parseValue_string (s rest : GoString) (hv : ValidString s = true) :
    parseValue (appendString s ++ rest) = some (FieldValue.str s, rest) := by
  unfold appendString parseValue
  simp only [List.singleton_append, List.cons_append, List.append_assoc, if_true,
    List.nil_append]
  rw [parseKey s rest hv]

theorem parseValue_bool (b : Bool) (rest : GoString) :
    parseValue ((if b then lit "true" else lit "false") ++ rest) =
      some (FieldValue.bool b, rest) := by
  cases b
  · have : lit "false" = [0x66, 0x61, 0x6C, 0x73, 0x65] := by decide
    simp [parseValue, this, lit, List.isPrefixOf]
  · have : lit "true" = [0x74, 0x72, 0x75, 0x65] := by decide
    simp [parseValue, this, lit, List.isPrefixOf]

theorem skipSpace_quote (X : GoString) : skipSpace (0x22 :: X) = 0x22 :: X := by
  simp [skipSpace, isSpaceJSON]

theorem skipSpace_appendString (s X : GoString) :
    skipSpace (appendString s ++ X) = appendString s ++ X := by
  unfold appendString
  simp only [List.singleton_append, List.cons_append, List.append_assoc]
  exact skipSpace_quote _

theorem skipSpace_bool (b : Bool) (X : GoString) :
    skipSpace ((if b then lit "true" else lit "false") ++ X) =
      (if b then lit "true" else lit "false") ++ X := by
  cases b
  · have : lit "false" = [0x66, 0x61, 0x6C, 0x73, 0x65] := by decide
    simp [this, skipSpace, isSpaceJSON]
  · have : lit "true" = [0x74, 0x72, 0x75, 0x65] := by decide
    simp [this, skipSpace, isSpaceJSON]

/-- One member `key: value,` of an indented object, followed by further
members. -/
theorem parseMembers_step (fuel : Nat) (key : GoString) (v : FieldValue)
    (enc X : GoString) (t t1 : Task) (hkey : ValidString key = true)
    (hval : ∀ Y, parseValue (enc ++ Y) = some (v, Y))
    (henc : ∀ Y, skipSpace (enc ++ Y) = enc ++ Y)
    (hst : storeField key v t = some t1) :
    parseMembers (fuel + 1)
      (10 :: 0x20 :: 0x20 :: 0x20 :: 0x20 :: (appendString key ++ (0x3A :: 0x20 ::
        (enc ++ 0x2C :: X)))) t = parseMembers fuel X t1 := by
  rw [parseMembers]
  have h1 : skipSpace (10 :: 0x20 :: 0x20 :: 0x20 :: 0x20 :: (appendString key ++
      (0x3A :: 0x20 :: (enc ++ 0x2C :: X)))) =
      0x22 :: (appendStringAux key.length key ++ 0x22 :: (0x3A :: 0x20 :: (enc ++ 0x2C :: X))) := by
    simp [skipSpace, isSpaceJSON, appendString]
  rw [h1]
  simp only [ne_eq, not_true_eq_false, if_false]
  rw [parseKey key _ hkey]
  have h2 : skipSpace (0x3A :: 0x20 :: (enc ++ 0x2C :: X)) =
      0x3A :: 0x20 :: (enc ++ 0x2C :: X) := by
    simp [skipSpace, isSpaceJSON]
  simp only [h2]
  have h3 : skipSpace (0x20 :: (enc ++ 0x2C :: X)) = enc ++ 0x2C :: X := by
    rw [skipSpace, if_pos (by decide), henc]
  simp only [h3, hval, hst]
  have h4 : skipSpace (0x2C :: X) = 0x2C :: X := by
    simp [skipSpace, isSpaceJSON]
  simp only [h4, if_true]
  simp

/-- The last member `key: value` of an indented object and the closing
brace. -/
theorem parseMembers_last (fuel : Nat) (key : GoString) (v : FieldValue)
    (enc X : GoString) (t t1 : Task) (hkey : ValidString key = true)
    (hval : ∀ Y, parseValue (enc ++ Y) = some (v, Y))
    (henc : ∀ Y, skipSpace (enc ++ Y) = enc ++ Y)
    (hst : storeField key v t = some t1) :
    parseMembers (fuel + 1)
      (10 :: 0x20 :: 0x20 :: 0x20 :: 0x20 :: (appendString key ++ (0x3A :: 0x20 ::
        (enc ++ 10 :: 0x20 :: 0x20 :: 0x7D :: X)))) t = some (t1, X) := by
  rw [parseMembers]
  have h1 : skipSpace (10 :: 0x20 :: 0x20 :: 0x20 :: 0x20 :: (appendString key ++
      (0x3A :: 0x20 :: (enc ++ 10 :: 0x20 :: 0x20 :: 0x7D :: X)))) =
      0x22 :: (appendStringAux key.length key ++ 0x22 ::
        (0x3A :: 0x20 :: (enc ++ 10 :: 0x20 :: 0x20 :: 0x7D :: X))) := by
    simp [skipSpace, isSpaceJSON, appendString]
  rw [h1]
  simp only [ne_eq, not_true_eq_false, if_false]
  rw [parseKey key _ hkey]
  have h2 : skipSpace (0x3A :: 0x20 :: (enc ++ 10 :: 0x20 :: 0x20 :: 0x7D :: X)) =
      0x3A :: 0x20 :: (enc ++ 10 :: 0x20 :: 0x20 :: 0x7D :: X) := by
    simp [skipSpace, isSpaceJSON]
  simp only [h2]
  have h3 : skipSpace (0x20 :: (enc ++ 10 :: 0x20 :: 0x20 :: 0x7D :: X)) =
      enc ++ 10 :: 0x20 :: 0x20 :: 0x7D :: X := by
    rw [skipSpace, if_pos (by decide), henc]
  simp only [h3, hval, hst]
  have h4 : skipSpace (10 :: 0x20 :: 0x20 :: 0x7D :: X) = 0x7D :: X := by
    simp [skipSpace, isSpaceJSON]
  simp only [h4]
  simp

theorem marshalTask_eq (t : Task) :
    marshalTask t = 0x7B :: 10 :: 0x20 :: 0x20 :: 0x20 :: 0x20 ::
      (appendString (lit "name") ++ (0x3A :: 0x20 :: (appendString t.Name ++ 0x2C ::
      10 :: 0x20 :: 0x20 :: 0x20 :: 0x20 ::
      (appendString (lit "done") ++ (0x3A :: 0x20 :: ((if t.Done then lit "true" else lit "false")
      ++ 0x2C :: 10 :: 0x20 :: 0x20 :: 0x20 :: 0x20 ::
      (appendString (lit "priority") ++ (0x3A :: 0x20 :: (appendString t.Priority ++ 0x2C ::
      10 :: 0x20 :: 0x20 :: 0x20 :: 0x20 ::
      (appendString (lit "dueDate") ++ (0x3A :: 0x20 :: (appendString t.DueDate ++
      10 :: 0x20 :: 0x20 :: [0x7D])))))))))))) := by
  unfold marshalTask
  have e1 : lit "    \"name\": " =
      0x20 :: 0x20 :: 0x20 :: 0x20 :: (appendString (lit "name") ++ [0x3A, 0x20]) := by decide
  have e2 : lit "    \"done\": " =
      0x20 :: 0x20 :: 0x20 :: 0x20 :: (appendString (lit "done") ++ [0x3A, 0x20]) := by decide
  have e3 : lit "    \"priority\": " =
      0x20 :: 0x20 :: 0x20 :: 0x20 :: (appendString (lit "priority") ++ [0x3A, 0x20]) := by decide
  have e4 : lit "    \"dueDate\": " =
      0x20 :: 0x20 :: 0x20 :: 0x20 :: (appendString (lit "dueDate") ++ [0x3A, 0x20]) := by decide
  have e5 : lit "  " = [0x20, 0x20] := by decide
  rw [e1, e2, e3, e4, e5]
  simp only [List.cons_append, List.nil_append, List.append_assoc]

theorem parseMembers_marshalTask (f : Nat) (t t0 : Task) (rest : GoString)
    (h1 : ValidString t.Name = true) (h2 : ValidString t.Priority = true)
    (h3 : ValidString t.DueDate = true) :
    parseMembers (f + 4) (10 :: 0x20 :: 0x20 :: 0x20 :: 0x20 ::
      (appendString (lit "name") ++ (0x3A :: 0x20 :: (appendString t.Name ++ 0x2C ::
      10 :: 0x20 :: 0x20 :: 0x20 :: 0x20 ::
      (appendString (lit "done") ++ (0x3A :: 0x20 :: ((if t.Done then lit "true" else lit "false")
      ++ 0x2C :: 10 :: 0x20 :: 0x20 :: 0x20 :: 0x20 ::
      (appendString (lit "priority") ++ (0x3A :: 0x20 :: (appendString t.Priority ++ 0x2C ::
      10 :: 0x20 :: 0x20 :: 0x20 :: 0x20 ::
      (appendString (lit "dueDate") ++ (0x3A :: 0x20 :: (appendString t.DueDate ++
      10 :: 0x20 :: 0x20 :: 0x7D :: rest))))))))))))) t0 = some (t, rest) := by
  rw [show f + 4 = (f + 3) + 1 from rfl,
    parseMembers_step (f + 3) (lit "name") (FieldValue.str t.Name) (appendString t.Name) _ t0
      { t0 with Name := t.Name } (by decide) (fun Y => parseValue_string _ Y h1)
      (fun Y => skipSpace_appendString _ Y) rfl]
  rw [show f + 3 = (f + 2) + 1 from rfl,
    parseMembers_step (f + 2) (lit "done") (FieldValue.bool t.Done) _ _
      { t0 with Name := t.Name } { t0 with Name := t.Name, Done := t.Done } (by decide)
      (fun Y => parseValue_bool _ Y) (fun Y => skipSpace_bool _ Y) rfl]
  rw [show f + 2 = (f + 1) + 1 from rfl,
    parseMembers_step (f + 1) (lit "priority") (FieldValue.str t.Priority)
      (appendString t.Priority) _ { t0 with Name := t.Name, Done := t.Done }
      { t0 with Name := t.Name, Done := t.Done, Priority := t.Priority } (by decide)
      (fun Y => parseValue_string _ Y h2) (fun Y => skipSpace_appendString _ Y) rfl]
  rw [parseMembers_last f (lit "dueDate") (FieldValue.str t.DueDate)
      (appendString t.DueDate) _ { t0 with Name := t.Name, Done := t.Done, Priority := t.Priority }
      t (by decide) (fun Y => parseValue_string _ Y h3) (fun Y => skipSpace_appendString _ Y)
      rfl]

/-- An object written by `MarshalIndent` is decoded into the task it was
written from, whatever the struct it is decoded into held. -/
theorem parseObject_marshalTask (t t0 : Task) (rest : GoString)
    (h1 : ValidString t.Name = true) (h2 : ValidString t.Priority = true)
    (h3 : ValidString t.DueDate = true) :
    parseObject (marshalTask t ++ rest) t0 = some (t, rest) := by
  rw [marshalTask_eq]
  simp only [List.cons_append, List.append_assoc, List.nil_append]
  rw [parseObject]
  simp only [ne_eq, not_true_eq_false, if_false]
  have hs : ∀ Z, skipSpace (10 :: 0x20 :: 0x20 :: 0x20 :: 0x20 :: (appendString (lit "name") ++ Z)) =
      0x22 :: (appendStringAux (lit "name").length (lit "name") ++ 0x22 :: Z) := by
    intro Z
    simp [skipSpace, isSpaceJSON, appendString]
  rw [hs]
  simp only [Nat.reduceEqDiff, if_false]
  generalize hX : (10 :: 0x20 :: 0x20 :: 0x20 :: 0x20 ::
      (appendString (lit "name") ++ (0x3A :: 0x20 :: (appendString t.Name ++ 0x2C ::
      10 :: 0x20 :: 0x20 :: 0x20 :: 0x20 ::
      (appendString (lit "done") ++ (0x3A :: 0x20 :: ((if t.Done then lit "true" else lit "false")
      ++ 0x2C :: 10 :: 0x20 :: 0x20 :: 0x20 :: 0x20 ::
      (appendString (lit "priority") ++ (0x3A :: 0x20 :: (appendString t.Priority ++ 0x2C ::
      10 :: 0x20 :: 0x20 :: 0x20 :: 0x20 ::
      (appendString (lit "dueDate") ++ (0x3A :: 0x20 :: (appendString t.DueDate ++
      10 :: 0x20 :: 0x20 :: 0x7D :: rest))))))))))))) = X
  obtain ⟨f, hf⟩ : ∃ f, X.length = f + 4 := by
    refine ⟨X.length - 4, ?_⟩
    rw [← hX]
    simp only [List.length_cons]
    omega
  rw [hf, ← hX]
  exact parseMembers_marshalTask f t t0 rest h1 h2 h3

theorem marshalElems_length (ts : List Task) : ts.length ≤ (marshalElems ts).length := by
  induction ts with
  | nil => simp [marshalElems]
  | cons t r ih =>
    cases r with
    | nil => simp [marshalElems]
    | cons t1 r1 =>
      simp only [marshalElems, List.length_append, List.length_cons] at ih ⊢
      omega

/-- The elements written by `MarshalIndent`, up to the closing bracket, are
decoded into the tasks they were written from. -/
theorem parseElements_marshalElems (prior : Nat → Task) :
    ∀ (ts : List Task) (t : Task) (fuel i : Nat) (rest : GoString),
      (∀ u ∈ t :: ts, ValidString u.Name = true ∧ ValidString u.Priority = true ∧
        ValidString u.DueDate = true) →
      ts.length < fuel →
      parseElements prior fuel (marshalElems (t :: ts) ++ 10 :: 0x5D :: rest) i =
        some (t :: ts, rest) := by
  intro ts
  induction ts with
  | nil =>
    intro t fuel i rest hv hf
    obtain ⟨f1, rfl⟩ : ∃ f1, fuel = f1 + 1 := ⟨fuel - 1, by simp at hf; omega⟩
    have hvt := hv t (List.mem_cons_self _ _)
    rw [parseElements]
    have e : marshalElems [t] ++ 10 :: 0x5D :: rest =
        10 :: 0x20 :: 0x20 :: (marshalTask t ++ 10 :: 0x5D :: rest) := by
      simp [marshalElems, lit]
    rw [e]
    have hs : skipSpace (10 :: 0x20 :: 0x20 :: (marshalTask t ++ 10 :: 0x5D :: rest)) =
        marshalTask t ++ 10 :: 0x5D :: rest := by
      rw [marshalTask_eq]
      simp [skipSpace, isSpaceJSON]
    rw [hs, parseObject_marshalTask t _ _ hvt.1 hvt.2.1 hvt.2.2]
    simp [skipSpace, isSpaceJSON]
  | cons t1 r ih =>
    intro t fuel i rest hv hf
    obtain ⟨f1, rfl⟩ : ∃ f1, fuel = f1 + 1 := ⟨fuel - 1, by simp at hf; omega⟩
    have hvt := hv t (List.mem_cons_self _ _)
    rw [parseElements]
    have e : marshalElems (t :: t1 :: r) ++ 10 :: 0x5D :: rest =
        10 :: 0x20 :: 0x20 :: (marshalTask t ++
          0x2C :: (marshalElems (t1 :: r) ++ 10 :: 0x5D :: rest)) := by
      simp [marshalElems, lit]
    rw [e]
    have hs : ∀ Z, skipSpace (10 :: 0x20 :: 0x20 :: (marshalTask t ++ Z)) =
        marshalTask t ++ Z := by
      intro Z
      rw [marshalTask_eq]
      simp [skipSpace, isSpaceJSON]
    rw [hs, parseObject_marshalTask t _ _ hvt.1 hvt.2.1 hvt.2.2]
    have h4 : ∀ Z, skipSpace (0x2C :: Z) = 0x2C :: Z := by
      intro Z; simp [skipSpace, isSpaceJSON]
    simp only [h4, if_true]
    rw [ih t1 f1 (i + 1) rest (fun u hu => hv u (List.mem_cons_of_mem _ hu))
      (by simp only [List.length_cons] at hf; omega)]

theorem marshalElems_head (t : Task) (r : List Task) :
    ∃ W, marshalElems (t :: r) = 10 :: 0x20 :: 0x20 :: 0x7B :: W := by
  cases r with
  | nil =>
    have e : marshalElems [t] = 10 :: 0x20 :: 0x20 :: marshalTask t := by
      simp [marshalElems, lit]
    rw [e, marshalTask_eq]
    exact ⟨_, rfl⟩
  | cons t1 r1 =>
    have e : marshalElems (t :: t1 :: r1) =
        10 :: 0x20 :: 0x20 :: (marshalTask t ++ 0x2C :: marshalElems (t1 :: r1)) := by
      simp [marshalElems, lit]
    rw [e, marshalTask_eq]
    exact ⟨_, rfl⟩

/-- What `json.MarshalIndent` writes for a slice of tasks whose strings are
valid UTF-8, `json.Unmarshal` decodes into the same slice. -/
theorem Unmarshal_MarshalIndent (ts : Option (List Task)) (prior : Nat → Task)
    (hv : ∀ l, ts = some l → ∀ u ∈ l, ValidString u.Name = true ∧
      ValidString u.Priority = true ∧ ValidString u.DueDate = true) :
    Unmarshal (MarshalIndent ts) prior = some ts := by
  cases ts with
  | none => rfl
  | some l =>
    cases l with
    | nil => rfl
    | cons t r =>
      unfold MarshalIndent Unmarshal
      simp only [List.singleton_append, List.cons_append, List.append_assoc, List.nil_append]
      have h1 : ∀ Z, skipSpace (0x5B :: Z) = 0x5B :: Z := by
        intro Z; simp [skipSpace, isSpaceJSON]
      rw [h1]
      simp only [if_true]
      obtain ⟨W, hW⟩ := marshalElems_head t r
      have h2 : skipSpace (marshalElems (t :: r) ++ [10, 0x5D]) =
          0x7B :: (W ++ [10, 0x5D]) := by
        rw [hW]
        simp [skipSpace, isSpaceJSON]
      rw [h2]
      simp only [Nat.reduceEqDiff, if_false]
      rw [parseElements_marshalElems prior r t _ 0 [] (hv _ rfl)
        (by
          have := marshalElems_length (t :: r)
          simp only [List.length_append, List.length_cons, List.length_nil] at this ⊢
          omega)]
      simp [skipSpace]

end Taskctl

namespace Taskctl

/-! ## Persistence -/

theorem runesAux_ascii :
    ∀ (n : Nat) (s : GoString), (∀ b ∈ s, b < 0x80) →
      (runesAux n s).all (fun rs => !(rs.1 = RuneError && rs.2 = 1)) = true := by
  intro n
  induction n with
  | zero => intro s _; simp [runesAux]
  | succ n ih =>
    intro s hs
    cases s with
    | nil => simp [runesAux]
    | cons b t =>
      have hb := hs b (List.mem_cons_self _ _)
      rw [runesAux_cons, decode_ascii b t hb, List.all_cons]
      simp only [List.drop_succ_cons, List.drop_zero]
      rw [ih t (fun c hc => hs c (List.mem_cons_of_mem _ hc))]
      have : ¬ b = RuneError := by unfold RuneError; omega
      simp [this]

theorem ValidString_of_ascii (s : GoString) (h : ∀ b ∈ s, b < 0x80) : ValidString s = true :=
  runesAux_ascii s.length s h

theorem ValidString_of_validPriority (p : GoString) (h : validPriority p) :
    ValidString p = true := by
  rcases h with h | h | h <;> rw [h] <;> decide

theorem ValidString_of_timeParse (s : GoString) (h : (timeParse s).isSome = true) :
    ValidString s = true := by
  apply ValidString_of_ascii
  unfold timeParse at h
  split at h
  · rename_i y1 y2 y3 y4 d1 m1 m2 d2 a1 a2
    split at h
    · rename_i hd
      simp only [isDigit, Bool.and_eq_true, decide_eq_true_eq] at hd
      intro b hb
      simp only [List.mem_cons, List.mem_singleton, List.not_mem_nil, or_false] at hb
      rcases hb with h | h | h | h | h | h | h | h | h | h <;> omega
    · exact absurd h (by simp)
  · exact absurd h (by simp)

theorem saveTasks_file (tm : taskCtlr) (w : World) :
    (saveTasks tm w).files tm.Filename = some (MarshalIndent tm.Tasks) := by
  simp [saveTasks, World.WriteFile]

/-- C1 (amended): for every store whose records have a name that is valid
UTF-8, a priority among low, medium and high and a due date that is empty or
a date `time.Parse` accepts, `saveTasks` followed by `loadTasks` on the same
file returns no error and leaves the store with the very slice that was
saved: same length, same order, same fields.  This holds whatever the store
that loads held before. -/
theorem save_load_roundtrip (tm tm0 : taskCtlr) (w : World) (stale : Nat → Task)
    (hfile : tm0.Filename = tm.Filename)
    (hvalid : ∀ t ∈ tm.elems, ValidString t.Name = true ∧ validPriority t.Priority ∧
      (t.DueDate = [] ∨ (timeParse t.DueDate).isSome = true)) :
    loadTasks tm0 (saveTasks tm w) stale = some (⟨tm.Tasks, tm0.Filename⟩, none) := by
  unfold loadTasks
  rw [hfile, saveTasks_file]
  simp only
  rw [Unmarshal_MarshalIndent]
  intro l hl u hu
  have hu' : u ∈ tm.elems := by
    unfold taskCtlr.elems
    rw [hl]
    exact hu
  obtain ⟨h1, h2, h3⟩ := hvalid u hu'
  refine ⟨h1, ValidString_of_validPriority _ h2, ?_⟩
  rcases h3 with h3 | h3
  · rw [h3]; rfl
  · exact ValidString_of_timeParse _ h3

theorem save_load_roundtrip_witness :
    loadTasks ⟨some [⟨[99, 97, 102, 0xC3, 0xA9], true, lit "high", lit "2025-01-10"⟩], lit "tasks.json"⟩
      (saveTasks ⟨some [⟨[99, 97, 102, 0xC3, 0xA9], true, lit "high", lit "2025-01-10"⟩],
        lit "tasks.json"⟩ emptyWorld) (fun _ => default) =
    some (⟨some [⟨[99, 97, 102, 0xC3, 0xA9], true, lit "high", lit "2025-01-10"⟩],
      lit "tasks.json"⟩, none) :=
  save_load_roundtrip
    ⟨some [⟨[99, 97, 102, 0xC3, 0xA9], true, lit "high", lit "2025-01-10"⟩], lit "tasks.json"⟩
    ⟨some [⟨[99, 97, 102, 0xC3, 0xA9], true, lit "high", lit "2025-01-10"⟩], lit "tasks.json"⟩
    emptyWorld (fun _ => default) rfl
    (by
      intro t ht
      have : t = ⟨[99, 97, 102, 0xC3, 0xA9], true, lit "high", lit "2025-01-10"⟩ := by
        simpa [taskCtlr.elems] using ht
      subst this
      exact ⟨by decide, Or.inr (Or.inr rfl), Or.inr (by decide)⟩)

/-- C1, refuted as stated: a task whose name is the byte 0xFF (a Go string
that is not valid UTF-8) is saved and loaded without error, and comes back
with the name U+FFFD, the three bytes EF BF BD. -/
theorem save_load_changes_invalid_utf8 :
    loadTasks ⟨some [latin1Task], lit "tasks.json"⟩
      (saveTasks ⟨some [latin1Task], lit "tasks.json"⟩ emptyWorld) (fun _ => default) =
    some (⟨some [⟨[0xEF, 0xBF, 0xBD], false, lit "low", []⟩], lit "tasks.json"⟩, none) ∧
    (⟨[0xEF, 0xBF, 0xBD], false, lit "low", []⟩ : Task) ≠ latin1Task := by
  decide

end Taskctl

namespace Taskctl

/-! ## The loop bounds are never reached

The functions below carry a bound on the number of iterations of a loop of
the source.  With the bound their callers give, the loop ends by its own
condition: a larger bound gives the same result. -/

theorem decode_width (s : GoString) (hs : s ≠ []) :
    1 ≤ (DecodeRuneInString s).2 ∧ (DecodeRuneInString s).2 ≤ s.length := by
  by_cases hv : (DecodeRuneInString s).1 = RuneError ∧ (DecodeRuneInString s).2 = 1
  · rw [hv.2]
    cases s with
    | nil => exact absurd rfl hs
    | cons b t => simp
  · have := decode_encode s hs hv
    exact ⟨this.1, this.2.1⟩

theorem runesAux_bound :
    ∀ (n m : Nat) (s : GoString), s.length ≤ n → s.length ≤ m → runesAux n s = runesAux m s := by
  intro n
  induction n with
  | zero =>
    intro m s hn _
    have : s = [] := List.length_eq_zero.1 (by omega)
    subst this
    cases m <;> simp [runesAux]
  | succ n ih =>
    intro m s hn hm
    cases s with
    | nil => cases m <;> simp [runesAux]
    | cons b t =>
      obtain ⟨m1, rfl⟩ : ∃ m1, m = m1 + 1 := ⟨m - 1, by simp at hm; omega⟩
      have hw := decode_width (b :: t) (by simp)
      rw [runesAux_cons, runesAux_cons]
      simp only [List.length_cons] at hn hm hw
      rw [ih m1 _ (by rw [List.length_drop]; simp only [List.length_cons]; omega)
        (by rw [List.length_drop]; simp only [List.length_cons]; omega)]

theorem appendStringAux_bound :
    ∀ (n m : Nat) (s : GoString), s.length ≤ n → s.length ≤ m →
      appendStringAux n s = appendStringAux m s := by
  intro n
  induction n with
  | zero =>
    intro m s hn _
    have : s = [] := List.length_eq_zero.1 (by omega)
    subst this
    cases m <;> simp [appendStringAux]
  | succ n ih =>
    intro m s hn hm
    cases s with
    | nil => cases m <;> simp [appendStringAux]
    | cons b t =>
      obtain ⟨m1, rfl⟩ : ∃ m1, m = m1 + 1 := ⟨m - 1, by simp at hm; omega⟩
      have hw := decode_width (b :: t) (by simp)
      simp only [List.length_cons] at hn hm hw
      have h1 := ih m1 t (by omega) (by omega)
      have h2 := ih m1 ((b :: t).drop (DecodeRuneInString (b :: t)).2)
        (by rw [List.length_drop]; simp only [List.length_cons]; omega)
        (by rw [List.length_drop]; simp only [List.length_cons]; omega)
      simp only [appendStringAux]
      rw [h1, h2]

theorem trimLeftSpace_bound :
    ∀ (n m : Nat) (s : GoString), s.length ≤ n → s.length ≤ m →
      trimLeftSpace n s = trimLeftSpace m s := by
  intro n
  induction n with
  | zero =>
    intro m s hn _
    have : s = [] := List.length_eq_zero.1 (by omega)
    subst this
    cases m <;> simp [trimLeftSpace]
  | succ n ih =>
    intro m s hn hm
    cases s with
    | nil => cases m <;> simp [trimLeftSpace]
    | cons b t =>
      obtain ⟨m1, rfl⟩ : ∃ m1, m = m1 + 1 := ⟨m - 1, by simp at hm; omega⟩
      have hw := decode_width (b :: t) (by simp)
      simp only [List.length_cons] at hn hm hw
      have h2 := ih m1 ((b :: t).drop (DecodeRuneInString (b :: t)).2)
        (by rw [List.length_drop]; simp only [List.length_cons]; omega)
        (by rw [List.length_drop]; simp only [List.length_cons]; omega)
      simp only [trimLeftSpace]
      rw [h2]

theorem lastRuneStart_le (s : GoString) (lim : Nat) :
    ∀ k, lastRuneStart s lim k ≤ k := by
  intro k
  induction k with
  | zero => simp [lastRuneStart]
  | succ k ih =>
    unfold lastRuneStart
    split
    · exact le_refl _
    · split
      · exact le_refl _
      · omega

theorem decodeLast_width (s : GoString) (hs : s ≠ []) :
    1 ≤ (DecodeLastRuneInString s).2 ∧ (DecodeLastRuneInString s).2 ≤ s.length := by
  have hl : 0 < s.length := List.length_pos.2 hs
  unfold DecodeLastRuneInString
  simp only
  rw [if_neg (by omega)]
  split
  · exact ⟨le_refl _, hl⟩
  · split
    · exact ⟨le_refl _, hl⟩
    · rename_i h
      have h1 := lastRuneStart_le s (s.length - 4) (s.length - 1)
      have h2 := decode_width (s.drop (lastRuneStart s (s.length - 4) (s.length - 1) - 1))
        (by
          intro h0
          have := congrArg List.length h0
          rw [List.length_drop] at this
          simp only [List.length_nil] at this
          omega)
      constructor
      · exact h2.1
      · simp only [ne_eq, Decidable.not_not] at h
        omega

theorem trimRightSpace_bound :
    ∀ (n m : Nat) (s : GoString), s.length ≤ n → s.length ≤ m →
      trimRightSpace n s = trimRightSpace m s := by
  intro n
  induction n with
  | zero =>
    intro m s hn _
    have : s = [] := List.length_eq_zero.1 (by omega)
    subst this
    cases m <;> simp [trimRightSpace]
  | succ n ih =>
    intro m s hn hm
    cases s with
    | nil => cases m <;> simp [trimRightSpace]
    | cons b t =>
      obtain ⟨m1, rfl⟩ : ∃ m1, m = m1 + 1 := ⟨m - 1, by simp at hm; omega⟩
      have hw := decodeLast_width (b :: t) (by simp)
      simp only [List.length_cons] at hn hm hw
      have h2 := ih m1 ((b :: t).take ((b :: t).length - (DecodeLastRuneInString (b :: t)).2))
        (by rw [List.length_take]; simp only [List.length_cons]; omega)
        (by rw [List.length_take]; simp only [List.length_cons]; omega)
      simp only [trimRightSpace]
      rw [h2]

theorem trimSpaceRight_bound :
    ∀ (n m : Nat) (s : GoString), s.length ≤ n → s.length ≤ m →
      trimSpaceRight n s = trimSpaceRight m s := by
  intro n
  induction n with
  | zero =>
    intro m s hn _
    have : s = [] := List.length_eq_zero.1 (by omega)
    subst this
    cases m <;> simp [trimSpaceRight]
  | succ n ih =>
    intro m s hn hm
    by_cases hs : s = []
    · subst hs
      cases m <;> simp [trimSpaceRight]
    · obtain ⟨m1, rfl⟩ : ∃ m1, m = m1 + 1 :=
        ⟨m - 1, by have := List.length_pos.2 hs; omega⟩
      have hl := List.length_pos.2 hs
      have h2 := ih m1 s.dropLast (by rw [List.length_dropLast]; omega)
        (by rw [List.length_dropLast]; omega)
      simp only [trimSpaceRight]
      rw [h2]

/-- Go `bits.Len`: `bitsLen n` is the number of binary digits of `n`. -/
theorem bitsLen_spec (n : Nat) :
    n < 2 ^ bitsLen n ∧ (0 < n → 2 ^ (bitsLen n - 1) ≤ n) := by
  have key : ∀ (fuel n : Nat), n ≤ fuel →
      n < 2 ^ bitsLenAux fuel n ∧ (0 < n → 2 ^ (bitsLenAux fuel n - 1) ≤ n) := by
    intro fuel
    induction fuel with
    | zero =>
      intro n hn
      have : n = 0 := by omega
      subst this
      simp [bitsLenAux]
    | succ fuel ih =>
      intro n hn
      unfold bitsLenAux
      split
      · rename_i h0
        subst h0
        simp
      · rename_i h0
        have h := ih (n / 2) (by omega)
        rw [show 1 + bitsLenAux fuel (n / 2) = bitsLenAux fuel (n / 2) + 1 from Nat.add_comm _ _]
        refine ⟨?_, ?_⟩
        · rw [Nat.pow_succ]
          omega
        · intro _
          simp only [Nat.add_sub_cancel]
          by_cases h2 : n / 2 = 0
          · rw [h2]
            have : bitsLenAux fuel 0 = 0 := by cases fuel <;> simp [bitsLenAux]
            rw [this]
            simp only [pow_zero]
            omega
          · have h3 := h.2 (by omega)
            obtain ⟨k, hk⟩ : ∃ k, bitsLenAux fuel (n / 2) = k + 1 := by
              refine ⟨bitsLenAux fuel (n / 2) - 1, ?_⟩
              have : bitsLenAux fuel (n / 2) ≠ 0 := by
                intro h4
                rw [h4] at h
                simp only [pow_zero] at h
                omega
              omega
            rw [hk] at h3 ⊢
            simp only [Nat.add_sub_cancel] at h3
            rw [Nat.pow_succ]
            omega
  exact key n n (le_refl _)

section ReverseSpec

variable {α : Type} [Inhabited α]

theorem reverseLoop_spec :
    ∀ (fuel : Nat) (d : List α) (i j : Nat), i ≤ j + 1 → j < d.length → j + 1 ≤ i + 2 * fuel →
      ∀ k, (reverseLoop fuel d i j).getD k default =
        if i ≤ k ∧ k ≤ j then d.getD (i + j - k) default else d.getD k default := by
  intro fuel
  induction fuel with
  | zero =>
    intro d i j h1 h2 h3 k
    simp only [reverseLoop]
    split
    · rename_i h
      have : i + j - k = k := by omega
      rw [this]
    · rfl
  | succ fuel ih =>
    intro d i j h1 h2 h3 k
    unfold reverseLoop
    split
    · rename_i hij
      rw [ih (Swap d i j) (i + 1) (j - 1) (by omega) (by rw [Swap_length]; omega) (by omega) k]
      by_cases hk : i + 1 ≤ k ∧ k ≤ j - 1
      · rw [if_pos hk, if_pos (by omega), getD_Swap d i j _ (by omega) h2,
          if_neg (by omega), if_neg (by omega)]
        congr 1
        omega
      · rw [if_neg hk, getD_Swap d i j k (by omega) h2]
        by_cases hkj : k = j
        · subst hkj
          rw [if_pos rfl, if_pos (by omega)]
          congr 1
          omega
        · rw [if_neg hkj]
          by_cases hki : k = i
          · subst hki
            rw [if_pos rfl, if_pos (by omega)]
            congr 1
            omega
          · rw [if_neg hki, if_neg (by omega)]
    · rename_i hij
      split
      · rename_i h
        have : i + j - k = k := by omega
        rw [this]
      · rfl

/-- The function `reverseRange_func` reverses the range `[a, b)`. -/
theorem reverseRange_func_spec (d : List α) (a b : Nat) (hab : a < b) (hb : b ≤ d.length)
    (k : Nat) :
    (reverseRange_func d a b).getD k default =
      if a ≤ k ∧ k < b then d.getD (a + (b - 1) - k) default else d.getD k default := by
  unfold reverseRange_func
  rw [reverseLoop_spec d.length d a (b - 1) (by omega) (by omega) (by omega) k]
  by_cases h : a ≤ k ∧ k < b
  · rw [if_pos h, if_pos (by omega)]
  · rw [if_neg h, if_neg (by omega)]

end ReverseSpec

end Taskctl
